import Mathlib

/-!
Verification of the maze library in `src/main.rs` (module `maze_operations`).

The Rust code is shallowly embedded: the cell matrix `Vec<Vec<Cell>>`
becomes a total function `Nat → Nat → Cell` together with explicit
dimensions, every random draw of `thread_rng` becomes an explicit oracle
argument (`gen_range lo..hi` results are taken modulo the range size or
re-checked exactly as the rejection loops in the source do), and the
recursive procedures are given explicit fuel; each top-level entry point
passes fuel that provably suffices, so the fueled functions compute the
same results as the Rust recursion on every real execution.
-/

structure Cell where
  wall : Bool
  visited : Bool
deriving DecidableEq

abbrev Grid := Nat → Nat → Cell

abbrev Pos := Nat × Nat

/-- `cells[p.0][p.1].wall = b` -/
def setWall (g : Grid) (p : Pos) (b : Bool) : Grid :=
  fun i j => if i = p.1 ∧ j = p.2 then ⟨b, (g i j).visited⟩ else g i j

/-- `cells[p.0][p.1].visited = b` -/
def setVisited (g : Grid) (p : Pos) (b : Bool) : Grid :=
  fun i j => if i = p.1 ∧ j = p.2 then ⟨(g i j).wall, b⟩ else g i j

/-- the two assignments `current.wall = false; current.visited = true`
at the head of the source's `walk` -/
def carveMark (g : Grid) (p : Pos) : Grid :=
  fun i j => if i = p.1 ∧ j = p.2 then ⟨false, true⟩ else g i j

/-- the loop in `unsolve` / at the end of `gen_from_walk`:
`cell.visited = false` for every cell -/
def clearVisited (g : Grid) : Grid :=
  fun i j => ⟨(g i j).wall, false⟩

structure Maze where
  dimensions : Pos
  entrypoint : Pos
  goalpoint : Pos
  cells : Grid

inductive CreationAlgorithm where
  | RandomWalk
  | RecursiveDivision
  | Prim
deriving DecidableEq

inductive SolvingAlgorithm where
  | RecursiveBacktracking
  | DeadEndFilling
deriving DecidableEq

/-! ### Random walk generation (`gen_from_walk`) -/

/-- the `two_offsets` array of `walk` (order as in the source) -/
def walkOffsets : List (Int × Int) := [(-2, 0), (2, 0), (0, -2), (0, 2)]

/-- The `for two_offset in get_two_offset_shuffle()` loop body of `walk`:
try one two-offset: if the two-away cell is strictly inside the border and
unvisited, open the cell in between and walk from the two-away cell.
`step` is the recursive call to `walk`. -/
def walkTry (dims : Pos) (step : Grid → Pos → Grid) :
    Grid → Pos → List (Int × Int) → Grid
  | g, _, [] => g
  | g, pos, off :: rest =>
      let ty : Int := (pos.1 : Int) + off.1
      let tx : Int := (pos.2 : Int) + off.2
      let g' :=
        if 0 < ty ∧ ty < (dims.1 : Int) - 1 ∧ 0 < tx ∧ tx < (dims.2 : Int) - 1
            ∧ (g ty.toNat tx.toNat).visited = false then
          step (setWall g (((pos.1 : Int) + off.1 / 2).toNat,
                           ((pos.2 : Int) + off.2 / 2).toNat) false)
               (ty.toNat, tx.toNat)
        else g
      walkTry dims step g' pos rest

/-- The recursive `walk` of `gen_from_walk`.  `σ` produces, for the current
grid and position, the list returned by `get_two_offset_shuffle()` (a random
permutation of `walkOffsets` in the source; the theorems quantify over all
such oracles).  Fuel is consumed at each recursive call; the caller passes
enough fuel for the recursion (which in the source is bounded by the number
of unvisited cells) never to exhaust it. -/
def walkGo (σ : Grid → Pos → List (Int × Int)) (dims : Pos) :
    Nat → Grid → Pos → Grid
  | 0, g, _ => g
  | fuel + 1, g, pos =>
      let g1 := carveMark g pos
      walkTry dims (fun g2 p2 => walkGo σ dims fuel g2 p2) g1 pos (σ g1 pos)

/-- `gen_from_walk`.  `starter` is the result of the rejection loop drawing
a random interior cell with both coordinates odd. -/
def gen_from_walk (σ : Grid → Pos → List (Int × Int)) (starter : Pos)
    (h w : Nat) (cells : Grid) : Maze :=
  let entrypoint : Pos := (1, 0)
  let goalpoint : Pos := (h - 2, w - 1)
  let c1 := setWall cells entrypoint false
  let c2 := setWall c1 goalpoint false
  let c3 := walkGo σ (h, w) (h * w) c2 starter
  { dimensions := (h, w), entrypoint := entrypoint, goalpoint := goalpoint,
    cells := clearVisited c3 }

/-! ### Prim generation (`gen_from_prim`) -/

/-- the `two_offsets` array of `gen_from_prim` (order as in the source) -/
def primOffsets : List (Int × Int) := [(-2, 0), (2, 0), (0, 2), (0, -2)]

/-- one iteration of the `append_frontiers` loop body -/
def afStep (h w : Nat) (g : Grid) (pos : Pos) (fs : List Pos)
    (off : Int × Int) : List Pos :=
  let ty : Int := (pos.1 : Int) + off.1
  let tx : Int := (pos.2 : Int) + off.2
  if 0 < ty ∧ ty < (h : Int) - 1 ∧ 0 < tx ∧ tx < (w : Int) - 1
      ∧ (g ty.toNat tx.toNat).wall = true
      ∧ (ty.toNat, tx.toNat) ∉ fs then
    fs ++ [(ty.toNat, tx.toNat)]
  else fs

/-- `append_frontiers`: push every strictly-interior two-away wall cell not
already in the list -/
def appendFrontiers (h w : Nat) (g : Grid) (frontiers : List Pos) (pos : Pos) :
    List Pos :=
  primOffsets.foldl (afStep h w g pos) frontiers

/-- one iteration of the `two_neighbors` collection loop body -/
def tnStep (h w : Nat) (g : Grid) (current : Pos) (ns : List Pos)
    (off : Int × Int) : List Pos :=
  let ty : Int := (current.1 : Int) + off.1
  let tx : Int := (current.2 : Int) + off.2
  if 0 < ty ∧ ty < (h : Int) - 1 ∧ 0 < tx ∧ tx < (w : Int) - 1
      ∧ (g ty.toNat tx.toNat).wall = false then
    ns ++ [(ty.toNat, tx.toNat)]
  else ns

/-- the `two_neighbors` collection loop of the Prim main loop: the
strictly-interior two-away cells of `current` that are open -/
def primTwoNeighbors (h w : Nat) (g : Grid) (current : Pos) : List Pos :=
  primOffsets.foldl (tnStep h w g current) []

/-- the `if let Some(..) = two_neighbors.choose(&mut rng)` step of the Prim
main loop: when the collected `two_neighbors` list is non-empty, open the
cell between `current` and a randomly drawn member -/
def primConnect (pickN : Grid → List Pos → Nat) (g1 : Grid) (current : Pos) :
    List Pos → Grid
  | [] => g1
  | tn0 :: tnrest =>
    let tns := tn0 :: tnrest
    let j := pickN g1 tns % tns.length
    let tn := tns.getD j (0, 0)
    setWall g1 ((tn.1 + current.1) / 2, (tn.2 + current.2) / 2) false

/-- the `while frontiers.len() > 0` loop of `gen_from_prim`: draw a frontier
cell, open it, connect it to a random open two-neighbour, append its new
frontier cells, remove it.  Also returns the final frontier list so the
termination claim can speak about it. -/
def primLoop (pickF pickN : Grid → List Pos → Nat) (h w : Nat) :
    Nat → Grid → List Pos → Grid × List Pos
  | 0, g, fs => (g, fs)
  | fuel + 1, g, fs =>
    if fs.length = 0 then (g, fs)
    else
      let idx := pickF g fs % fs.length
      let current := fs.getD idx (0, 0)
      let g1 := setWall g current false
      let g2 := primConnect pickN g1 current (primTwoNeighbors h w g1 current)
      let fs2 := appendFrontiers h w g2 fs current
      primLoop pickF pickN h w fuel g2 (fs2.eraseIdx idx)

/-- `gen_from_prim`.  `starter` is the result of the odd/odd rejection
loop; `pickF` and `pickN` are the random index draws (reduced modulo the
list length, which on the real in-range draws is the identity). -/
def gen_from_prim (pickF pickN : Grid → List Pos → Nat) (starter : Pos)
    (h w : Nat) (cells : Grid) : Maze :=
  let entrypoint : Pos := (1, 0)
  let goalpoint : Pos := (h - 2, w - 1)
  let c1 := setWall cells entrypoint false
  let c2 := setWall c1 goalpoint false
  let c3 := setWall c2 starter false
  let fs0 := appendFrontiers h w c3 [] starter
  { dimensions := (h, w), entrypoint := entrypoint, goalpoint := goalpoint,
    cells := (primLoop pickF pickN h w (2 * (h * w) + 5) c3 fs0).1 }

/-! ### Recursive-division generation (`gen_from_divide`) -/

/-- The even wall-index rejection loop of `divide`: the source re-draws
until the value is even (and `gen_range` keeps it inside `lo..hi`).  A draw
outside that set is replaced by the smallest even value `≥ lo`; on every
real call the final value of the loop is some even in-range value and every
such value is representable, so the sanitised oracle ranges over exactly
the real outcomes. -/
def evenPick (v lo hi : Nat) : Nat :=
  if lo ≤ v ∧ v < hi ∧ v % 2 = 0 then v else lo + lo % 2

/-- the odd hole-index rejection loop of `divide` (same convention) -/
def oddPick (v lo hi : Nat) : Nat :=
  if lo ≤ v ∧ v < hi ∧ v % 2 = 1 then v else lo + 1 - lo % 2

/-- the loop `for i in (top_left.1 + 1)..bottom_right.1 {
cells[wall_index][i].wall = true }` -/
def setWallRow (g : Grid) (r lo hi : Nat) : Grid :=
  fun i j => if i = r ∧ lo ≤ j ∧ j < hi then ⟨true, (g i j).visited⟩ else g i j

/-- the corresponding vertical loop -/
def setWallCol (g : Grid) (c lo hi : Nat) : Grid :=
  fun i j => if lo ≤ i ∧ i < hi ∧ j = c then ⟨true, (g i j).visited⟩ else g i j

/-- The recursive `divide` of `gen_from_divide`.  `wp`/`hp` are the random
wall/hole draws for the region being divided.  Fuel bounds the recursion
depth, which shrinks with the region perimeter; `gen_from_divide` passes
`h + w`, which suffices on every real region. -/
def divide (wp hp : Pos → Pos → Nat) : Nat → Grid → Pos → Pos → Grid
  | 0, g, _, _ => g
  | fuel + 1, g, tl, br =>
    let height := br.1 - tl.1
    let width := br.2 - tl.2
    if height = 2 ∨ width = 2 then g
    else if width ≤ height then
      let wi := evenPick (wp tl br) (tl.1 + 1) br.1
      let g1 := setWallRow g wi (tl.2 + 1) br.2
      let hi := oddPick (hp tl br) (tl.2 + 1) br.2
      let g2 := setWall g1 (wi, hi) false
      let g3 := divide wp hp fuel g2 tl (wi, br.2)
      divide wp hp fuel g3 (wi, tl.2) br
    else
      let wi := evenPick (wp tl br) (tl.2 + 1) br.2
      let g1 := setWallCol g wi (tl.1 + 1) br.1
      let hi := oddPick (hp tl br) (tl.1 + 1) br.1
      let g2 := setWall g1 (hi, wi) false
      let g3 := divide wp hp fuel g2 tl (br.1, wi)
      divide wp hp fuel g3 (tl.1, wi) br

/-- the two border loops of `gen_from_divide` (top/bottom rows then
left/right columns, all set to wall) -/
def borderWalls (h w : Nat) (g : Grid) : Grid :=
  fun i j =>
    if i = 0 ∨ i = h - 1 ∨ j = 0 ∨ j = w - 1 then ⟨true, (g i j).visited⟩
    else g i j

/-- `gen_from_divide` -/
def gen_from_divide (wp hp : Pos → Pos → Nat) (h w : Nat) (cells : Grid) :
    Maze :=
  let entrypoint : Pos := (1, 0)
  let goalpoint : Pos := (h - 2, w - 1)
  let c1 := borderWalls h w cells
  let c2 := setWall c1 entrypoint false
  let c3 := setWall c2 goalpoint false
  { dimensions := (h, w), entrypoint := entrypoint, goalpoint := goalpoint,
    cells := divide wp hp (h + w) c3 (0, 0) (h - 1, w - 1) }

/-! ### Construction entry point (`new_from`) -/

/-- All the random draws consumed by the three generators, made explicit. -/
structure GenOracle where
  /-- `get_two_offset_shuffle` results in `gen_from_walk` -/
  shuffle : Grid → Pos → List (Int × Int)
  /-- result of the odd/odd rejection loop (walk and Prim) -/
  starter : Pos
  /-- `rng.gen_range(0..frontiers.len())` draws in `gen_from_prim` -/
  pickFrontier : Grid → List Pos → Nat
  /-- `two_neighbors.choose(&mut rng)` draws in `gen_from_prim` -/
  pickNeighbor : Grid → List Pos → Nat
  /-- wall-index draws of `divide` -/
  wallPick : Pos → Pos → Nat
  /-- hole-index draws of `divide` -/
  holePick : Pos → Pos → Nat

/-- `Maze::new_from`.  The `panic!("Can't create a maze this small")` on
dimensions below 3x3 is modelled as `none`.  Even dimensions are
incremented by one exactly as in the source. -/
def new_from (d : Pos) (algorithm : CreationAlgorithm) (r : GenOracle) :
    Option Maze :=
  if d.1 ≤ 2 ∨ d.2 ≤ 2 then none
  else
    let h := d.1 + if d.1 % 2 = 0 then 1 else 0
    let w := d.2 + if d.2 % 2 = 0 then 1 else 0
    let init : Grid := fun _ _ =>
      ⟨match algorithm with
        | .RecursiveDivision => false
        | _ => true, false⟩
    some (match algorithm with
      | .RandomWalk => gen_from_walk r.shuffle r.starter h w init
      | .RecursiveDivision => gen_from_divide r.wallPick r.holePick h w init
      | .Prim => gen_from_prim r.pickFrontier r.pickNeighbor r.starter h w init)

/-! ### Maze methods -/

/-- `Maze::is_solved` -/
def Maze.is_solved (m : Maze) : Bool :=
  (m.cells m.goalpoint.1 m.goalpoint.2).visited

/-- `Maze::unsolve` -/
def Maze.unsolve (m : Maze) : Maze :=
  { m with cells := clearVisited m.cells }

/-! ### Recursive backtracking solver (`solve_from_backtracking`) -/

/-- The four guarded direction attempts of `solve_from_backtracking`, in
source order: south (`pos.0 + 1 < dimensions.0`), east
(`pos.1 + 1 < dimensions.1`), north (`pos.0 as isize - 1 > 0`, i.e.
`1 < pos.0`), west (`1 < pos.1`), each paired with its target. -/
def btMoves (dims pos : Pos) : List (Bool × Pos) :=
  [(decide (pos.1 + 1 < dims.1), (pos.1 + 1, pos.2)),
   (decide (pos.2 + 1 < dims.2), (pos.1, pos.2 + 1)),
   (decide (1 < pos.1), (pos.1 - 1, pos.2)),
   (decide (1 < pos.2), (pos.1, pos.2 - 1))]

/-- the short-circuited `||` chain of the four attempts: a failed bounds
check contributes `false` without touching the grid, a successful recursive
attempt stops the chain -/
def btChain (step : Grid → Pos → Bool × Grid) :
    Grid → List (Bool × Pos) → Bool × Grid
  | g, [] => (false, g)
  | g, (c, t) :: rest =>
    let r := if c then step g t else (false, g)
    if r.1 then r else btChain step r.2 rest

/-- `solve_from_backtracking`, with the dimensions and goal of the maze
fixed.  Returns the success flag together with the mutated grid.  Fuel
bounds the recursion depth; `solve_from_backtracking` passes one more than
the cell count, which the depth (cells on the call stack stay visited and
are never re-entered) never reaches. -/
def backtrack (dims goal : Pos) : Nat → Grid → Pos → Bool × Grid
  | 0, g, _ => (false, g)
  | fuel + 1, g, pos =>
    if (g pos.1 pos.2).wall = true ∨ (g pos.1 pos.2).visited = true then
      (false, g)
    else
      let g1 := setVisited g pos true
      if pos = goal then (true, g1)
      else
        let r := btChain (backtrack dims goal fuel) g1 (btMoves dims pos)
        if r.1 then r else (false, setVisited r.2 pos false)

/-- `Maze::solve_from_backtracking(self.entrypoint)` -/
def solve_from_backtracking (m : Maze) : Bool × Maze :=
  let r := backtrack m.dimensions m.goalpoint
    (m.dimensions.1 * m.dimensions.2 + 1) m.cells m.entrypoint
  (r.1, { m with cells := r.2 })

/-! ### Dead-end filling solver (`solve_from_dead_end_filling`) -/

/-- the `directions` array of `solve_from_dead_end_filling` -/
def deDirections : List (Int × Int) := [(1, 0), (-1, 0), (0, 1), (0, -1)]

/-- bounds-checked cell access; `none` models the Rust index-out-of-bounds
panic (a negative `isize` cast to `usize` wraps to a huge index) -/
def cellAt (g : Grid) (h w : Nat) (y x : Int) : Option Cell :=
  if 0 ≤ y ∧ y < (h : Int) ∧ 0 ≤ x ∧ x < (w : Int) then
    some (g y.toNat x.toNat)
  else none

/-- the `neighbor_count` loop of the dead-end scan (all call sites keep the
indices strictly inside the border, where the raw accesses are safe) -/
def openNbrCount (g : Grid) (i j : Nat) : Nat :=
  deDirections.foldl (fun n off =>
    if (g ((i : Int) + off.1).toNat ((j : Int) + off.2).toNat).wall = false
    then n + 1 else n) 0

/-- net effect of the scan loop on the `visited` flags: every interior open
cell is set visited unless it has exactly one open neighbour (the scan only
writes `visited`, and the counts only read `wall`, so the sequential loop
acts pointwise) -/
def scanVisited (g : Grid) (h w : Nat) : Grid :=
  fun i j =>
    if 1 ≤ i ∧ i < h - 1 ∧ 1 ≤ j ∧ j < w - 1 ∧ (g i j).wall = false then
      ⟨(g i j).wall, openNbrCount g i j != 1⟩
    else g i j

/-- the dead ends pushed by the scan loop, in scan (row-major) order -/
def deadEndsInit (g : Grid) (h w : Nat) : List Pos :=
  (List.range' 1 (h - 2)).flatMap (fun i =>
    (List.range' 1 (w - 2)).filterMap (fun j =>
      if (g i j).wall = false ∧ openNbrCount g i j = 1 then some (i, j)
      else none))

/-- the connector `find_map`: first direction whose neighbour is open and
visited.  `none` models a panic: either an index out of bounds during the
search or, when no direction matches, the `.unwrap()` on `find_map`'s
`None` result (the branch the source marks `// unreachable`). -/
def findConnector (g : Grid) (h w : Nat) : List (Int × Int) → Pos → Option Pos
  | [], _ => none
  | off :: rest, de =>
    match cellAt g h w ((de.1 : Int) + off.1) ((de.2 : Int) + off.2) with
    | none => none
    | some c =>
      if c.wall = false ∧ c.visited = true then
        some (((de.1 : Int) + off.1).toNat, ((de.2 : Int) + off.2).toNat)
      else findConnector g h w rest de

/-- the `paths_out_of_connector` loop.  The source adds `dx` to the row and
`dy` to the column here — swapped relative to the connector search — which
permutes the same four neighbours, so only the panic behaviour can differ.
`none` models an index panic (possible when the connector borders the
grid edge). -/
def recountPaths (g : Grid) (h w : Nat) (conn : Pos) :
    List (Int × Int) → Option Nat
  | [] => some 0
  | off :: rest =>
    match cellAt g h w ((conn.1 : Int) + off.2) ((conn.2 : Int) + off.1) with
    | none => none
    | some c =>
      match recountPaths g h w conn rest with
      | none => none
      | some n => some (if c.wall = false ∧ c.visited = true then n + 1 else n)

/-- the `while dead_ends.len() != 0` propagation loop: pop the last dead
end, find its connector, recount the connector's open visited neighbours,
and convert the connector into a new dead end when the count is 1.
`none` is a panic; fuel exhaustion returns the current grid, so a `none`
result always witnesses a genuine panic. -/
def deadFillLoop (h w : Nat) : Nat → Grid → List Pos → Option Grid
  | 0, g, _ => some g
  | fuel + 1, g, des =>
    match des.getLast? with
    | none => some g
    | some de =>
      let rest := des.dropLast
      match findConnector g h w deDirections de with
      | none => none
      | some conn =>
        match recountPaths g h w conn deDirections with
        | none => none
        | some n =>
          if n = 1 then
            deadFillLoop h w fuel (setVisited g conn false) (rest ++ [conn])
          else deadFillLoop h w fuel g rest

/-- `Maze::solve_from_dead_end_filling`; `none` models a panic -/
def solve_from_dead_end_filling (m : Maze) : Option Maze :=
  let h := m.dimensions.1
  let w := m.dimensions.2
  let g0 := setVisited m.cells m.entrypoint true
  let g1 := setVisited g0 m.goalpoint true
  let g2 := scanVisited g1 h w
  let des := deadEndsInit g1 h w
  (deadFillLoop h w (h * w + h * w) g2 des).map
    (fun g => { m with cells := g })

/-- `Maze::solve_from`; the backtracking branch discards the returned flag
exactly as the source does -/
def Maze.solve_from (m : Maze) (algorithm : SolvingAlgorithm) : Option Maze :=
  match algorithm with
  | .RecursiveBacktracking => some (solve_from_backtracking m).2
  | .DeadEndFilling => solve_from_dead_end_filling m

/-! ## Basic lemmas about the grid primitives -/

theorem wall_setVisited (g : Grid) (p : Pos) (b : Bool) (i j : Nat) :
    (setVisited g p b i j).wall = (g i j).wall := by
  unfold setVisited; split <;> rfl

theorem visited_setWall (g : Grid) (p : Pos) (b : Bool) (i j : Nat) :
    (setWall g p b i j).visited = (g i j).visited := by
  unfold setWall; split <;> rfl

theorem wall_clearVisited (g : Grid) (i j : Nat) :
    (clearVisited g i j).wall = (g i j).wall := rfl

theorem visited_clearVisited (g : Grid) (i j : Nat) :
    (clearVisited g i j).visited = false := rfl

theorem setWall_apply (g : Grid) (p : Pos) (b : Bool) (i j : Nat) :
    setWall g p b i j =
      if i = p.1 ∧ j = p.2 then ⟨b, (g i j).visited⟩ else g i j := rfl

theorem setVisited_apply (g : Grid) (p : Pos) (b : Bool) (i j : Nat) :
    setVisited g p b i j =
      if i = p.1 ∧ j = p.2 then ⟨(g i j).wall, b⟩ else g i j := rfl

theorem carveMark_apply (g : Grid) (p : Pos) (i j : Nat) :
    carveMark g p i j =
      if i = p.1 ∧ j = p.2 then ⟨false, true⟩ else g i j := rfl

theorem setWall_ne (g : Grid) (p : Pos) (b : Bool) (i j : Nat)
    (h : ¬(i = p.1 ∧ j = p.2)) : setWall g p b i j = g i j := by
  unfold setWall; exact if_neg h

theorem setVisited_ne (g : Grid) (p : Pos) (b : Bool) (i j : Nat)
    (h : ¬(i = p.1 ∧ j = p.2)) : setVisited g p b i j = g i j := by
  unfold setVisited; exact if_neg h

theorem carveMark_ne (g : Grid) (p : Pos) (i j : Nat)
    (h : ¬(i = p.1 ∧ j = p.2)) : carveMark g p i j = g i j := by
  unfold carveMark; exact if_neg h

/-- a concrete oracle used to instantiate witnesses -/
def sampleOracle : GenOracle :=
  { shuffle := fun _ _ => walkOffsets, starter := (1, 1),
    pickFrontier := fun _ _ => 0, pickNeighbor := fun _ _ => 0,
    wallPick := fun _ _ => 2, holePick := fun _ _ => 1 }

/-! ## C5: dimensions below 3x3 are rejected -/

/-- C5: for every pair of requested dimensions in which either dimension is
at most 2 (in particular `(2, 5)` and `(5, 2)`), construction fails for any
generation strategy: `new_from` returns `none` (the source panics) and no
maze is produced. -/
theorem C5_construction_rejects_small_dimensions
    (d : Pos) (algorithm : CreationAlgorithm) (r : GenOracle)
    (hd : d.1 ≤ 2 ∨ d.2 ≤ 2) : new_from d algorithm r = none := by
  unfold new_from
  exact if_pos hd

theorem C5_witness :
    (((2, 5) : Pos).1 ≤ 2 ∨ ((2, 5) : Pos).2 ≤ 2) ∧
    (((5, 2) : Pos).1 ≤ 2 ∨ ((5, 2) : Pos).2 ≤ 2) ∧
    new_from (2, 5) .Prim sampleOracle = none ∧
    new_from (5, 2) .RandomWalk sampleOracle = none ∧
    new_from (5, 2) .RecursiveDivision sampleOracle = none :=
  ⟨Or.inl (by decide), Or.inr (by decide),
    C5_construction_rejects_small_dimensions _ _ _ (Or.inl (by decide)),
    C5_construction_rejects_small_dimensions _ _ _ (Or.inr (by decide)),
    C5_construction_rejects_small_dimensions _ _ _ (Or.inr (by decide))⟩

/-! ## C6: even dimensions are rounded up to the next odd value -/

/-- C6: for requested dimensions at least 3x3 and any strategy,
construction succeeds and the grid dimensions are the requested ones with
each even dimension incremented by one and each odd dimension unchanged. -/
theorem C6_even_dimensions_rounded_up
    (d : Pos) (algorithm : CreationAlgorithm) (r : GenOracle)
    (h1 : 3 ≤ d.1) (h2 : 3 ≤ d.2) :
    ∃ m : Maze, new_from d algorithm r = some m ∧
      m.dimensions = (d.1 + if d.1 % 2 = 0 then 1 else 0,
                      d.2 + if d.2 % 2 = 0 then 1 else 0) := by
  unfold new_from
  rw [if_neg (by omega)]
  refine ⟨_, rfl, ?_⟩
  cases algorithm <;> rfl

theorem C6_witness :
    (∃ m : Maze, new_from (4, 4) .Prim sampleOracle = some m ∧
      m.dimensions = (5, 5)) ∧
    (∃ m : Maze, new_from (3, 3) .RandomWalk sampleOracle = some m ∧
      m.dimensions = (3, 3)) := by
  constructor
  · obtain ⟨m, hm, hd⟩ :=
      C6_even_dimensions_rounded_up (4, 4) .Prim sampleOracle
        (by decide) (by decide)
    exact ⟨m, hm, by simpa using hd⟩
  · obtain ⟨m, hm, hd⟩ :=
      C6_even_dimensions_rounded_up (3, 3) .RandomWalk sampleOracle
        (by decide) (by decide)
    exact ⟨m, hm, by simpa using hd⟩

/-! ## Frame lemmas: what each routine can write -/

theorem visited_setWallRow (g : Grid) (r lo hi i j : Nat) :
    (setWallRow g r lo hi i j).visited = (g i j).visited := by
  unfold setWallRow; split <;> rfl

theorem visited_setWallCol (g : Grid) (c lo hi i j : Nat) :
    (setWallCol g c lo hi i j).visited = (g i j).visited := by
  unfold setWallCol; split <;> rfl

theorem visited_borderWalls (h w : Nat) (g : Grid) (i j : Nat) :
    (borderWalls h w g i j).visited = (g i j).visited := by
  unfold borderWalls; split <;> rfl

/-- `divide` never touches a `visited` flag -/
theorem visited_divide (wp hp : Pos → Pos → Nat) :
    ∀ fuel g tl br i j,
      (divide wp hp fuel g tl br i j).visited = (g i j).visited := by
  intro fuel
  induction fuel with
  | zero => intro g tl br i j; rfl
  | succ f ih =>
    intro g tl br i j
    simp only [divide]
    split
    · rfl
    · split <;>
        rw [ih, ih, visited_setWall] <;>
        first
          | rw [visited_setWallRow]
          | rw [visited_setWallCol]

theorem visited_primConnect (pickN : Grid → List Pos → Nat) (g1 : Grid)
    (current : Pos) (tns : List Pos) (i j : Nat) :
    (primConnect pickN g1 current tns i j).visited = (g1 i j).visited := by
  cases tns with
  | nil => rfl
  | cons a l => simp only [primConnect]; rw [visited_setWall]

/-- the Prim loop never touches a `visited` flag -/
theorem visited_primLoop (pickF pickN : Grid → List Pos → Nat) (h w : Nat) :
    ∀ fuel g fs i j,
      ((primLoop pickF pickN h w fuel g fs).1 i j).visited =
        (g i j).visited := by
  intro fuel
  induction fuel with
  | zero => intro g fs i j; rfl
  | succ f ih =>
    intro g fs i j
    simp only [primLoop]
    split
    · rfl
    · rw [ih, visited_primConnect, visited_setWall]

/-- every maze returned by construction has all `visited` flags false -/
theorem visited_new_from (d : Pos) (algorithm : CreationAlgorithm)
    (r : GenOracle) (m : Maze) (hm : new_from d algorithm r = some m) :
    ∀ i j, (m.cells i j).visited = false := by
  intro i j
  unfold new_from at hm
  split at hm
  · exact absurd hm (by simp)
  · cases algorithm <;>
      simp only [Option.some.injEq] at hm <;>
      rw [← hm]
    · exact visited_clearVisited ..
    · show (divide _ _ _ _ _ _ i j).visited = false
      rw [visited_divide, visited_setWall, visited_setWall,
        visited_borderWalls]
    · show ((primLoop _ _ _ _ _ _ _).1 i j).visited = false
      rw [visited_primLoop, visited_setWall, visited_setWall, visited_setWall]

/-- the backtracking chain only writes `visited` flags -/
theorem wall_btChain (step : Grid → Pos → Bool × Grid)
    (hstep : ∀ g t i j, ((step g t).2 i j).wall = (g i j).wall) :
    ∀ l g i j, ((btChain step g l).2 i j).wall = (g i j).wall := by
  intro l
  induction l with
  | nil => intro g i j; rfl
  | cons ct rest ih =>
    intro g i j
    obtain ⟨c, t⟩ := ct
    simp only [btChain]
    split <;> split <;>
      first
        | exact hstep _ _ _ _
        | rw [ih, hstep]
        | rw [ih]
        | rfl

/-- the backtracking solver only writes `visited` flags -/
theorem wall_backtrack (dims goal : Pos) :
    ∀ fuel g pos i j,
      ((backtrack dims goal fuel g pos).2 i j).wall = (g i j).wall := by
  intro fuel
  induction fuel with
  | zero => intro g pos i j; rfl
  | succ f ih =>
    intro g pos i j
    simp only [backtrack]
    split
    · rfl
    · split
      · rw [wall_setVisited]
      · split
        · rw [wall_btChain _ (fun g t i j => ih g t i j), wall_setVisited]
        · rw [wall_setVisited, wall_btChain _ (fun g t i j => ih g t i j),
            wall_setVisited]

theorem wall_scanVisited (g : Grid) (h w i j : Nat) :
    (scanVisited g h w i j).wall = (g i j).wall := by
  unfold scanVisited; split <;> rfl

/-- the dead-end propagation loop only writes `visited` flags -/
theorem wall_deadFillLoop (h w : Nat) :
    ∀ fuel g des g', deadFillLoop h w fuel g des = some g' →
      ∀ i j, (g' i j).wall = (g i j).wall := by
  intro fuel
  induction fuel with
  | zero =>
    intro g des g' hg i j
    simp only [deadFillLoop, Option.some.injEq] at hg
    rw [← hg]
  | succ f ih =>
    intro g des g' hg i j
    simp only [deadFillLoop] at hg
    split at hg
    · simp only [Option.some.injEq] at hg; rw [← hg]
    · split at hg
      · exact absurd hg (by simp)
      · split at hg
        · exact absurd hg (by simp)
        · split at hg
          · rw [ih _ _ _ hg, wall_setVisited]
          · exact ih _ _ _ hg i j

/-- `solve_from` (either strategy) never changes a `wall` flag -/
theorem wall_solve_from (m : Maze) (algorithm : SolvingAlgorithm) (m' : Maze)
    (hs : m.solve_from algorithm = some m') :
    ∀ i j, (m'.cells i j).wall = (m.cells i j).wall := by
  intro i j
  cases algorithm with
  | RecursiveBacktracking =>
    simp only [Maze.solve_from, Option.some.injEq] at hs
    rw [← hs]
    exact wall_backtrack _ _ _ _ _ i j
  | DeadEndFilling =>
    simp only [Maze.solve_from, solve_from_dead_end_filling,
      Option.map_eq_some'] at hs
    obtain ⟨g, hg, hm'⟩ := hs
    rw [← hm']
    show (g i j).wall = _
    rw [wall_deadFillLoop _ _ _ _ _ _ hg, wall_scanVisited,
      wall_setVisited, wall_setVisited]

/-! ## C7: solve/unsolve frame effects -/

/-- C7: for every maze produced by construction and either solving
strategy, solving and then unsolving leaves every `visited` flag false and
restores every cell to its exact post-generation state, and neither solving
nor unsolving changes any `wall` flag. -/
theorem C7_solve_unsolve_frame
    (d : Pos) (algorithm : CreationAlgorithm) (r : GenOracle) (m : Maze)
    (hm : new_from d algorithm r = some m)
    (strategy : SolvingAlgorithm) (m' : Maze)
    (hs : m.solve_from strategy = some m') :
    (∀ i j, ((m'.unsolve).cells i j).visited = false) ∧
    (∀ i j, (m'.unsolve).cells i j = m.cells i j) ∧
    (∀ i j, (m'.cells i j).wall = (m.cells i j).wall) ∧
    (∀ i j, ((m.unsolve).cells i j).wall = (m.cells i j).wall) := by
  have hwall := wall_solve_from m strategy m' hs
  have hvis := visited_new_from d algorithm r m hm
  refine ⟨fun i j => rfl, fun i j => ?_, hwall, fun i j => rfl⟩
  show (⟨(m'.cells i j).wall, false⟩ : Cell) = m.cells i j
  rw [hwall i j]
  have hv := hvis i j
  cases hmc : m.cells i j with
  | mk wl vs =>
    rw [hmc] at hv
    have hv' : vs = false := hv
    subst hv'
    rfl

/-- the walk-generated 3x3 maze drawn with `sampleOracle` -/
def mW3 : Maze :=
  gen_from_walk sampleOracle.shuffle sampleOracle.starter 3 3
    (fun _ _ => ⟨true, false⟩)

/-- `mW3` after backtracking solving -/
def mW3s : Maze := (solve_from_backtracking mW3).2

theorem C7_witness :
    new_from (3, 3) .RandomWalk sampleOracle = some mW3 ∧
    Maze.solve_from mW3 .RecursiveBacktracking = some mW3s ∧
    ((mW3s.unsolve).cells 1 1).visited = false ∧
    (mW3s.unsolve).cells 1 1 = mW3.cells 1 1 ∧
    (mW3s.cells 1 1).wall = (mW3.cells 1 1).wall := by
  have h1 : new_from (3, 3) .RandomWalk sampleOracle = some mW3 := rfl
  have h2 : Maze.solve_from mW3 .RecursiveBacktracking = some mW3s := rfl
  obtain ⟨ha, hb, hc, -⟩ := C7_solve_unsolve_frame (3, 3) .RandomWalk
    sampleOracle mW3 h1 .RecursiveBacktracking mW3s h2
  exact ⟨h1, h2, ha 1 1, hb 1 1, hc 1 1⟩

/-! ## Interior cells and the write regions of the generators -/

/-- strictly inside the border of an `h × w` grid -/
def Interior (h w : Nat) (p : Pos) : Prop :=
  0 < p.1 ∧ p.1 < h - 1 ∧ 0 < p.2 ∧ p.2 < w - 1

instance (h w : Nat) (p : Pos) : Decidable (Interior h w p) := by
  unfold Interior; infer_instance

/-- the invariant satisfied by every region `divide` is called on: corners
on even coordinates, at least one cell of interior, inside the grid -/
def RegionOK (h w : Nat) (tl br : Pos) : Prop :=
  tl.1 % 2 = 0 ∧ tl.2 % 2 = 0 ∧ br.1 % 2 = 0 ∧ br.2 % 2 = 0 ∧
  tl.1 + 2 ≤ br.1 ∧ tl.2 + 2 ≤ br.2 ∧ br.1 ≤ h - 1 ∧ br.2 ≤ w - 1

theorem evenPick_spec (v lo hi : Nat) (hlo : lo % 2 = 1) (hhi : lo + 3 ≤ hi) :
    evenPick v lo hi % 2 = 0 ∧ lo < evenPick v lo hi ∧
      evenPick v lo hi < hi := by
  unfold evenPick; split <;> omega

theorem oddPick_spec (v lo hi : Nat) (hlo : lo % 2 = 1) (hhi : lo < hi) :
    oddPick v lo hi % 2 = 1 ∧ lo ≤ oddPick v lo hi ∧ oddPick v lo hi < hi := by
  unfold oddPick; split <;> omega

theorem setWallRow_ne (g : Grid) (r lo hi i j : Nat)
    (h : ¬(i = r ∧ lo ≤ j ∧ j < hi)) : setWallRow g r lo hi i j = g i j := by
  unfold setWallRow; exact if_neg h

theorem setWallCol_ne (g : Grid) (c lo hi i j : Nat)
    (h : ¬(lo ≤ i ∧ i < hi ∧ j = c)) : setWallCol g c lo hi i j = g i j := by
  unfold setWallCol; exact if_neg h

/-- `divide`, called on a well-formed region, writes only strictly interior
cells of the grid -/
theorem divide_frame (wp hp : Pos → Pos → Nat) (h w : Nat) :
    ∀ fuel g tl br i j, RegionOK h w tl br → ¬ Interior h w (i, j) →
      divide wp hp fuel g tl br i j = g i j := by
  intro fuel
  induction fuel with
  | zero => intro g tl br i j _ _; rfl
  | succ f ih =>
    intro g tl br i j hreg hout
    obtain ⟨h1, h2, h3, h4, h5, h6, h7, h8⟩ := hreg
    simp only [divide]
    split
    · rfl
    · rename_i hguard
      split
      · -- horizontal wall
        rename_i hdir
        have hwi := evenPick_spec (wp tl br) (tl.1 + 1) br.1 (by omega)
          (by omega)
        have hhx := oddPick_spec (hp tl br) (tl.2 + 1) br.2 (by omega)
          (by omega)
        set wi := evenPick (wp tl br) (tl.1 + 1) br.1
        set hx := oddPick (hp tl br) (tl.2 + 1) br.2
        rw [ih _ (wi, tl.2) br i j
            ⟨hwi.1, h2, h3, h4, by omega, h6, h7, h8⟩ hout,
          ih _ tl (wi, br.2) i j
            ⟨h1, h2, hwi.1, h4, by omega, h6, by omega, h8⟩ hout,
          setWall_ne _ _ _ _ _ (by
            intro hij
            exact hout ⟨by omega, by omega, by omega, by omega⟩),
          setWallRow_ne _ _ _ _ _ _ (by
            intro hij
            exact hout ⟨by omega, by omega, by omega, by omega⟩)]
      · -- vertical wall
        rename_i hdir
        have hwi := evenPick_spec (wp tl br) (tl.2 + 1) br.2 (by omega)
          (by omega)
        have hhx := oddPick_spec (hp tl br) (tl.1 + 1) br.1 (by omega)
          (by omega)
        set wi := evenPick (wp tl br) (tl.2 + 1) br.2
        set hx := oddPick (hp tl br) (tl.1 + 1) br.1
        rw [ih _ (tl.1, wi) br i j
            ⟨h1, hwi.1, h3, h4, h5, by omega, h7, h8⟩ hout,
          ih _ tl (br.1, wi) i j
            ⟨h1, h2, h3, hwi.1, h5, by omega, h7, by omega⟩ hout,
          setWall_ne _ _ _ _ _ (by
            intro hij
            exact hout ⟨by omega, by omega, by omega, by omega⟩),
          setWallCol_ne _ _ _ _ _ _ (by
            intro hij
            exact hout ⟨by omega, by omega, by omega, by omega⟩)]

/-! ## Write regions of the walk and Prim generators -/

/-- the shuffles produced by `get_two_offset_shuffle` only contain the four
two-offsets -/
def ShuffleOracleOK (σ : Grid → Pos → List (Int × Int)) : Prop :=
  ∀ g p o, o ∈ σ g p → o ∈ walkOffsets

theorem walkOffsets_halves (o : Int × Int) (ho : o ∈ walkOffsets) :
    o.1 = 2 * (o.1 / 2) ∧ o.2 = 2 * (o.2 / 2) := by
  fin_cases ho <;> decide

/-- `walkTry` writes only strictly interior cells (given that the recursive
step does) -/
theorem walkTry_frame (dims : Pos) (step : Grid → Pos → Grid)
    (hstep : ∀ g p, Interior dims.1 dims.2 p →
      ∀ i j, ¬ Interior dims.1 dims.2 (i, j) → step g p i j = g i j) :
    ∀ l g pos i j, (∀ o ∈ l, o ∈ walkOffsets) →
      Interior dims.1 dims.2 pos → ¬ Interior dims.1 dims.2 (i, j) →
      walkTry dims step g pos l i j = g i j := by
  intro l
  induction l with
  | nil => intro g pos i j _ _ _; rfl
  | cons off rest ihl =>
    intro g pos i j hmem hpos hout
    simp only [walkTry]
    rw [ihl _ pos i j (fun o ho => hmem o (List.mem_cons_of_mem _ ho)) hpos
      hout]
    split
    · rename_i hcond
      obtain ⟨hty0, hty1, htx0, htx1, -⟩ := hcond
      obtain ⟨hq1, hq2⟩ := walkOffsets_halves off
        (hmem off (List.mem_cons_self _ _))
      obtain ⟨hp1, hp2, hp3, hp4⟩ := hpos
      rw [hstep _ _ ⟨by omega, by omega, by omega, by omega⟩ i j hout,
        setWall_ne _ _ _ _ _ (by
          intro hij
          exact hout ⟨by omega, by omega, by omega, by omega⟩)]
    · rfl

/-- the walk recursion writes only strictly interior cells -/
theorem walkGo_frame (σ : Grid → Pos → List (Int × Int)) (dims : Pos)
    (hσ : ShuffleOracleOK σ) :
    ∀ fuel g pos i j, Interior dims.1 dims.2 pos →
      ¬ Interior dims.1 dims.2 (i, j) →
      walkGo σ dims fuel g pos i j = g i j := by
  intro fuel
  induction fuel with
  | zero => intro g pos i j _ _; rfl
  | succ f ih =>
    intro g pos i j hpos hout
    simp only [walkGo]
    rw [walkTry_frame dims _ (fun g p hp i j ho => ih g p i j hp ho) _ _
      pos i j (fun o ho => hσ _ _ o ho) hpos hout]
    exact carveMark_ne _ _ _ _ (by
      intro hij
      obtain ⟨hp1, hp2, hp3, hp4⟩ := hpos
      exact hout ⟨by omega, by omega, by omega, by omega⟩)

theorem getD_mem_of_lt {α : Type} (l : List α) (n : Nat) (d : α)
    (h : n < l.length) : l.getD n d ∈ l := by
  rw [List.getD_eq_getElem?_getD, List.getElem?_eq_getElem h]
  exact List.getElem_mem h

/-- cells appended by `append_frontiers` are strictly interior -/
theorem appendFrontiers_interior (h w : Nat) (g : Grid) (pos : Pos) :
    ∀ l fs p, p ∈ List.foldl (afStep h w g pos) fs l →
      p ∈ fs ∨ Interior h w p := by
  intro l
  induction l with
  | nil => intro fs p hp; exact Or.inl hp
  | cons off rest ihl =>
    intro fs p hp
    rcases ihl (afStep h w g pos fs off) p hp with hin | hint
    · simp only [afStep] at hin
      split at hin
      · rename_i hcond
        rcases List.mem_append.1 hin with hfs | hone
        · exact Or.inl hfs
        · obtain ⟨h1, h2, h3, h4, -⟩ := hcond
          rcases List.mem_singleton.1 hone with rfl
          exact Or.inr ⟨by omega, by omega, by omega, by omega⟩
      · exact Or.inl hin
    · exact Or.inr hint

/-- cells collected by the `two_neighbors` loop are strictly interior -/
theorem primTwoNeighbors_interior (h w : Nat) (g : Grid) (current : Pos) :
    ∀ l ns p, p ∈ List.foldl (tnStep h w g current) ns l →
      p ∈ ns ∨ Interior h w p := by
  intro l
  induction l with
  | nil => intro ns p hp; exact Or.inl hp
  | cons off rest ihl =>
    intro ns p hp
    rcases ihl (tnStep h w g current ns off) p hp with hin | hint
    · simp only [tnStep] at hin
      split at hin
      · rename_i hcond
        rcases List.mem_append.1 hin with hns | hone
        · exact Or.inl hns
        · obtain ⟨h1, h2, h3, h4, -⟩ := hcond
          rcases List.mem_singleton.1 hone with rfl
          exact Or.inr ⟨by omega, by omega, by omega, by omega⟩
      · exact Or.inl hin
    · exact Or.inr hint

/-- `primConnect` writes only strictly interior cells -/
theorem primConnect_frame (pickN : Grid → List Pos → Nat) (h w : Nat)
    (g1 : Grid) (current : Pos) (tns : List Pos)
    (hcur : Interior h w current) (htns : ∀ p ∈ tns, Interior h w p)
    (i j : Nat) (hout : ¬ Interior h w (i, j)) :
    primConnect pickN g1 current tns i j = g1 i j := by
  cases tns with
  | nil => rfl
  | cons tn0 tnrest =>
    simp only [primConnect]
    apply setWall_ne
    intro hij
    have htn : (tn0 :: tnrest).getD
        (pickN g1 (tn0 :: tnrest) % (tn0 :: tnrest).length) (0, 0) ∈
        tn0 :: tnrest :=
      getD_mem_of_lt _ _ _ (Nat.mod_lt _ (by simp))
    obtain ⟨a1, a2, a3, a4⟩ := htns _ htn
    obtain ⟨b1, b2, b3, b4⟩ := hcur
    exact hout ⟨by omega, by omega, by omega, by omega⟩

/-- the Prim loop writes only strictly interior cells -/
theorem primLoop_frame (pickF pickN : Grid → List Pos → Nat) (h w : Nat) :
    ∀ fuel g fs, (∀ p ∈ fs, Interior h w p) →
      ∀ i j, ¬ Interior h w (i, j) →
      (primLoop pickF pickN h w fuel g fs).1 i j = g i j := by
  intro fuel
  induction fuel with
  | zero => intro g fs _ i j _; rfl
  | succ f ih =>
    intro g fs hfs i j hout
    simp only [primLoop]
    split
    · rfl
    · rename_i hne
      have hcur : Interior h w (fs.getD (pickF g fs % fs.length) (0, 0)) :=
        hfs _ (getD_mem_of_lt _ _ _ (Nat.mod_lt _ (by omega)))
      rw [ih _ _ (fun p hp => by
          rcases appendFrontiers_interior h w _ _ _ _ _
            (List.eraseIdx_subset _ _ hp) with hin | hint
          · exact hfs p hin
          · exact hint)
        i j hout]
      rw [primConnect_frame pickN h w _ _ _ hcur (fun p hp => by
          rcases primTwoNeighbors_interior h w _ _ _ _ _ hp with hin | hint
          · exact absurd hin (List.not_mem_nil p)
          · exact hint) i j hout]
      apply setWall_ne
      intro hij
      obtain ⟨a1, a2, a3, a4⟩ := hcur
      exact hout ⟨by omega, by omega, by omega, by omega⟩

/-! ## Walls are only removed by the carving generators -/

theorem wall_setWall_false_keep (g : Grid) (p : Pos) (i j : Nat)
    (hij : (g i j).wall = false) : (setWall g p false i j).wall = false := by
  unfold setWall; split <;> simp [hij]

theorem wall_setWall_false_self (g : Grid) (p : Pos) :
    (setWall g p false p.1 p.2).wall = false := by
  unfold setWall; simp

theorem wall_carveMark_keep (g : Grid) (p : Pos) (i j : Nat)
    (hij : (g i j).wall = false) : (carveMark g p i j).wall = false := by
  unfold carveMark; split <;> simp [hij]

/-- `walkTry` never turns an open cell back into a wall -/
theorem walkTry_keepOpen (dims : Pos) (step : Grid → Pos → Grid)
    (hstep : ∀ g p i j, (g i j).wall = false → (step g p i j).wall = false) :
    ∀ l g pos i j, (g i j).wall = false →
      (walkTry dims step g pos l i j).wall = false := by
  intro l
  induction l with
  | nil => intro g pos i j hij; exact hij
  | cons off rest ihl =>
    intro g pos i j hij
    simp only [walkTry]
    apply ihl
    split
    · exact hstep _ _ _ _ (wall_setWall_false_keep _ _ _ _ hij)
    · exact hij

/-- the walk recursion never turns an open cell back into a wall -/
theorem walkGo_keepOpen (σ : Grid → Pos → List (Int × Int)) (dims : Pos) :
    ∀ fuel g pos i j, (g i j).wall = false →
      (walkGo σ dims fuel g pos i j).wall = false := by
  intro fuel
  induction fuel with
  | zero => intro g pos i j hij; exact hij
  | succ f ih =>
    intro g pos i j hij
    simp only [walkGo]
    exact walkTry_keepOpen dims _ (fun g p i j h => ih g p i j h) _ _ pos i j
      (wall_carveMark_keep _ _ _ _ hij)

theorem primConnect_keepOpen (pickN : Grid → List Pos → Nat) (g1 : Grid)
    (current : Pos) (tns : List Pos) (i j : Nat)
    (hij : (g1 i j).wall = false) :
    (primConnect pickN g1 current tns i j).wall = false := by
  cases tns with
  | nil => exact hij
  | cons a l => exact wall_setWall_false_keep _ _ _ _ hij

/-- the Prim loop never turns an open cell back into a wall -/
theorem primLoop_keepOpen (pickF pickN : Grid → List Pos → Nat) (h w : Nat) :
    ∀ fuel g fs i j, (g i j).wall = false →
      ((primLoop pickF pickN h w fuel g fs).1 i j).wall = false := by
  intro fuel
  induction fuel with
  | zero => intro g fs i j hij; exact hij
  | succ f ih =>
    intro g fs i j hij
    simp only [primLoop]
    split
    · exact hij
    · exact ih _ _ i j
        (primConnect_keepOpen _ _ _ _ i j (wall_setWall_false_keep _ _ _ _ hij))

/-! ## Border and endpoint facts for each generator -/

/-- outside the strict interior and away from entry and goal, the walk
generator leaves the wall flags of the initial grid in place and clears
`visited` -/
theorem gen_from_walk_border (σ : Grid → Pos → List (Int × Int))
    (starter : Pos) (h w : Nat) (cells : Grid) (hσ : ShuffleOracleOK σ)
    (hstart : Interior h w starter) :
    ∀ i j, ¬ Interior h w (i, j) → ¬(i = 1 ∧ j = 0) →
      ¬(i = h - 2 ∧ j = w - 1) →
      (gen_from_walk σ starter h w cells).cells i j =
        ⟨(cells i j).wall, false⟩ := by
  intro i j hout he hg
  show (⟨((walkGo σ (h, w) (h * w) _ starter) i j).wall, false⟩ : Cell) = _
  rw [walkGo_frame σ (h, w) hσ _ _ starter i j hstart hout,
    setWall_ne _ _ _ _ _ hg, setWall_ne _ _ _ _ _ he]

/-- the walk generator leaves entry and goal open -/
theorem gen_from_walk_endpoints (σ : Grid → Pos → List (Int × Int))
    (starter : Pos) (h w : Nat) (cells : Grid) :
    ((gen_from_walk σ starter h w cells).cells 1 0).wall = false ∧
    ((gen_from_walk σ starter h w cells).cells (h - 2) (w - 1)).wall =
      false := by
  constructor
  · show ((walkGo σ (h, w) (h * w) _ starter) 1 0).wall = false
    apply walkGo_keepOpen
    by_cases hgoal : (1 = h - 2 ∧ 0 = w - 1)
    · unfold setWall; rw [if_pos hgoal]
    · rw [setWall_ne _ _ _ _ _ hgoal]
      exact wall_setWall_false_self _ (1, 0)
  · show ((walkGo σ (h, w) (h * w) _ starter) (h - 2) (w - 1)).wall = false
    apply walkGo_keepOpen
    exact wall_setWall_false_self _ (h - 2, w - 1)

/-- outside the strict interior and away from entry and goal, the Prim
generator leaves cells of the initial grid untouched -/
theorem gen_from_prim_border (pickF pickN : Grid → List Pos → Nat)
    (starter : Pos) (h w : Nat) (cells : Grid)
    (hstart : Interior h w starter) :
    ∀ i j, ¬ Interior h w (i, j) → ¬(i = 1 ∧ j = 0) →
      ¬(i = h - 2 ∧ j = w - 1) →
      (gen_from_prim pickF pickN starter h w cells).cells i j =
        cells i j := by
  intro i j hout he hg
  show (primLoop pickF pickN h w _ _ _).1 i j = _
  rw [primLoop_frame pickF pickN h w _ _ _
      (fun p hp => by
        rcases appendFrontiers_interior h w _ starter _ [] p hp with hin | hint
        · exact absurd hin (List.not_mem_nil p)
        · exact hint)
      i j hout,
    setWall_ne _ _ _ _ _ (by
      intro hij
      obtain ⟨a1, a2, a3, a4⟩ := hstart
      exact hout (by rw [hij.1, hij.2]; exact ⟨a1, a2, a3, a4⟩)),
    setWall_ne _ _ _ _ _ hg, setWall_ne _ _ _ _ _ he]

/-- the Prim generator leaves entry and goal open -/
theorem gen_from_prim_endpoints (pickF pickN : Grid → List Pos → Nat)
    (starter : Pos) (h w : Nat) (cells : Grid) :
    ((gen_from_prim pickF pickN starter h w cells).cells 1 0).wall = false ∧
    ((gen_from_prim pickF pickN starter h w cells).cells
      (h - 2) (w - 1)).wall = false := by
  constructor
  · show ((primLoop pickF pickN h w _ _ _).1 1 0).wall = false
    apply primLoop_keepOpen
    apply wall_setWall_false_keep
    by_cases hgoal : (1 = h - 2 ∧ 0 = w - 1)
    · unfold setWall; rw [if_pos hgoal]
    · rw [setWall_ne _ _ _ _ _ hgoal]
      exact wall_setWall_false_self _ (1, 0)
  · show ((primLoop pickF pickN h w _ _ _).1 (h - 2) (w - 1)).wall = false
    apply primLoop_keepOpen
    apply wall_setWall_false_keep
    exact wall_setWall_false_self _ (h - 2, w - 1)

/-- on the border and away from entry and goal, the division generator
leaves the forced border walls in place -/
theorem gen_from_divide_border (wp hp : Pos → Pos → Nat) (h w : Nat)
    (cells : Grid) (hh : 3 ≤ h) (hw : 3 ≤ w) (hho : h % 2 = 1)
    (hwo : w % 2 = 1) :
    ∀ i j, (i = 0 ∨ i = h - 1 ∨ j = 0 ∨ j = w - 1) →
      ¬(i = 1 ∧ j = 0) → ¬(i = h - 2 ∧ j = w - 1) →
      ((gen_from_divide wp hp h w cells).cells i j).wall = true := by
  intro i j hbord he hg
  show ((divide wp hp (h + w) _ (0, 0) (h - 1, w - 1)) i j).wall = true
  rw [divide_frame wp hp h w _ _ _ _ i j
      ⟨by omega, by omega, by omega, by omega, by omega, by omega,
        by omega, by omega⟩
      (by intro hint; obtain ⟨a1, a2, a3, a4⟩ := hint; omega),
    setWall_ne _ _ _ _ _ hg, setWall_ne _ _ _ _ _ he]
  unfold borderWalls
  rw [if_pos hbord]

/-- the division generator leaves entry and goal open -/
theorem gen_from_divide_endpoints (wp hp : Pos → Pos → Nat) (h w : Nat)
    (cells : Grid) (hh : 3 ≤ h) (hw : 3 ≤ w) (hho : h % 2 = 1)
    (hwo : w % 2 = 1) :
    ((gen_from_divide wp hp h w cells).cells 1 0).wall = false ∧
    ((gen_from_divide wp hp h w cells).cells (h - 2) (w - 1)).wall =
      false := by
  have hreg : RegionOK h w (0, 0) (h - 1, w - 1) :=
    ⟨by omega, by omega, by omega, by omega, by omega, by omega,
      by omega, by omega⟩
  constructor
  · show ((divide wp hp (h + w) _ (0, 0) (h - 1, w - 1)) 1 0).wall = false
    rw [divide_frame wp hp h w _ _ _ _ 1 0 hreg
        (by intro hint; obtain ⟨a1, a2, a3, a4⟩ := hint; omega),
      setWall_ne _ _ _ _ _ (by intro hij; omega)]
    exact wall_setWall_false_self _ (1, 0)
  · show ((divide wp hp (h + w) _ (0, 0) (h - 1, w - 1)) (h - 2)
      (w - 1)).wall = false
    rw [divide_frame wp hp h w _ _ _ _ (h - 2) (w - 1) hreg
      (by intro hint; obtain ⟨a1, a2, a3, a4⟩ := hint; omega)]
    exact wall_setWall_false_self _ (h - 2, w - 1)

/-! ## C3 and C4: border and endpoint invariants -/

theorem normDim_facts (x : Nat) (hx : 3 ≤ x) :
    3 ≤ x + (if x % 2 = 0 then 1 else 0) ∧
    (x + (if x % 2 = 0 then 1 else 0)) % 2 = 1 := by
  split <;> omega

theorem entry_ne_goal (h w : Nat) (hw : 3 ≤ w) :
    ((1, 0) : Pos) ≠ ((h - 2, w - 1) : Pos) := by
  intro hEq
  rw [Prod.mk.injEq] at hEq
  omega

theorem walkPerimeter (σ : Grid → Pos → List (Int × Int)) (starter : Pos)
    (h w : Nat) (cells : Grid) (hσ : ShuffleOracleOK σ)
    (hstart : Interior h w starter)
    (hcells : ∀ i j, (cells i j).wall = true) :
    ∀ i j, i < h → j < w → (i = 0 ∨ i = h - 1 ∨ j = 0 ∨ j = w - 1) →
      (i, j) ≠ ((1, 0) : Pos) → (i, j) ≠ ((h - 2, w - 1) : Pos) →
      ((gen_from_walk σ starter h w cells).cells i j).wall = true := by
  intro i j hi hj hbord hne hng
  rw [gen_from_walk_border σ starter h w cells hσ hstart i j
    (by intro hint; obtain ⟨a1, a2, a3, a4⟩ := hint; omega)
    (by intro hij; exact hne (by rw [Prod.mk.injEq]; exact hij))
    (by intro hij; exact hng (by rw [Prod.mk.injEq]; exact hij))]
  exact hcells i j

theorem primPerimeter (pickF pickN : Grid → List Pos → Nat) (starter : Pos)
    (h w : Nat) (cells : Grid) (hstart : Interior h w starter)
    (hcells : ∀ i j, (cells i j).wall = true) :
    ∀ i j, i < h → j < w → (i = 0 ∨ i = h - 1 ∨ j = 0 ∨ j = w - 1) →
      (i, j) ≠ ((1, 0) : Pos) → (i, j) ≠ ((h - 2, w - 1) : Pos) →
      ((gen_from_prim pickF pickN starter h w cells).cells i j).wall =
        true := by
  intro i j hi hj hbord hne hng
  rw [gen_from_prim_border pickF pickN starter h w cells hstart i j
    (by intro hint; obtain ⟨a1, a2, a3, a4⟩ := hint; omega)
    (by intro hij; exact hne (by rw [Prod.mk.injEq]; exact hij))
    (by intro hij; exact hng (by rw [Prod.mk.injEq]; exact hij))]
  exact hcells i j

theorem dividePerimeter (wp hp : Pos → Pos → Nat) (h w : Nat) (cells : Grid)
    (hh : 3 ≤ h) (hw : 3 ≤ w) (hho : h % 2 = 1) (hwo : w % 2 = 1) :
    ∀ i j, i < h → j < w → (i = 0 ∨ i = h - 1 ∨ j = 0 ∨ j = w - 1) →
      (i, j) ≠ ((1, 0) : Pos) → (i, j) ≠ ((h - 2, w - 1) : Pos) →
      ((gen_from_divide wp hp h w cells).cells i j).wall = true := by
  intro i j hi hj hbord hne hng
  exact gen_from_divide_border wp hp h w cells hh hw hho hwo i j hbord
    (by intro hij; exact hne (by rw [Prod.mk.injEq]; exact hij))
    (by intro hij; exact hng (by rw [Prod.mk.injEq]; exact hij))

/-- C3: in every constructed maze (the walk and Prim starters being, as the
rejection loops guarantee, strictly interior, and the walk shuffles drawing
from the four two-offsets), every cell on the grid perimeter is a wall with
exactly two exceptions, the entry and goal cells, which are open and
distinct. -/
theorem C3_perimeter_walls (d : Pos) (algorithm : CreationAlgorithm)
    (r : GenOracle) (m : Maze) (hm : new_from d algorithm r = some m)
    (hσ : ShuffleOracleOK r.shuffle)
    (hstart : Interior m.dimensions.1 m.dimensions.2 r.starter) :
    (∀ i j, i < m.dimensions.1 → j < m.dimensions.2 →
      (i = 0 ∨ i = m.dimensions.1 - 1 ∨ j = 0 ∨ j = m.dimensions.2 - 1) →
      (i, j) ≠ m.entrypoint → (i, j) ≠ m.goalpoint →
      (m.cells i j).wall = true) ∧
    (m.cells m.entrypoint.1 m.entrypoint.2).wall = false ∧
    (m.cells m.goalpoint.1 m.goalpoint.2).wall = false ∧
    m.entrypoint ≠ m.goalpoint := by
  unfold new_from at hm
  split at hm
  · exact absurd hm (by simp)
  · rename_i hdim
    have hd1 : 3 ≤ d.1 := by omega
    have hd2 : 3 ≤ d.2 := by omega
    obtain ⟨hh3, hho⟩ := normDim_facts d.1 hd1
    obtain ⟨hw3, hwo⟩ := normDim_facts d.2 hd2
    simp only [Option.some.injEq] at hm
    cases algorithm <;> subst hm
    · exact ⟨walkPerimeter r.shuffle r.starter _ _ _ hσ hstart
          (fun i j => rfl),
        (gen_from_walk_endpoints r.shuffle r.starter _ _ _).1,
        (gen_from_walk_endpoints r.shuffle r.starter _ _ _).2,
        entry_ne_goal _ _ hw3⟩
    · exact ⟨dividePerimeter r.wallPick r.holePick _ _ _ hh3 hw3 hho hwo,
        (gen_from_divide_endpoints r.wallPick r.holePick _ _ _
          hh3 hw3 hho hwo).1,
        (gen_from_divide_endpoints r.wallPick r.holePick _ _ _
          hh3 hw3 hho hwo).2,
        entry_ne_goal _ _ hw3⟩
    · exact ⟨primPerimeter r.pickFrontier r.pickNeighbor r.starter _ _ _
          hstart (fun i j => rfl),
        (gen_from_prim_endpoints r.pickFrontier r.pickNeighbor
          r.starter _ _ _).1,
        (gen_from_prim_endpoints r.pickFrontier r.pickNeighbor
          r.starter _ _ _).2,
        entry_ne_goal _ _ hw3⟩

/-- the division-generated 5x5 maze drawn with `sampleOracle` -/
def mD5 : Maze :=
  gen_from_divide sampleOracle.wallPick sampleOracle.holePick 5 5
    (fun _ _ => ⟨false, false⟩)

theorem C3_witness :
    new_from (5, 5) .RecursiveDivision sampleOracle = some mD5 ∧
    ShuffleOracleOK sampleOracle.shuffle ∧
    Interior mD5.dimensions.1 mD5.dimensions.2 sampleOracle.starter ∧
    (mD5.cells 0 0).wall = true ∧ (mD5.cells 4 2).wall = true ∧
    (mD5.cells mD5.entrypoint.1 mD5.entrypoint.2).wall = false ∧
    (mD5.cells mD5.goalpoint.1 mD5.goalpoint.2).wall = false ∧
    mD5.entrypoint ≠ mD5.goalpoint := by
  have hm : new_from (5, 5) .RecursiveDivision sampleOracle = some mD5 := rfl
  have hσ : ShuffleOracleOK sampleOracle.shuffle := fun g p o ho => ho
  have hstart : Interior mD5.dimensions.1 mD5.dimensions.2
      sampleOracle.starter := by decide
  obtain ⟨hbord, he, hg, hne⟩ :=
    C3_perimeter_walls (5, 5) .RecursiveDivision sampleOracle mD5 hm hσ hstart
  exact ⟨hm, hσ, hstart,
    hbord 0 0 (by decide) (by decide) (by decide) (by decide) (by decide),
    hbord 4 2 (by decide) (by decide) (by decide) (by decide) (by decide),
    he, hg, hne⟩

/-- C4: every constructed maze has entry `(1, 0)` and goal
`(height - 2, width - 1)` in the normalized dimensions, and neither
endpoint is a wall after generation, whatever the strategy. -/
theorem C4_entry_goal (d : Pos) (algorithm : CreationAlgorithm)
    (r : GenOracle) (m : Maze) (hm : new_from d algorithm r = some m) :
    m.entrypoint = (1, 0) ∧
    m.goalpoint = (m.dimensions.1 - 2, m.dimensions.2 - 1) ∧
    (m.cells m.entrypoint.1 m.entrypoint.2).wall = false ∧
    (m.cells m.goalpoint.1 m.goalpoint.2).wall = false := by
  unfold new_from at hm
  split at hm
  · exact absurd hm (by simp)
  · rename_i hdim
    have hd1 : 3 ≤ d.1 := by omega
    have hd2 : 3 ≤ d.2 := by omega
    obtain ⟨hh3, hho⟩ := normDim_facts d.1 hd1
    obtain ⟨hw3, hwo⟩ := normDim_facts d.2 hd2
    simp only [Option.some.injEq] at hm
    cases algorithm <;> subst hm
    · exact ⟨rfl, rfl,
        (gen_from_walk_endpoints r.shuffle r.starter _ _ _).1,
        (gen_from_walk_endpoints r.shuffle r.starter _ _ _).2⟩
    · exact ⟨rfl, rfl,
        (gen_from_divide_endpoints r.wallPick r.holePick _ _ _
          hh3 hw3 hho hwo).1,
        (gen_from_divide_endpoints r.wallPick r.holePick _ _ _
          hh3 hw3 hho hwo).2⟩
    · exact ⟨rfl, rfl,
        (gen_from_prim_endpoints r.pickFrontier r.pickNeighbor
          r.starter _ _ _).1,
        (gen_from_prim_endpoints r.pickFrontier r.pickNeighbor
          r.starter _ _ _).2⟩

theorem C4_witness :
    new_from (3, 3) .RandomWalk sampleOracle = some mW3 ∧
    mW3.entrypoint = (1, 0) ∧
    mW3.goalpoint = (mW3.dimensions.1 - 2, mW3.dimensions.2 - 1) ∧
    (mW3.cells mW3.entrypoint.1 mW3.entrypoint.2).wall = false ∧
    (mW3.cells mW3.goalpoint.1 mW3.goalpoint.2).wall = false := by
  have hm : new_from (3, 3) .RandomWalk sampleOracle = some mW3 := rfl
  obtain ⟨h1, h2, h3, h4⟩ :=
    C4_entry_goal (3, 3) .RandomWalk sampleOracle mW3 hm
  exact ⟨hm, h1, h2, h3, h4⟩

/-! ## C8: termination of the Prim loop -/

/-- the number of wall cells of the grid that are not in the frontier list;
twice this plus the frontier length strictly decreases at every iteration
of the Prim loop -/
def wallFree (h w : Nat) (g : Grid) (fs : List Pos) : Nat :=
  ((Finset.range h ×ˢ Finset.range w).filter
    (fun p => (g p.1 p.2).wall = true ∧ p ∉ fs)).card

theorem wallFree_le (h w : Nat) (g : Grid) (fs : List Pos) :
    wallFree h w g fs ≤ h * w := by
  calc wallFree h w g fs ≤ (Finset.range h ×ˢ Finset.range w).card :=
        Finset.card_filter_le _ _
    _ = h * w := by rw [Finset.card_product, Finset.card_range,
        Finset.card_range]

theorem wall_setWall_false_imp (g : Grid) (p : Pos) (i j : Nat)
    (hij : (setWall g p false i j).wall = true) : (g i j).wall = true := by
  unfold setWall at hij
  split at hij
  · exact absurd hij (by simp)
  · exact hij

theorem wall_primConnect_imp (pickN : Grid → List Pos → Nat) (g1 : Grid)
    (current : Pos) (tns : List Pos) (i j : Nat)
    (hij : (primConnect pickN g1 current tns i j).wall = true) :
    (g1 i j).wall = true := by
  cases tns with
  | nil => exact hij
  | cons a l => exact wall_setWall_false_imp _ _ _ _ hij

theorem wallFree_mono (h w : Nat) (g g' : Grid) (fs : List Pos)
    (himp : ∀ i j, (g' i j).wall = true → (g i j).wall = true) :
    wallFree h w g' fs ≤ wallFree h w g fs := by
  apply Finset.card_le_card
  intro p hp
  rw [Finset.mem_filter] at hp ⊢
  exact ⟨hp.1, himp _ _ hp.2.1, hp.2.2⟩

theorem af_length_le (h w : Nat) (g : Grid) (pos : Pos) :
    ∀ l fs, (List.foldl (afStep h w g pos) fs l).length ≤
      fs.length + l.length := by
  intro l
  induction l with
  | nil => intro fs; simp
  | cons off rest ihl =>
    intro fs
    calc (List.foldl (afStep h w g pos) (afStep h w g pos fs off)
          rest).length ≤ (afStep h w g pos fs off).length + rest.length :=
        ihl _
      _ ≤ fs.length + (off :: rest).length := by
        simp only [afStep]
        split <;>
          simp only [List.length_append, List.length_cons,
            List.length_nil] <;>
          omega

theorem af_prefix (h w : Nat) (g : Grid) (pos : Pos) :
    ∀ l fs, ∃ t, List.foldl (afStep h w g pos) fs l = fs ++ t := by
  intro l
  induction l with
  | nil => intro fs; exact ⟨[], by simp⟩
  | cons off rest ihl =>
    intro fs
    obtain ⟨t, ht⟩ := ihl (afStep h w g pos fs off)
    have : ∃ s, afStep h w g pos fs off = fs ++ s := by
      simp only [afStep]
      split
      · exact ⟨_, rfl⟩
      · exact ⟨[], by simp⟩
    obtain ⟨s, hs⟩ := this
    exact ⟨s ++ t, by rw [List.foldl_cons, ht, hs, List.append_assoc]⟩

/-- appending the frontier cells can only shrink the measure: every cell
pushed is a wall cell not yet in the list -/
theorem af_measure (h w : Nat) (g : Grid) (pos : Pos) :
    ∀ l fs, 2 * wallFree h w g (List.foldl (afStep h w g pos) fs l) +
        (List.foldl (afStep h w g pos) fs l).length ≤
      2 * wallFree h w g fs + fs.length := by
  intro l
  induction l with
  | nil => intro fs; exact Nat.le_refl _
  | cons off rest ihl =>
    intro fs
    refine Nat.le_trans (ihl (afStep h w g pos fs off)) ?_
    simp only [afStep]
    split
    · rename_i hcond
      obtain ⟨h1, h2, h3, h4, hwall, hnotin⟩ := hcond
      set q : Pos := (((pos.1 : Int) + off.1).toNat,
        ((pos.2 : Int) + off.2).toNat) with hq
      have hq1 : q.1 = ((pos.1 : Int) + off.1).toNat := rfl
      have hq2 : q.2 = ((pos.2 : Int) + off.2).toNat := rfl
      have hqS : q ∈ (Finset.range h ×ˢ Finset.range w).filter
          (fun p => (g p.1 p.2).wall = true ∧ p ∉ fs) := by
        rw [Finset.mem_filter, Finset.mem_product, Finset.mem_range,
          Finset.mem_range]
        exact ⟨⟨by omega, by omega⟩, hwall, hnotin⟩
      have hset : (Finset.range h ×ˢ Finset.range w).filter
            (fun p => (g p.1 p.2).wall = true ∧ p ∉ fs ++ [q]) =
          ((Finset.range h ×ˢ Finset.range w).filter
            (fun p => (g p.1 p.2).wall = true ∧ p ∉ fs)).erase q := by
        ext p
        rw [Finset.mem_erase, Finset.mem_filter, Finset.mem_filter]
        constructor
        · intro ⟨hrange, hw1, hnot⟩
          rw [List.mem_append, List.mem_singleton] at hnot
          exact ⟨fun hpq => hnot (Or.inr hpq), hrange, hw1,
            fun hfs => hnot (Or.inl hfs)⟩
        · intro ⟨hpq, hrange, hw1, hnot⟩
          refine ⟨hrange, hw1, ?_⟩
          rw [List.mem_append, List.mem_singleton]
          rintro (hfs | hfs)
          · exact hnot hfs
          · exact hpq hfs
      have hcard : wallFree h w g (fs ++ [q]) = wallFree h w g fs - 1 := by
        unfold wallFree
        rw [hset, Finset.card_erase_of_mem hqS]
      have hpos1 : 1 ≤ wallFree h w g fs := by
        unfold wallFree
        exact Finset.card_pos.2 ⟨q, hqS⟩
      have hlen : (fs ++ [q]).length = fs.length + 1 := by simp
      omega
    · exact Nat.le_refl _

theorem getD_eq_getElem_of_lt {α : Type} (l : List α) (n : Nat) (d : α)
    (h : n < l.length) : l.getD n d = l[n] := by
  rw [List.getD_eq_getElem?_getD, List.getElem?_eq_getElem h]
  rfl

/-- an element of a list missing from `eraseIdx idx` must be the element
at position `idx` -/
theorem eq_get_of_not_mem_eraseIdx (fs : List Pos) (idx : Nat)
    (hidx : idx < fs.length) (p : Pos) (hp : p ∈ fs)
    (hpe : p ∉ fs.eraseIdx idx) : p = fs.getD idx (0, 0) := by
  rw [getD_eq_getElem_of_lt _ _ _ hidx]
  rw [List.eraseIdx_eq_take_drop_succ] at hpe
  have hsplit : fs = fs.take idx ++ fs[idx] :: fs.drop (idx + 1) := by
    conv_lhs => rw [← List.take_append_drop idx fs]
    rw [List.getElem_cons_drop]
  rw [hsplit] at hp
  rw [List.mem_append, List.mem_cons] at hp
  rcases hp with htake | heq | hdrop
  · exact absurd (List.mem_append.2 (Or.inl htake)) hpe
  · exact heq
  · exact absurd (List.mem_append.2 (Or.inr hdrop)) hpe

/-- removing the (now open) drawn frontier cell from the list does not
re-create a counted wall cell -/
theorem wallFree_erase (h w : Nat) (g2 : Grid) (fs t : List Pos) (idx : Nat)
    (hidx : idx < fs.length)
    (hopen : (g2 (fs.getD idx (0, 0)).1 (fs.getD idx (0, 0)).2).wall =
      false) :
    wallFree h w g2 ((fs ++ t).eraseIdx idx) ≤ wallFree h w g2 (fs ++ t) := by
  apply Finset.card_le_card
  intro p hp
  rw [Finset.mem_filter] at hp ⊢
  refine ⟨hp.1, hp.2.1, ?_⟩
  intro hmem
  apply hp.2.2
  rw [List.eraseIdx_append_of_lt_length hidx]
  rw [List.mem_append] at hmem
  rcases hmem with hfs | ht
  · by_cases hpe : p ∈ fs.eraseIdx idx
    · exact List.mem_append.2 (Or.inl hpe)
    · have := eq_get_of_not_mem_eraseIdx fs idx hidx p hfs hpe
      rw [this] at hp
      rw [hopen] at hp
      exact absurd hp.2.1 (by simp)
  · exact List.mem_append.2 (Or.inr ht)

/-- one iteration of the Prim loop strictly decreases the measure -/
theorem primIter_measure (pickF pickN : Grid → List Pos → Nat) (h w : Nat)
    (g : Grid) (fs : List Pos) (hne : ¬ fs.length = 0) :
    2 * wallFree h w
        (primConnect pickN (setWall g (fs.getD (pickF g fs % fs.length)
          (0, 0)) false) (fs.getD (pickF g fs % fs.length) (0, 0))
          (primTwoNeighbors h w (setWall g (fs.getD (pickF g fs % fs.length)
            (0, 0)) false) (fs.getD (pickF g fs % fs.length) (0, 0))))
        ((appendFrontiers h w
          (primConnect pickN (setWall g (fs.getD (pickF g fs % fs.length)
            (0, 0)) false) (fs.getD (pickF g fs % fs.length) (0, 0))
            (primTwoNeighbors h w (setWall g
              (fs.getD (pickF g fs % fs.length) (0, 0)) false)
              (fs.getD (pickF g fs % fs.length) (0, 0))))
          fs (fs.getD (pickF g fs % fs.length) (0, 0))).eraseIdx
          (pickF g fs % fs.length)) +
      ((appendFrontiers h w
        (primConnect pickN (setWall g (fs.getD (pickF g fs % fs.length)
          (0, 0)) false) (fs.getD (pickF g fs % fs.length) (0, 0))
          (primTwoNeighbors h w (setWall g
            (fs.getD (pickF g fs % fs.length) (0, 0)) false)
            (fs.getD (pickF g fs % fs.length) (0, 0))))
        fs (fs.getD (pickF g fs % fs.length) (0, 0))).eraseIdx
        (pickF g fs % fs.length)).length + 1 ≤
    2 * wallFree h w g fs + fs.length := by
  set idx := pickF g fs % fs.length with hidxdef
  have hidx : idx < fs.length := Nat.mod_lt _ (by omega)
  set current := fs.getD idx (0, 0) with hcur
  set g2 := primConnect pickN (setWall g current false) current
    (primTwoNeighbors h w (setWall g current false) current) with hg2
  have hg2open : (g2 current.1 current.2).wall = false := by
    rw [hg2]
    exact primConnect_keepOpen _ _ _ _ _ _
      (wall_setWall_false_self g current)
  have himp : ∀ i j, (g2 i j).wall = true → (g i j).wall = true := by
    intro i j hij
    exact wall_setWall_false_imp _ _ _ _ (wall_primConnect_imp _ _ _ _ _ _ hij)
  obtain ⟨t, ht⟩ := af_prefix h w g2 current primOffsets fs
  have hmeas := af_measure h w g2 current primOffsets fs
  unfold appendFrontiers
  rw [ht] at hmeas ⊢
  have herase := wallFree_erase h w g2 fs t idx hidx hg2open
  have hlenfs : ((fs ++ t).eraseIdx idx).length = (fs ++ t).length - 1 :=
    List.length_eraseIdx_of_lt (by rw [List.length_append]; omega)
  have hmono := wallFree_mono h w g g2 fs himp
  have hlen2 : 1 ≤ (fs ++ t).length := by rw [List.length_append]; omega
  omega

/-- with enough fuel the Prim loop always reaches an empty frontier -/
theorem primLoop_empties (pickF pickN : Grid → List Pos → Nat) (h w : Nat) :
    ∀ fuel g fs, 2 * wallFree h w g fs + fs.length ≤ fuel →
      (primLoop pickF pickN h w fuel g fs).2 = [] := by
  intro fuel
  induction fuel with
  | zero =>
    intro g fs hfs
    simp only [primLoop]
    exact List.length_eq_zero.1 (by omega)
  | succ f ih =>
    intro g fs hfs
    simp only [primLoop]
    split
    · rename_i hlen
      exact List.length_eq_zero.1 hlen
    · rename_i hlen
      apply ih
      have := primIter_measure pickF pickN h w g fs hlen
      omega

/-- C8: for every odd-dimensioned grid of size at least 3x3 started from
all walls with entry, goal and an interior odd/odd seed cell opened, the
Prim generation loop empties its frontier list within the fuel
`gen_from_prim` supplies: the loop terminates after finitely many
iterations. -/
theorem C8_prim_loop_terminates (pickF pickN : Grid → List Pos → Nat)
    (starter : Pos) (h w : Nat) (cells : Grid)
    (hh : 3 ≤ h) (hw : 3 ≤ w) (hho : h % 2 = 1) (hwo : w % 2 = 1)
    (hstart : Interior h w starter)
    (hsodd : starter.1 % 2 = 1 ∧ starter.2 % 2 = 1)
    (hcells : ∀ i j, (cells i j).wall = true) :
    (primLoop pickF pickN h w (2 * (h * w) + 5)
      (setWall (setWall (setWall cells (1, 0) false) (h - 2, w - 1) false)
        starter false)
      (appendFrontiers h w
        (setWall (setWall (setWall cells (1, 0) false) (h - 2, w - 1) false)
          starter false)
        [] starter)).2 = [] := by
  apply primLoop_empties
  have h1 := wallFree_le h w
    (setWall (setWall (setWall cells (1, 0) false) (h - 2, w - 1) false)
      starter false)
    (appendFrontiers h w
      (setWall (setWall (setWall cells (1, 0) false) (h - 2, w - 1) false)
        starter false) [] starter)
  have h2 : (appendFrontiers h w
      (setWall (setWall (setWall cells (1, 0) false) (h - 2, w - 1) false)
        starter false) [] starter).length ≤ 4 := by
    have := af_length_le h w
      (setWall (setWall (setWall cells (1, 0) false) (h - 2, w - 1) false)
        starter false) starter primOffsets []
    simpa [appendFrontiers] using this
  omega

theorem C8_witness :
    (3 ≤ 3 ∧ 3 % 2 = 1 ∧ Interior 3 3 ((1, 1) : Pos) ∧
      ((1, 1) : Pos).1 % 2 = 1) ∧
    (primLoop sampleOracle.pickFrontier sampleOracle.pickNeighbor 3 3
      (2 * (3 * 3) + 5)
      (setWall (setWall (setWall (fun _ _ => (⟨true, false⟩ : Cell))
        (1, 0) false) (3 - 2, 3 - 1) false) (1, 1) false)
      (appendFrontiers 3 3
        (setWall (setWall (setWall (fun _ _ => (⟨true, false⟩ : Cell))
          (1, 0) false) (3 - 2, 3 - 1) false) (1, 1) false)
        [] (1, 1))).2 = [] := by
  refine ⟨⟨by decide, by decide, by decide, by decide⟩, ?_⟩
  exact C8_prim_loop_terminates sampleOracle.pickFrontier
    sampleOracle.pickNeighbor (1, 1) 3 3 (fun _ _ => ⟨true, false⟩)
    (by decide) (by decide) (by decide) (by decide) (by decide)
    ⟨by decide, by decide⟩ (fun i j => rfl)

/-! ## C9: fixed-seed recursive division on a 5x5 grid -/

/-- cardinal directions used by the simple-path counter -/
def pathDirs : List (Int × Int) := [(1, 0), (-1, 0), (0, 1), (0, -1)]

/-- number of simple paths (no cell repeated) through open cells from
`pos` to `goal`; `seen` is the set of cells already on the current path -/
def countPaths (g : Grid) (h w : Nat) (goal : Pos) :
    Nat → List Pos → Pos → Nat
  | 0, _, _ => 0
  | fuel + 1, seen, pos =>
    if pos = goal then 1
    else
      List.foldl (fun n off =>
        let qy : Int := (pos.1 : Int) + off.1
        let qx : Int := (pos.2 : Int) + off.2
        if 0 ≤ qy ∧ qy < (h : Int) ∧ 0 ≤ qx ∧ qx < (w : Int)
            ∧ (g qy.toNat qx.toNat).wall = false
            ∧ (qy.toNat, qx.toNat) ∉ pos :: seen then
          n + countPaths g h w goal fuel (pos :: seen) (qy.toNat, qx.toNat)
        else n) 0 pathDirs

/-- the wall layout produced by recursive division on a 5x5 grid when the
wall draw is 2 and the hole draw is 1 (`true` = wall) -/
def mD5wallLayout : List (List Bool) :=
  [[true, true, true, true, true],
   [false, false, false, false, true],
   [true, false, true, true, true],
   [true, false, false, false, false],
   [true, true, true, true, true]]

/-- C9: recursive division is a deterministic function of its random draws
(two runs with identical draw sequences produce identical wall layouts);
with the fixed draws of `sampleOracle` the 5x5 layout is exactly
`mD5wallLayout`, and that layout has exactly one simple path from the entry
`(1, 0)` to the goal `(3, 4)`. -/
theorem C9_divide_deterministic_unique_path :
    (∀ (wp1 hp1 wp2 hp2 : Pos → Pos → Nat) (cells : Grid),
      (∀ tl br, wp1 tl br = wp2 tl br) →
      (∀ tl br, hp1 tl br = hp2 tl br) →
      ∀ i j, (gen_from_divide wp1 hp1 5 5 cells).cells i j =
        (gen_from_divide wp2 hp2 5 5 cells).cells i j) ∧
    (∀ i < 5, ∀ j < 5,
      (mD5.cells i j).wall = (mD5wallLayout.getD i []).getD j true) ∧
    mD5.entrypoint = (1, 0) ∧ mD5.goalpoint = (3, 4) ∧
    countPaths mD5.cells 5 5 (3, 4) 26 [] (1, 0) = 1 := by
  refine ⟨?_, ?_, rfl, rfl, by decide⟩
  · intro wp1 hp1 wp2 hp2 cells hwp hhp i j
    have h1 : wp1 = wp2 := funext fun tl => funext fun br => hwp tl br
    have h2 : hp1 = hp2 := funext fun tl => funext fun br => hhp tl br
    rw [h1, h2]
  · decide

theorem C9_witness :
    ((gen_from_divide sampleOracle.wallPick sampleOracle.holePick 5 5
        (fun _ _ => ⟨false, false⟩)).cells 2 1 =
      (gen_from_divide (fun _ _ => 2) (fun _ _ => 1) 5 5
        (fun _ _ => ⟨false, false⟩)).cells 2 1) ∧
    (mD5.cells 2 1).wall = false ∧ (mD5.cells 2 2).wall = true ∧
    countPaths mD5.cells 5 5 (3, 4) 26 [] (1, 0) = 1 := by
  obtain ⟨hdet, hlay, -, -, hcount⟩ := C9_divide_deterministic_unique_path
  refine ⟨hdet sampleOracle.wallPick sampleOracle.holePick
      (fun _ _ => 2) (fun _ _ => 1) (fun _ _ => ⟨false, false⟩)
      (fun tl br => rfl) (fun tl br => rfl) 2 1, ?_, ?_, hcount⟩
  · have := hlay 2 (by decide) 1 (by decide)
    simpa using this
  · have := hlay 2 (by decide) 2 (by decide)
    simpa using this

/-! ## Open-cell reachability and the perfect-maze counting invariant -/

/-- two grid cells share an edge -/
def AdjacentP (p q : Pos) : Prop :=
  (p.1 = q.1 ∧ (p.2 + 1 = q.2 ∨ q.2 + 1 = p.2)) ∨
  (p.2 = q.2 ∧ (p.1 + 1 = q.1 ∨ q.1 + 1 = p.1))

instance (p q : Pos) : Decidable (AdjacentP p q) := by
  unfold AdjacentP; infer_instance

theorem AdjacentP_symm (p q : Pos) (hpq : AdjacentP p q) : AdjacentP q p := by
  unfold AdjacentP at *
  omega

/-- an in-bounds non-wall cell -/
def OpenIn (g : Grid) (h w : Nat) (p : Pos) : Prop :=
  p.1 < h ∧ p.2 < w ∧ (g p.1 p.2).wall = false

instance (g : Grid) (h w : Nat) (p : Pos) : Decidable (OpenIn g h w p) := by
  unfold OpenIn; infer_instance

/-- reachability along edges between open in-bounds cells -/
def ReachOpen (g : Grid) (h w : Nat) : Pos → Pos → Prop :=
  Relation.ReflTransGen
    (fun a b => OpenIn g h w a ∧ OpenIn g h w b ∧ AdjacentP a b)

/-- number of open cells of the grid -/
def openCount (g : Grid) (h w : Nat) : Nat :=
  ((Finset.range h ×ˢ Finset.range w).filter
    (fun p => (g p.1 p.2).wall = false)).card

/-- number of cardinal adjacencies between open cells (each unordered pair
counted once, as a right-neighbour or down-neighbour pair) -/
def adjCount (g : Grid) (h w : Nat) : Nat :=
  ((Finset.range h ×ˢ Finset.range w).filter
    (fun p => p.2 + 1 < w ∧ (g p.1 p.2).wall = false ∧
      (g p.1 (p.2 + 1)).wall = false)).card +
  ((Finset.range h ×ˢ Finset.range w).filter
    (fun p => p.1 + 1 < h ∧ (g p.1 p.2).wall = false ∧
      (g (p.1 + 1) p.2).wall = false)).card

/-- all grid positions, row by row -/
def allPositions (h w : Nat) : List Pos :=
  (List.range h).foldr
    (fun i acc => ((List.range w).map (fun j => (i, j))) ++ acc) []

theorem mem_rowsFold (w : Nat) :
    ∀ (l : List Nat) (acc : List Pos) (p : Pos),
      p ∈ l.foldr
          (fun i a => ((List.range w).map (fun j => (i, j))) ++ a) acc ↔
        (p.1 ∈ l ∧ p.2 < w) ∨ p ∈ acc := by
  intro l
  induction l with
  | nil => intro acc p; simp
  | cons i rest ih =>
    intro acc p
    simp only [List.foldr_cons, List.mem_append, ih, List.mem_map,
      List.mem_range, List.mem_cons]
    constructor
    · rintro ((⟨j, hj, rfl⟩ : ∃ j, j < w ∧ (i, j) = p) | ⟨h1, h2⟩ | hacc)
      · exact Or.inl ⟨Or.inl rfl, hj⟩
      · exact Or.inl ⟨Or.inr h1, h2⟩
      · exact Or.inr hacc
    · rintro (⟨(h1 | h1), h2⟩ | hacc)
      · exact Or.inl ⟨p.2, h2, by rw [← h1]⟩
      · exact Or.inr (Or.inl ⟨h1, h2⟩)
      · exact Or.inr (Or.inr hacc)

theorem mem_allPositions (h w : Nat) (p : Pos) :
    p ∈ allPositions h w ↔ p.1 < h ∧ p.2 < w := by
  unfold allPositions
  rw [mem_rowsFold]
  simp [List.mem_range]

/-- one step of the reachability closure: adjoin `p` when it is open, new,
and adjacent to an already-reached cell -/
def reachStep (g : Grid) (acc : List Pos) (p : Pos) : List Pos :=
  if (g p.1 p.2).wall = false ∧ p ∉ acc
      ∧ acc.any (fun q => decide (AdjacentP p q)) = true then
    acc ++ [p]
  else acc

/-- one sweep of the reachability closure: adjoin every open cell adjacent
to an already-reached cell -/
def expandReach (g : Grid) (h w : Nat) (s : List Pos) : List Pos :=
  (allPositions h w).foldl (reachStep g) s

/-- iterated closure -/
def reachN (g : Grid) (h w : Nat) : Nat → List Pos → List Pos
  | 0, s => s
  | n + 1, s => reachN g h w n (expandReach g h w s)

/-- `true` when every open cell of the grid lies in the closure computed
from `e` -/
def connectedB (g : Grid) (h w : Nat) (e : Pos) : Bool :=
  (allPositions h w).all (fun p =>
    decide ((g p.1 p.2).wall = false → p ∈ reachN g h w (h * w) [e]))

theorem expandReach_sound (g : Grid) (h w : Nat) (e : Pos) :
    ∀ l acc, (∀ p ∈ l, p.1 < h ∧ p.2 < w) →
      (∀ q ∈ acc, OpenIn g h w q ∧ ReachOpen g h w e q) →
      ∀ p ∈ List.foldl (reachStep g) acc l,
        OpenIn g h w p ∧ ReachOpen g h w e p := by
  intro l
  induction l with
  | nil => intro acc _ hacc p hp; exact hacc p hp
  | cons p0 rest ih =>
    intro acc hl hacc p hp
    refine ih _ (fun q hq => hl q (List.mem_cons_of_mem _ hq)) ?_ p hp
    intro q hq
    unfold reachStep at hq
    split at hq
    · rename_i hcond
      obtain ⟨hwall, hnot, hany⟩ := hcond
      rcases List.mem_append.1 hq with hq1 | hq1
      · exact hacc q hq1
      · rcases List.mem_singleton.1 hq1 with rfl
        obtain ⟨r, hr, hadj⟩ := List.any_eq_true.1 hany
        have hradj : AdjacentP q r := of_decide_eq_true hadj
        obtain ⟨hropen, hrreach⟩ := hacc r hr
        have hqopen : OpenIn g h w q :=
          ⟨(hl q (List.mem_cons_self _ _)).1,
            (hl q (List.mem_cons_self _ _)).2, hwall⟩
        exact ⟨hqopen, Relation.ReflTransGen.tail hrreach
          ⟨hropen, hqopen, AdjacentP_symm q r hradj⟩⟩
    · exact hacc q hq

theorem reachN_sound (g : Grid) (h w : Nat) (e : Pos) :
    ∀ n s, (∀ q ∈ s, OpenIn g h w q ∧ ReachOpen g h w e q) →
      ∀ p ∈ reachN g h w n s, OpenIn g h w p ∧ ReachOpen g h w e p := by
  intro n
  induction n with
  | zero => intro s hs p hp; exact hs p hp
  | succ n ih =>
    intro s hs p hp
    exact ih _ (fun q hq => expandReach_sound g h w e (allPositions h w) s
      (fun r hr => (mem_allPositions h w r).1 hr) hs q hq) p hp

/-- a `true` result of the executable connectivity check certifies that
every open cell is reachable from `e` through open cells -/
theorem connectedB_sound (g : Grid) (h w : Nat) (e : Pos)
    (he : OpenIn g h w e) (hb : connectedB g h w e = true) :
    ∀ p, OpenIn g h w p → ReachOpen g h w e p := by
  intro p hp
  have hall := List.all_eq_true.1 hb p
    ((mem_allPositions h w p).2 ⟨hp.1, hp.2.1⟩)
  have hmem : p ∈ reachN g h w (h * w) [e] :=
    of_decide_eq_true hall hp.2.2
  exact (reachN_sound g h w e (h * w) [e] (fun q hq => by
    rcases List.mem_singleton.1 hq with rfl
    exact ⟨he, Relation.ReflTransGen.refl⟩) p hmem).2

/-- a connectivity certificate: starting from the cells of `acc`, each
listed cell is open and adjacent to an earlier cell -/
def chainOK (g : Grid) (h w : Nat) : List Pos → List Pos → Prop
  | _, [] => True
  | acc, p :: rest =>
      OpenIn g h w p ∧ (∃ q ∈ acc, AdjacentP q p) ∧
        chainOK g h w (acc ++ [p]) rest

def chainOKDec (g : Grid) (h w : Nat) :
    ∀ (l acc : List Pos), Decidable (chainOK g h w acc l)
  | [], _ => .isTrue trivial
  | p :: rest, acc =>
    have : Decidable (chainOK g h w (acc ++ [p]) rest) :=
      chainOKDec g h w rest (acc ++ [p])
    inferInstanceAs (Decidable (_ ∧ _ ∧ _))

instance (g : Grid) (h w : Nat) (acc l : List Pos) :
    Decidable (chainOK g h w acc l) := chainOKDec g h w l acc

/-- a valid certificate chain makes every listed cell reachable from `e` -/
theorem chainOK_reach (g : Grid) (h w : Nat) (e : Pos) :
    ∀ l acc, (∀ q ∈ acc, ReachOpen g h w e q ∧ OpenIn g h w q) →
      chainOK g h w acc l →
      ∀ p, p ∈ acc ++ l → ReachOpen g h w e p := by
  intro l
  induction l with
  | nil =>
    intro acc hacc _ p hp
    rw [List.append_nil] at hp
    exact (hacc p hp).1
  | cons p0 rest ih =>
    intro acc hacc hchain p hp
    obtain ⟨hopen, ⟨q, hq, hadj⟩, hrest⟩ := hchain
    have hp0 : ReachOpen g h w e p0 :=
      Relation.ReflTransGen.tail (hacc q hq).1
        ⟨(hacc q hq).2, hopen, hadj⟩
    have hacc' : ∀ r ∈ acc ++ [p0],
        ReachOpen g h w e r ∧ OpenIn g h w r := by
      intro r hr
      rcases List.mem_append.1 hr with hr1 | hr1
      · exact hacc r hr1
      · rcases List.mem_singleton.1 hr1 with rfl
        exact ⟨hp0, hopen⟩
    have := ih (acc ++ [p0]) hacc' hrest p
    rw [List.append_assoc] at this
    exact this hp

/-! ## C10: the dead-end filling connector search can panic -/

/-- the open cells of a 7x7 perfect maze in which the junction `(3, 3)`
carries two length-one dead-end branches, `(2, 3)` and `(3, 4)` -/
def c10open : List Pos :=
  [(1, 0), (1, 1), (2, 1), (3, 1), (4, 1), (5, 1), (5, 2), (5, 3), (5, 4),
   (5, 5), (5, 6), (4, 3), (3, 3), (2, 3), (3, 4)]

/-- the 7x7 maze on which the dead-end filling solver panics: it satisfies
the perfect-maze and border invariants, yet filling the two stacked
branches unmarks `(3, 3)` while the dead end `(2, 3)` is still queued, so
the connector search for `(2, 3)` comes up empty and the `unwrap` on the
`find_map` result panics -/
def M7 : Maze :=
  { dimensions := (7, 7), entrypoint := (1, 0), goalpoint := (5, 6),
    cells := fun i j => ⟨decide ((i, j) ∉ c10open), false⟩ }

/-- C10 is refuted on the code: `M7` satisfies the perfect-maze invariant
(every open cell is in the certified chain `c10open`, whose cells are all
reachable from the entry by `chainOK_reach`, and the adjacency count is one
less than the open-cell count) and the border invariant, yet the dead-end
filling solver reaches the branch the source marks `// unreachable`: its
embedding returns `none`, the model of the `unwrap` panic. -/
theorem C10_dead_end_filling_panics :
    chainOK M7.cells 7 7 [M7.entrypoint] (c10open.drop 1) ∧
    ((allPositions 7 7).all (fun p =>
      decide ((M7.cells p.1 p.2).wall = false → p ∈ c10open)) = true) ∧
    adjCount M7.cells 7 7 + 1 = openCount M7.cells 7 7 ∧
    OpenIn M7.cells 7 7 M7.entrypoint ∧
    OpenIn M7.cells 7 7 M7.goalpoint ∧
    ((allPositions 7 7).all (fun p =>
      decide ((p.1 = 0 ∨ p.1 = 6 ∨ p.2 = 0 ∨ p.2 = 6) →
        p ≠ M7.entrypoint → p ≠ M7.goalpoint →
        (M7.cells p.1 p.2).wall = true)) = true) ∧
    solve_from_dead_end_filling M7 = none := by
  refine ⟨by decide, by decide, by decide, by decide, by decide, by decide,
    ?_⟩
  rfl

/-! ## Cell classes on odd-dimension grids and counting tools -/

/-- an odd/odd in-bounds cell (a lattice node of the carving model) -/
def NodeP (h w : Nat) (p : Pos) : Prop :=
  p.1 % 2 = 1 ∧ p.2 % 2 = 1 ∧ p.1 < h ∧ p.2 < w

/-- a strictly interior cell of mixed parity (a potential passage between
two nodes) -/
def MidP (h w : Nat) (p : Pos) : Prop :=
  Interior h w p ∧ (p.1 + p.2) % 2 = 1

/-- a strictly interior cell with both coordinates even (a fixed lattice
pillar) -/
def EvenP (h w : Nat) (p : Pos) : Prop :=
  Interior h w p ∧ p.1 % 2 = 0 ∧ p.2 % 2 = 0

instance (h w : Nat) (p : Pos) : Decidable (NodeP h w p) := by
  unfold NodeP; infer_instance

instance (h w : Nat) (p : Pos) : Decidable (MidP h w p) := by
  unfold MidP; infer_instance

instance (h w : Nat) (p : Pos) : Decidable (EvenP h w p) := by
  unfold EvenP; infer_instance

/-- the two lattice nodes a mixed-parity cell lies between -/
def midEnds (p : Pos) : Pos × Pos :=
  if p.1 % 2 = 1 then ((p.1, p.2 - 1), (p.1, p.2 + 1))
  else ((p.1 - 1, p.2), (p.1 + 1, p.2))

theorem NodeP_interior (h w : Nat) (hh : h % 2 = 1) (hw : w % 2 = 1)
    (p : Pos) (hp : NodeP h w p) : Interior h w p := by
  obtain ⟨h1, h2, h3, h4⟩ := hp
  exact ⟨by omega, by omega, by omega, by omega⟩

/-- number of visited cells of the grid -/
def visitedCount (g : Grid) (h w : Nat) : Nat :=
  ((Finset.range h ×ˢ Finset.range w).filter
    (fun p => (g p.1 p.2).visited = true)).card

/-- number of open mixed-parity interior cells -/
def openMidCount (g : Grid) (h w : Nat) : Nat :=
  ((Finset.range h ×ˢ Finset.range w).filter
    (fun p => MidP h w p ∧ (g p.1 p.2).wall = false)).card

/-- number of open lattice nodes -/
def openNodeCount (g : Grid) (h w : Nat) : Nat :=
  ((Finset.range h ×ˢ Finset.range w).filter
    (fun p => NodeP h w p ∧ (g p.1 p.2).wall = false)).card

/-- number of open in-grid cardinal neighbours of `p` -/
def openNbr (g : Grid) (h w : Nat) (p : Pos) : Nat :=
  (if p.1 + 1 < h ∧ (g (p.1 + 1) p.2).wall = false then 1 else 0) +
  (if 1 ≤ p.1 ∧ (g (p.1 - 1) p.2).wall = false then 1 else 0) +
  (if p.2 + 1 < w ∧ (g p.1 (p.2 + 1)).wall = false then 1 else 0) +
  (if 1 ≤ p.2 ∧ (g p.1 (p.2 - 1)).wall = false then 1 else 0)

/-! ### master lemmas on filtered cardinals -/

theorem filter_card_congr {α : Type} (s : Finset α) (P P' : α → Prop)
    [DecidablePred P] [DecidablePred P']
    (hcong : ∀ x ∈ s, (P' x ↔ P x)) :
    (s.filter P').card = (s.filter P).card := by
  congr 1
  apply Finset.filter_congr
  intro x hx
  exact hcong x hx

theorem filter_card_flip_at {α : Type} [DecidableEq α] (s : Finset α)
    (P P' : α → Prop) [DecidablePred P] [DecidablePred P'] (a : α)
    (ha : a ∈ s) (hcong : ∀ x ∈ s, x ≠ a → (P' x ↔ P x))
    (hPa : ¬ P a) (hP'a : P' a) :
    (s.filter P').card = (s.filter P).card + 1 := by
  have hset : s.filter P' = insert a (s.filter P) := by
    ext x
    rw [Finset.mem_insert, Finset.mem_filter, Finset.mem_filter]
    constructor
    · intro ⟨hx, hP'x⟩
      by_cases hxa : x = a
      · exact Or.inl hxa
      · exact Or.inr ⟨hx, (hcong x hx hxa).1 hP'x⟩
    · rintro (rfl | ⟨hx, hPx⟩)
      · exact ⟨ha, hP'a⟩
      · by_cases hxa : x = a
        · subst hxa; exact absurd hPx hPa
        · exact ⟨hx, (hcong x hx hxa).2 hPx⟩
  rw [hset, Finset.card_insert_of_not_mem
    (by rw [Finset.mem_filter]; exact fun hx => hPa hx.2)]

theorem filter_card_erase_ind {α : Type} [DecidableEq α] (s : Finset α)
    (P : α → Prop) [DecidablePred P] (a : α) (ha : a ∈ s) :
    (s.filter P).card =
      ((s.erase a).filter P).card + (if P a then 1 else 0) := by
  by_cases hPa : P a
  · rw [if_pos hPa]
    have hset : s.filter P = insert a ((s.erase a).filter P) := by
      ext x
      rw [Finset.mem_insert, Finset.mem_filter, Finset.mem_filter,
        Finset.mem_erase]
      constructor
      · intro ⟨hx, hPx⟩
        by_cases hxa : x = a
        · exact Or.inl hxa
        · exact Or.inr ⟨⟨hxa, hx⟩, hPx⟩
      · rintro (rfl | ⟨⟨hxa, hx⟩, hPx⟩)
        · exact ⟨ha, hPa⟩
        · exact ⟨hx, hPx⟩
    rw [hset, Finset.card_insert_of_not_mem
      (by rw [Finset.mem_filter, Finset.mem_erase]; tauto)]
  · rw [if_neg hPa, Nat.add_zero]
    congr 1
    ext x
    rw [Finset.mem_filter, Finset.mem_filter, Finset.mem_erase]
    constructor
    · intro ⟨hx, hPx⟩
      refine ⟨⟨?_, hx⟩, hPx⟩
      rintro rfl
      exact hPa hPx
    · intro ⟨⟨_, hx⟩, hPx⟩
      exact ⟨hx, hPx⟩

/-- change of a filtered count when the predicate changes at exactly two
places -/
theorem filter_card_flip_at2 {α : Type} [DecidableEq α] (s : Finset α)
    (P P' : α → Prop) [DecidablePred P] [DecidablePred P'] (a b : α)
    (ha : a ∈ s) (hb : b ∈ s) (hab : a ≠ b)
    (hcong : ∀ x ∈ s, x ≠ a → x ≠ b → (P' x ↔ P x)) :
    (s.filter P').card + (if P a then 1 else 0) + (if P b then 1 else 0) =
    (s.filter P).card + (if P' a then 1 else 0) +
      (if P' b then 1 else 0) := by
  have hb' : b ∈ s.erase a := Finset.mem_erase.2 ⟨fun hba => hab hba.symm, hb⟩
  have h1 := filter_card_erase_ind s P' a ha
  have h2 := filter_card_erase_ind (s.erase a) P' b hb'
  have h3 := filter_card_erase_ind s P a ha
  have h4 := filter_card_erase_ind (s.erase a) P b hb'
  have h5 : (((s.erase a).erase b).filter P').card =
      (((s.erase a).erase b).filter P).card := by
    apply filter_card_congr
    intro x hx
    rw [Finset.mem_erase, Finset.mem_erase] at hx
    exact hcong x hx.2.2 hx.2.1 hx.1
  omega

theorem mem_rangeProd (h w : Nat) (p : Pos) :
    p ∈ Finset.range h ×ˢ Finset.range w ↔ p.1 < h ∧ p.2 < w := by
  rw [Finset.mem_product, Finset.mem_range, Finset.mem_range]

/-! ### how each count reacts to single-cell updates -/

theorem openCount_congr (g g' : Grid) (h w : Nat)
    (heq : ∀ i j, (g' i j).wall = (g i j).wall) :
    openCount g' h w = openCount g h w := by
  apply filter_card_congr
  intro x _
  rw [heq]

theorem adjCount_congr (g g' : Grid) (h w : Nat)
    (heq : ∀ i j, (g' i j).wall = (g i j).wall) :
    adjCount g' h w = adjCount g h w := by
  unfold adjCount
  congr 1 <;>
    apply filter_card_congr <;>
    intro x _ <;>
    rw [heq, heq]

theorem openMidCount_congr (g g' : Grid) (h w : Nat)
    (heq : ∀ i j, (g' i j).wall = (g i j).wall) :
    openMidCount g' h w = openMidCount g h w := by
  apply filter_card_congr
  intro x _
  rw [heq]

theorem openNodeCount_congr (g g' : Grid) (h w : Nat)
    (heq : ∀ i j, (g' i j).wall = (g i j).wall) :
    openNodeCount g' h w = openNodeCount g h w := by
  apply filter_card_congr
  intro x _
  rw [heq]

theorem visitedCount_congr (g g' : Grid) (h w : Nat)
    (heq : ∀ i j, (g' i j).visited = (g i j).visited) :
    visitedCount g' h w = visitedCount g h w := by
  apply filter_card_congr
  intro x _
  rw [heq]

theorem wall_carveMark_as_setWall (g : Grid) (p : Pos) (i j : Nat) :
    (carveMark g p i j).wall = (setWall g p false i j).wall := by
  unfold carveMark setWall; split <;> rfl

theorem visited_carveMark_as_setVisited (g : Grid) (p : Pos) (i j : Nat) :
    (carveMark g p i j).visited = (setVisited g p true i j).visited := by
  unfold carveMark setVisited; split <;> rfl

theorem prodNe_of_ne {x p : Pos} (hx : x ≠ p) :
    ¬(x.1 = p.1 ∧ x.2 = p.2) := by
  intro hx2
  exact hx (Prod.ext hx2.1 hx2.2)

theorem openCount_setWall_false (g : Grid) (h w : Nat) (p : Pos)
    (hp1 : p.1 < h) (hp2 : p.2 < w) (hwall : (g p.1 p.2).wall = true) :
    openCount (setWall g p false) h w = openCount g h w + 1 := by
  apply filter_card_flip_at _ _ _ p ((mem_rangeProd h w p).2 ⟨hp1, hp2⟩)
  · intro x _ hxp
    rw [setWall_ne _ _ _ _ _ (prodNe_of_ne hxp)]
  · rw [hwall]; simp
  · exact wall_setWall_false_self g p

theorem visitedCount_setVisited_true (g : Grid) (h w : Nat) (p : Pos)
    (hp1 : p.1 < h) (hp2 : p.2 < w) (hvis : (g p.1 p.2).visited = false) :
    visitedCount (setVisited g p true) h w = visitedCount g h w + 1 := by
  apply filter_card_flip_at _ _ _ p ((mem_rangeProd h w p).2 ⟨hp1, hp2⟩)
  · intro x _ hxp
    rw [setVisited_ne _ _ _ _ _ (prodNe_of_ne hxp)]
  · rw [hvis]; simp
  · show (setVisited g p true p.1 p.2).visited = true
    unfold setVisited; simp

theorem openMidCount_setWall_false_mid (g : Grid) (h w : Nat) (p : Pos)
    (hmid : MidP h w p) (hp1 : p.1 < h) (hp2 : p.2 < w)
    (hwall : (g p.1 p.2).wall = true) :
    openMidCount (setWall g p false) h w = openMidCount g h w + 1 := by
  apply filter_card_flip_at _ _ _ p ((mem_rangeProd h w p).2 ⟨hp1, hp2⟩)
  · intro x _ hxp
    rw [setWall_ne _ _ _ _ _ (prodNe_of_ne hxp)]
  · rw [hwall]; simp
  · exact ⟨hmid, wall_setWall_false_self g p⟩

theorem openMidCount_setWall_false_nonmid (g : Grid) (h w : Nat) (p : Pos)
    (hmid : ¬ MidP h w p) :
    openMidCount (setWall g p false) h w = openMidCount g h w := by
  apply filter_card_congr
  intro x _
  by_cases hxp : x = p
  · subst hxp
    constructor
    · intro hx; exact absurd hx.1 hmid
    · intro hx; exact absurd hx.1 hmid
  · rw [setWall_ne _ _ _ _ _ (prodNe_of_ne hxp)]

theorem openNodeCount_setWall_false_node (g : Grid) (h w : Nat) (p : Pos)
    (hnode : NodeP h w p) (hp1 : p.1 < h) (hp2 : p.2 < w)
    (hwall : (g p.1 p.2).wall = true) :
    openNodeCount (setWall g p false) h w = openNodeCount g h w + 1 := by
  apply filter_card_flip_at _ _ _ p ((mem_rangeProd h w p).2 ⟨hp1, hp2⟩)
  · intro x _ hxp
    rw [setWall_ne _ _ _ _ _ (prodNe_of_ne hxp)]
  · rw [hwall]; simp
  · exact ⟨hnode, wall_setWall_false_self g p⟩

theorem openNodeCount_setWall_false_nonnode (g : Grid) (h w : Nat) (p : Pos)
    (hnode : ¬ NodeP h w p) :
    openNodeCount (setWall g p false) h w = openNodeCount g h w := by
  apply filter_card_congr
  intro x _
  by_cases hxp : x = p
  · subst hxp
    constructor
    · intro hx; exact absurd hx.1 hnode
    · intro hx; exact absurd hx.1 hnode
  · rw [setWall_ne _ _ _ _ _ (prodNe_of_ne hxp)]

/-- opening a wall cell (away from the left and top edges) adds exactly its
number of open neighbours to the adjacency count -/
theorem adjCount_setWall_false (g : Grid) (h w : Nat) (p : Pos)
    (hp1 : 1 ≤ p.1) (hp1' : p.1 < h) (hp2 : 1 ≤ p.2) (hp2' : p.2 < w)
    (hwall : (g p.1 p.2).wall = true) :
    adjCount (setWall g p false) h w = adjCount g h w + openNbr g h w p := by
  have hmem : p ∈ Finset.range h ×ˢ Finset.range w :=
    (mem_rangeProd h w p).2 ⟨hp1', hp2'⟩
  have hmemL : ((p.1, p.2 - 1) : Pos) ∈ Finset.range h ×ˢ Finset.range w :=
    (mem_rangeProd h w _).2 ⟨hp1', by omega⟩
  have hmemU : ((p.1 - 1, p.2) : Pos) ∈ Finset.range h ×ˢ Finset.range w :=
    (mem_rangeProd h w _).2 ⟨by omega, hp2'⟩
  have hneL : p ≠ ((p.1, p.2 - 1) : Pos) := by
    intro hEq
    have := congrArg Prod.snd hEq
    simp only at this
    omega
  have hneU : p ≠ ((p.1 - 1, p.2) : Pos) := by
    intro hEq
    have := congrArg Prod.fst hEq
    simp only at this
    omega
  have hH := filter_card_flip_at2 (Finset.range h ×ˢ Finset.range w)
    (fun q => q.2 + 1 < w ∧ (g q.1 q.2).wall = false ∧
      (g q.1 (q.2 + 1)).wall = false)
    (fun q => q.2 + 1 < w ∧ (setWall g p false q.1 q.2).wall = false ∧
      (setWall g p false q.1 (q.2 + 1)).wall = false)
    p (p.1, p.2 - 1) hmem hmemL hneL
    (by
      intro x _ hxa hxb
      dsimp only
      rw [setWall_ne _ _ _ _ _ (prodNe_of_ne hxa),
        setWall_ne _ _ _ x.1 (x.2 + 1) (by
          intro hx2
          exact hxb (Prod.ext hx2.1 (by omega)))])
  have hV := filter_card_flip_at2 (Finset.range h ×ˢ Finset.range w)
    (fun q => q.1 + 1 < h ∧ (g q.1 q.2).wall = false ∧
      (g (q.1 + 1) q.2).wall = false)
    (fun q => q.1 + 1 < h ∧ (setWall g p false q.1 q.2).wall = false ∧
      (setWall g p false (q.1 + 1) q.2).wall = false)
    p (p.1 - 1, p.2) hmem hmemU hneU
    (by
      intro x _ hxa hxb
      dsimp only
      rw [setWall_ne _ _ _ _ _ (prodNe_of_ne hxa),
        setWall_ne _ _ _ (x.1 + 1) x.2 (by
          intro hx2
          exact hxb (Prod.ext (by omega) hx2.2))])
  -- evaluate the eight indicator terms
  have ePa : (if (p.2 + 1 < w ∧ (g p.1 p.2).wall = false ∧
      (g p.1 (p.2 + 1)).wall = false) then 1 else 0) = 0 := by
    rw [if_neg]; rw [hwall]; simp
  have ePb : (if ((p.2 - 1) + 1 < w ∧ (g p.1 (p.2 - 1)).wall = false ∧
      (g p.1 ((p.2 - 1) + 1)).wall = false) then 1 else 0) = 0 := by
    rw [if_neg]
    rw [show p.2 - 1 + 1 = p.2 from by omega, hwall]
    simp
  have ePa' : (if (p.2 + 1 < w ∧ (setWall g p false p.1 p.2).wall = false ∧
      (setWall g p false p.1 (p.2 + 1)).wall = false) then 1 else 0) =
      (if p.2 + 1 < w ∧ (g p.1 (p.2 + 1)).wall = false then 1 else 0) := by
    apply if_congr _ rfl rfl
    rw [wall_setWall_false_self,
      setWall_ne _ _ _ p.1 (p.2 + 1) (by intro hx; omega)]
    constructor
    · intro hx; exact ⟨hx.1, hx.2.2⟩
    · intro hx; exact ⟨hx.1, rfl, hx.2⟩
  have ePb' : (if ((p.2 - 1) + 1 < w ∧
      (setWall g p false p.1 (p.2 - 1)).wall = false ∧
      (setWall g p false p.1 ((p.2 - 1) + 1)).wall = false) then 1 else 0) =
      (if 1 ≤ p.2 ∧ (g p.1 (p.2 - 1)).wall = false then 1 else 0) := by
    apply if_congr _ rfl rfl
    rw [show p.2 - 1 + 1 = p.2 from by omega, wall_setWall_false_self,
      setWall_ne _ _ _ p.1 (p.2 - 1) (by intro hx; omega)]
    constructor
    · intro hx; exact ⟨hp2, hx.2.1⟩
    · intro hx; exact ⟨by omega, hx.2, rfl⟩
  have eQa : (if (p.1 + 1 < h ∧ (g p.1 p.2).wall = false ∧
      (g (p.1 + 1) p.2).wall = false) then 1 else 0) = 0 := by
    rw [if_neg]; rw [hwall]; simp
  have eQb : (if ((p.1 - 1) + 1 < h ∧ (g (p.1 - 1) p.2).wall = false ∧
      (g ((p.1 - 1) + 1) p.2).wall = false) then 1 else 0) = 0 := by
    rw [if_neg]
    rw [show p.1 - 1 + 1 = p.1 from by omega, hwall]
    simp
  have eQa' : (if (p.1 + 1 < h ∧ (setWall g p false p.1 p.2).wall = false ∧
      (setWall g p false (p.1 + 1) p.2).wall = false) then 1 else 0) =
      (if p.1 + 1 < h ∧ (g (p.1 + 1) p.2).wall = false then 1 else 0) := by
    apply if_congr _ rfl rfl
    rw [wall_setWall_false_self,
      setWall_ne _ _ _ (p.1 + 1) p.2 (by intro hx; omega)]
    constructor
    · intro hx; exact ⟨hx.1, hx.2.2⟩
    · intro hx; exact ⟨hx.1, rfl, hx.2⟩
  have eQb' : (if ((p.1 - 1) + 1 < h ∧
      (setWall g p false (p.1 - 1) p.2).wall = false ∧
      (setWall g p false ((p.1 - 1) + 1) p.2).wall = false) then 1 else 0) =
      (if 1 ≤ p.1 ∧ (g (p.1 - 1) p.2).wall = false then 1 else 0) := by
    apply if_congr _ rfl rfl
    rw [show p.1 - 1 + 1 = p.1 from by omega, wall_setWall_false_self,
      setWall_ne _ _ _ (p.1 - 1) p.2 (by intro hx; omega)]
    constructor
    · intro hx; exact ⟨hp1, hx.2.1⟩
    · intro hx; exact ⟨by omega, hx.2, rfl⟩
  rw [ePa, ePb, ePa', ePb'] at hH
  rw [eQa, eQb, eQa', eQb'] at hV
  unfold adjCount openNbr
  omega

/-! ## The carving invariant of the walk generator -/

/-- the bounds check of a two-offset move from `pos` (as in the source:
strictly inside the border) -/
def TwoStepOK (h w : Nat) (pos : Pos) (off : Int × Int) : Prop :=
  0 < (pos.1 : Int) + off.1 ∧ (pos.1 : Int) + off.1 < (h : Int) - 1 ∧
  0 < (pos.2 : Int) + off.2 ∧ (pos.2 : Int) + off.2 < (w : Int) - 1

instance (h w : Nat) (pos : Pos) (off : Int × Int) :
    Decidable (TwoStepOK h w pos off) := by
  unfold TwoStepOK; infer_instance

/-- the cell two steps away -/
def twoTarget (pos : Pos) (off : Int × Int) : Pos :=
  (((pos.1 : Int) + off.1).toNat, ((pos.2 : Int) + off.2).toNat)

/-- the cell in between -/
def twoMid (pos : Pos) (off : Int × Int) : Pos :=
  (((pos.1 : Int) + off.1 / 2).toNat, ((pos.2 : Int) + off.2 / 2).toNat)

/-- 1 when the node next to the entry has been visited -/
def eInd (g : Grid) : Nat := if (g 1 1).visited = true then 1 else 0

/-- 1 when the node next to the goal has been visited -/
def gInd (g : Grid) (h w : Nat) : Nat :=
  if (g (h - 2) (w - 2)).visited = true then 1 else 0

/-- all in-bounds two-step neighbours of `q` are visited -/
def NbrsVisited (g : Grid) (h w : Nat) (q : Pos) : Prop :=
  ∀ off ∈ walkOffsets, TwoStepOK h w q off →
    (g (twoTarget q off).1 (twoTarget q off).2).visited = true

/-- the structural part of the walk invariant -/
structure CarveBase (g : Grid) (h w : Nat) : Prop where
  visNode : ∀ p : Pos, p.1 < h → p.2 < w → (g p.1 p.2).visited = true →
    NodeP h w p
  visOpen : ∀ p : Pos, (g p.1 p.2).visited = true →
    (g p.1 p.2).wall = false
  nodeWall : ∀ p : Pos, NodeP h w p → (g p.1 p.2).visited = false →
    (g p.1 p.2).wall = true
  evenWall : ∀ p : Pos, EvenP h w p → (g p.1 p.2).wall = true
  borderWall : ∀ p : Pos, p.1 < h → p.2 < w → ¬ Interior h w p →
    p ≠ (1, 0) → p ≠ (h - 2, w - 1) → (g p.1 p.2).wall = true
  eOpen : (g 1 0).wall = false
  gOpen : (g (h - 2) (w - 1)).wall = false

/-- every open passage cell lies between two visited nodes -/
def MidsOK (g : Grid) (h w : Nat) : Prop :=
  ∀ p : Pos, MidP h w p → (g p.1 p.2).wall = false →
    (g (midEnds p).1.1 (midEnds p).1.2).visited = true ∧
    (g (midEnds p).2.1 (midEnds p).2.2).visited = true

/-- as `MidsOK`, except that one endpoint may be the pending cell `pos`
(the walk is about to mark it) -/
def MidsOKExc (g : Grid) (h w : Nat) (pos : Pos) : Prop :=
  ∀ p : Pos, MidP h w p → (g p.1 p.2).wall = false →
    ((g (midEnds p).1.1 (midEnds p).1.2).visited = true ∧
      (g (midEnds p).2.1 (midEnds p).2.2).visited = true) ∨
    ((midEnds p).1 = pos ∧ (g (midEnds p).2.1 (midEnds p).2.2).visited =
      true) ∨
    ((midEnds p).2 = pos ∧ (g (midEnds p).1.1 (midEnds p).1.2).visited =
      true)

/-- the stable counting invariant: two endpoint cells plus one open cell
per visited node plus one per carved passage, and two adjacencies per
carved passage plus the entry/goal attachments -/
def CarveCounts (g : Grid) (h w : Nat) : Prop :=
  openCount g h w = 2 + visitedCount g h w + openMidCount g h w ∧
  adjCount g h w = 2 * openMidCount g h w + eInd g + gInd g h w

/-- nodes not yet visited (the walk's termination measure) -/
def unvisNodeCount (g : Grid) (h w : Nat) : Nat :=
  ((Finset.range h ×ˢ Finset.range w).filter
    (fun p => NodeP h w p ∧ (g p.1 p.2).visited = false)).card

/-- every open interior cell is reachable from `hub` -/
def ConnFrom (g : Grid) (h w : Nat) (hub : Pos) : Prop :=
  ∀ p : Pos, Interior h w p → (g p.1 p.2).wall = false →
    ReachOpen g h w hub p

theorem ReachOpen_mono (g g' : Grid) (h w : Nat)
    (hmono : ∀ i j, (g i j).wall = false → (g' i j).wall = false)
    (a b : Pos) (hr : ReachOpen g h w a b) : ReachOpen g' h w a b := by
  refine Relation.ReflTransGen.mono ?_ hr
  rintro x y ⟨⟨hx1, hx2, hx3⟩, ⟨hy1, hy2, hy3⟩, hadj⟩
  exact ⟨⟨hx1, hx2, hmono _ _ hx3⟩, ⟨hy1, hy2, hmono _ _ hy3⟩, hadj⟩

theorem unvisNodeCount_le (g g' : Grid) (h w : Nat)
    (hmono : ∀ i j, (g i j).visited = true → (g' i j).visited = true) :
    unvisNodeCount g' h w ≤ unvisNodeCount g h w := by
  apply Finset.card_le_card
  intro p hp
  rw [Finset.mem_filter] at hp ⊢
  refine ⟨hp.1, hp.2.1, ?_⟩
  cases hv : (g p.1 p.2).visited
  · rfl
  · rw [hmono _ _ hv] at hp
    exact absurd hp.2.2 (by simp)

/-- marking an unvisited cell visited decreases the unvisited-node count by
one when the cell is a node -/
theorem unvisNodeCount_carve (g : Grid) (h w : Nat) (p : Pos)
    (hnode : NodeP h w p) (hvis : (g p.1 p.2).visited = false) :
    unvisNodeCount g h w =
      unvisNodeCount (carveMark g p) h w + 1 := by
  apply filter_card_flip_at _ _ _ p
    ((mem_rangeProd h w p).2 ⟨hnode.2.2.1, hnode.2.2.2⟩)
  · intro x _ hxp
    rw [carveMark_ne _ _ _ _ (prodNe_of_ne hxp)]
  · show ¬(NodeP h w p ∧ (carveMark g p p.1 p.2).visited = false)
    intro hx
    have : (carveMark g p p.1 p.2).visited = true := by
      unfold carveMark; simp
    rw [this] at hx
    exact absurd hx.2 (by simp)
  · exact ⟨hnode, hvis⟩
/-- geometry of one two-step move: the target is a node, the in-between cell
is a passage cell whose endpoints are exactly the source and the target -/
theorem walkStep_geometry (h w : Nat) (hh3 : 3 ≤ h) (hw3 : 3 ≤ w)
    (hho : h % 2 = 1) (hwo : w % 2 = 1)
    (pos : Pos) (hpos : NodeP h w pos) (off : Int × Int)
    (hoff : off ∈ walkOffsets) (hok : TwoStepOK h w pos off) :
    NodeP h w (twoTarget pos off) ∧
    MidP h w (twoMid pos off) ∧
    (midEnds (twoMid pos off) = (twoTarget pos off, pos) ∨
      midEnds (twoMid pos off) = (pos, twoTarget pos off)) ∧
    twoMid pos off ≠ pos ∧ twoMid pos off ≠ twoTarget pos off ∧
    twoTarget pos off ≠ pos ∧
    AdjacentP pos (twoMid pos off) ∧
    AdjacentP (twoMid pos off) (twoTarget pos off) := by
  obtain ⟨hn1, hn2, hn3, hn4⟩ := hpos
  have e1 : (-2 : Int) / 2 = -1 := by decide
  have e2 : (2 : Int) / 2 = 1 := by decide
  have e3 : (0 : Int) / 2 = 0 := by decide
  fin_cases hoff
  · simp only [TwoStepOK] at hok
    obtain ⟨b1, b2, b3, b4⟩ := hok
    have ht : twoTarget pos (-2, 0) = (pos.1 - 2, pos.2) := by
      simp only [twoTarget]; exact Prod.ext (by dsimp only; omega) (by dsimp only; omega)
    have hm : twoMid pos (-2, 0) = (pos.1 - 1, pos.2) := by
      simp only [twoMid]
      exact Prod.ext (by dsimp only; rw [e1]; omega) (by dsimp only; rw [e3]; omega)
    rw [ht, hm]
    have hme : midEnds (pos.1 - 1, pos.2) = ((pos.1 - 2, pos.2), pos) := by
      unfold midEnds
      dsimp only
      rw [if_neg (by omega)]
      rw [Prod.mk.injEq, Prod.mk.injEq, Prod.mk.injEq]
      refine ⟨⟨by omega, rfl⟩, by omega, rfl⟩
    refine ⟨?_, ?_, Or.inl hme, ?_, ?_, ?_, ?_, ?_⟩
    · unfold NodeP; dsimp only; omega
    · unfold MidP Interior; dsimp only; omega
    · intro hx; rw [Prod.ext_iff] at hx; dsimp only at hx; omega
    · intro hx; rw [Prod.ext_iff] at hx; dsimp only at hx; omega
    · intro hx; rw [Prod.ext_iff] at hx; dsimp only at hx; omega
    · unfold AdjacentP; dsimp only; omega
    · unfold AdjacentP; dsimp only; omega
  · simp only [TwoStepOK] at hok
    obtain ⟨b1, b2, b3, b4⟩ := hok
    have ht : twoTarget pos (2, 0) = (pos.1 + 2, pos.2) := by
      simp only [twoTarget]; exact Prod.ext (by dsimp only; omega) (by dsimp only; omega)
    have hm : twoMid pos (2, 0) = (pos.1 + 1, pos.2) := by
      simp only [twoMid]
      exact Prod.ext (by dsimp only; rw [e2]; omega) (by dsimp only; rw [e3]; omega)
    rw [ht, hm]
    have hme : midEnds (pos.1 + 1, pos.2) = (pos, (pos.1 + 2, pos.2)) := by
      unfold midEnds
      dsimp only
      rw [if_neg (by omega)]
      rw [Prod.mk.injEq, Prod.mk.injEq, Prod.mk.injEq]
      refine ⟨⟨by omega, rfl⟩, by omega, rfl⟩
    refine ⟨?_, ?_, Or.inr hme, ?_, ?_, ?_, ?_, ?_⟩
    · unfold NodeP; dsimp only; omega
    · unfold MidP Interior; dsimp only; omega
    · intro hx; rw [Prod.ext_iff] at hx; dsimp only at hx; omega
    · intro hx; rw [Prod.ext_iff] at hx; dsimp only at hx; omega
    · intro hx; rw [Prod.ext_iff] at hx; dsimp only at hx; omega
    · unfold AdjacentP; dsimp only; omega
    · unfold AdjacentP; dsimp only; omega
  · simp only [TwoStepOK] at hok
    obtain ⟨b1, b2, b3, b4⟩ := hok
    have ht : twoTarget pos (0, -2) = (pos.1, pos.2 - 2) := by
      simp only [twoTarget]; exact Prod.ext (by dsimp only; omega) (by dsimp only; omega)
    have hm : twoMid pos (0, -2) = (pos.1, pos.2 - 1) := by
      simp only [twoMid]
      exact Prod.ext (by dsimp only; rw [e3]; omega) (by dsimp only; rw [e1]; omega)
    rw [ht, hm]
    have hme : midEnds (pos.1, pos.2 - 1) = ((pos.1, pos.2 - 2), pos) := by
      unfold midEnds
      dsimp only
      rw [if_pos (by omega)]
      rw [Prod.mk.injEq, Prod.mk.injEq, Prod.mk.injEq]
      refine ⟨⟨rfl, by omega⟩, rfl, by omega⟩
    refine ⟨?_, ?_, Or.inl hme, ?_, ?_, ?_, ?_, ?_⟩
    · unfold NodeP; dsimp only; omega
    · unfold MidP Interior; dsimp only; omega
    · intro hx; rw [Prod.ext_iff] at hx; dsimp only at hx; omega
    · intro hx; rw [Prod.ext_iff] at hx; dsimp only at hx; omega
    · intro hx; rw [Prod.ext_iff] at hx; dsimp only at hx; omega
    · unfold AdjacentP; dsimp only; omega
    · unfold AdjacentP; dsimp only; omega
  · simp only [TwoStepOK] at hok
    obtain ⟨b1, b2, b3, b4⟩ := hok
    have ht : twoTarget pos (0, 2) = (pos.1, pos.2 + 2) := by
      simp only [twoTarget]; exact Prod.ext (by dsimp only; omega) (by dsimp only; omega)
    have hm : twoMid pos (0, 2) = (pos.1, pos.2 + 1) := by
      simp only [twoMid]
      exact Prod.ext (by dsimp only; rw [e3]; omega) (by dsimp only; rw [e2]; omega)
    rw [ht, hm]
    have hme : midEnds (pos.1, pos.2 + 1) = (pos, (pos.1, pos.2 + 2)) := by
      unfold midEnds
      dsimp only
      rw [if_pos (by omega)]
      rw [Prod.mk.injEq, Prod.mk.injEq, Prod.mk.injEq]
      refine ⟨⟨rfl, by omega⟩, rfl, by omega⟩
    refine ⟨?_, ?_, Or.inr hme, ?_, ?_, ?_, ?_, ?_⟩
    · unfold NodeP; dsimp only; omega
    · unfold MidP Interior; dsimp only; omega
    · intro hx; rw [Prod.ext_iff] at hx; dsimp only at hx; omega
    · intro hx; rw [Prod.ext_iff] at hx; dsimp only at hx; omega
    · intro hx; rw [Prod.ext_iff] at hx; dsimp only at hx; omega
    · unfold AdjacentP; dsimp only; omega
    · unfold AdjacentP; dsimp only; omega

/-- the shuffles produced by `get_two_offset_shuffle` contain every one of
the four two-offsets (they are permutations of the array in the source) -/
def ShuffleOracleFull (σ : Grid → Pos → List (Int × Int)) : Prop :=
  ∀ g p o, o ∈ walkOffsets → o ∈ σ g p

theorem ReachOpen_symm (g : Grid) (h w : Nat) (a b : Pos)
    (hr : ReachOpen g h w a b) : ReachOpen g h w b a := by
  induction hr with
  | refl => exact Relation.ReflTransGen.refl
  | tail hstep hlast ih =>
    rename_i x y
    exact Relation.ReflTransGen.trans
      (Relation.ReflTransGen.single ⟨hlast.2.1, hlast.1, AdjacentP_symm _ _ hlast.2.2⟩) ih

/-- any property of lattice nodes that holds at one node and propagates to
every in-bounds two-step neighbour holds at every node -/
theorem all_nodes_pred (h w : Nat) (hh3 : 3 ≤ h) (hw3 : 3 ≤ w)
    (hho : h % 2 = 1) (hwo : w % 2 = 1) (P : Pos → Prop) (s : Pos)
    (hs : NodeP h w s) (hPs : P s)
    (hclosed : ∀ q : Pos, NodeP h w q → P q → ∀ off ∈ walkOffsets,
      TwoStepOK h w q off → P (twoTarget q off)) :
    ∀ q : Pos, NodeP h w q → P q := by
  suffices hn : ∀ n : Nat, ∀ q : Pos, NodeP h w q →
      (q.1 - s.1) + (s.1 - q.1) + (q.2 - s.2) + (s.2 - q.2) ≤ n → P q by
    intro q hq
    exact hn ((q.1 - s.1) + (s.1 - q.1) + (q.2 - s.2) + (s.2 - q.2)) q hq
      le_rfl
  intro n
  induction n with
  | zero =>
    intro q hq hd
    have : q = s := by
      rw [Prod.ext_iff]
      omega
    rw [this]; exact hPs
  | succ n ih =>
    intro q hq hd
    obtain ⟨hq1, hq2, hq3, hq4⟩ := hq
    obtain ⟨hs1, hs2, hs3, hs4⟩ := hs
    by_cases hqs : q = s
    · rw [hqs]; exact hPs
    · by_cases hc1 : q.1 = s.1
      · -- columns differ; step the column towards s
        have hc2 : q.2 ≠ s.2 := by
          intro hx; exact hqs (Prod.ext hc1 hx)
        by_cases hlt : s.2 < q.2
        · have hq' : NodeP h w (q.1, q.2 - 2) := ⟨hq1, by omega, hq3, by omega⟩
          have hP' : P (q.1, q.2 - 2) := ih _ hq' (by dsimp only; omega)
          have hok : TwoStepOK h w (q.1, q.2 - 2) (0, 2) := by
            refine ⟨by dsimp only; omega, by dsimp only; omega,
              by dsimp only; omega, by dsimp only; omega⟩
          have := hclosed _ hq' hP' (0, 2) (by decide) hok
          have ht : twoTarget (q.1, q.2 - 2) (0, 2) = q := by
            refine Prod.ext ?_ ?_ <;> simp only [twoTarget] <;> omega
          rwa [ht] at this
        · have hq' : NodeP h w (q.1, q.2 + 2) := ⟨hq1, by omega, hq3, by omega⟩
          have hP' : P (q.1, q.2 + 2) := ih _ hq' (by dsimp only; omega)
          have hok : TwoStepOK h w (q.1, q.2 + 2) (0, -2) := by
            refine ⟨by dsimp only; omega, by dsimp only; omega,
              by dsimp only; omega, by dsimp only; omega⟩
          have := hclosed _ hq' hP' (0, -2) (by decide) hok
          have ht : twoTarget (q.1, q.2 + 2) (0, -2) = q := by
            refine Prod.ext ?_ ?_ <;> simp only [twoTarget] <;> omega
          rwa [ht] at this
      · by_cases hlt : s.1 < q.1
        · have hq' : NodeP h w (q.1 - 2, q.2) := ⟨by omega, hq2, by omega, hq4⟩
          have hP' : P (q.1 - 2, q.2) := ih _ hq' (by dsimp only; omega)
          have hok : TwoStepOK h w (q.1 - 2, q.2) (2, 0) := by
            refine ⟨by dsimp only; omega, by dsimp only; omega,
              by dsimp only; omega, by dsimp only; omega⟩
          have := hclosed _ hq' hP' (2, 0) (by decide) hok
          have ht : twoTarget (q.1 - 2, q.2) (2, 0) = q := by
            refine Prod.ext ?_ ?_ <;> simp only [twoTarget] <;> omega
          rwa [ht] at this
        · have hq' : NodeP h w (q.1 + 2, q.2) := ⟨by omega, hq2, by omega, hq4⟩
          have hP' : P (q.1 + 2, q.2) := ih _ hq' (by dsimp only; omega)
          have hok : TwoStepOK h w (q.1 + 2, q.2) (-2, 0) := by
            refine ⟨by dsimp only; omega, by dsimp only; omega,
              by dsimp only; omega, by dsimp only; omega⟩
          have := hclosed _ hq' hP' (-2, 0) (by decide) hok
          have ht : twoTarget (q.1 + 2, q.2) (-2, 0) = q := by
            refine Prod.ext ?_ ?_ <;> simp only [twoTarget] <;> omega
          rwa [ht] at this

/-! ### global counting from the structural invariant -/

/-- under the structural invariant, the open cells are exactly the entry,
the goal, the open nodes, and the open passage cells -/
theorem openCount_struct (g : Grid) (h w : Nat) (hh3 : 3 ≤ h) (hw3 : 3 ≤ w)
    (hho : h % 2 = 1) (hwo : w % 2 = 1)
    (hev : ∀ p : Pos, EvenP h w p → (g p.1 p.2).wall = true)
    (hbd : ∀ p : Pos, p.1 < h → p.2 < w → ¬ Interior h w p → p ≠ (1, 0) →
      p ≠ (h - 2, w - 1) → (g p.1 p.2).wall = true)
    (heO : (g 1 0).wall = false) (hgO : (g (h - 2) (w - 1)).wall = false) :
    openCount g h w = 2 + openNodeCount g h w + openMidCount g h w := by
  have hA : ∀ x : Pos, x ∈ Finset.range h ×ˢ Finset.range w →
      ((g x.1 x.2).wall = false ↔
        x = (1, 0) ∨ x = (h - 2, w - 1) ∨
        (NodeP h w x ∧ (g x.1 x.2).wall = false) ∨
        (MidP h w x ∧ (g x.1 x.2).wall = false)) := by
    intro x hx
    rw [mem_rangeProd] at hx
    constructor
    · intro ho
      by_cases hI : Interior h w x
      · rcases Nat.even_or_odd x.1 with h1 | h1 <;>
          rcases Nat.even_or_odd x.2 with h2 | h2
        · exfalso
          have := hev x ⟨hI, Nat.even_iff.1 h1, Nat.even_iff.1 h2⟩
          rw [this] at ho; exact absurd ho (by simp)
        · exact Or.inr (Or.inr (Or.inr ⟨⟨hI, by
            have := Nat.even_iff.1 h1; have := Nat.odd_iff.1 h2; omega⟩, ho⟩))
        · exact Or.inr (Or.inr (Or.inr ⟨⟨hI, by
            have := Nat.odd_iff.1 h1; have := Nat.even_iff.1 h2; omega⟩, ho⟩))
        · exact Or.inr (Or.inr (Or.inl ⟨⟨Nat.odd_iff.1 h1, Nat.odd_iff.1 h2,
            hx.1, hx.2⟩, ho⟩))
      · by_cases he : x = (1, 0)
        · exact Or.inl he
        · by_cases hgl : x = (h - 2, w - 1)
          · exact Or.inr (Or.inl hgl)
          · exfalso
            have := hbd x hx.1 hx.2 hI he hgl
            rw [this] at ho; exact absurd ho (by simp)
    · rintro (he | hgl | ⟨-, ho⟩ | ⟨-, ho⟩)
      · rw [he]; exact heO
      · rw [hgl]; exact hgO
      · exact ho
      · exact ho
  have hFe : ((Finset.range h ×ˢ Finset.range w).filter
      (fun x : Pos => x = (1, 0))).card = 1 := by
    have : ((Finset.range h ×ˢ Finset.range w).filter
        (fun x : Pos => x = (1, 0))) = {(1, 0)} := by
      ext x
      rw [Finset.mem_filter, Finset.mem_singleton, mem_rangeProd]
      constructor
      · intro hx; exact hx.2
      · intro hx; rw [hx]; exact ⟨⟨by omega, by omega⟩, rfl⟩
    rw [this, Finset.card_singleton]
  have hFg : ((Finset.range h ×ˢ Finset.range w).filter
      (fun x : Pos => x = (h - 2, w - 1))).card = 1 := by
    have : ((Finset.range h ×ˢ Finset.range w).filter
        (fun x : Pos => x = (h - 2, w - 1))) = {(h - 2, w - 1)} := by
      ext x
      rw [Finset.mem_filter, Finset.mem_singleton, mem_rangeProd]
      constructor
      · intro hx; exact hx.2
      · intro hx; rw [hx]; exact ⟨⟨by omega, by omega⟩, rfl⟩
    rw [this, Finset.card_singleton]
  have hd3 : Disjoint
      ((Finset.range h ×ˢ Finset.range w).filter
        (fun x : Pos => NodeP h w x ∧ (g x.1 x.2).wall = false))
      ((Finset.range h ×ˢ Finset.range w).filter
        (fun x : Pos => MidP h w x ∧ (g x.1 x.2).wall = false)) := by
    rw [Finset.disjoint_left]
    intro x hx hx2
    rw [Finset.mem_filter] at hx hx2
    have h1 := hx.2.1.1
    have h2 := hx.2.1.2.1
    have h3 := hx2.2.1.2
    omega
  have hd2 : Disjoint
      ((Finset.range h ×ˢ Finset.range w).filter
        (fun x : Pos => x = (h - 2, w - 1)))
      (((Finset.range h ×ˢ Finset.range w).filter
          (fun x : Pos => NodeP h w x ∧ (g x.1 x.2).wall = false)) ∪
        ((Finset.range h ×ˢ Finset.range w).filter
          (fun x : Pos => MidP h w x ∧ (g x.1 x.2).wall = false))) := by
    rw [Finset.disjoint_left]
    intro x hx hx2
    rw [Finset.mem_filter] at hx
    rw [Finset.mem_union, Finset.mem_filter, Finset.mem_filter] at hx2
    rcases hx2 with ⟨-, hn, -⟩ | ⟨-, hm, -⟩
    · have h1 := hn.2.1
      have h2 := hn.2.2.2
      rw [hx.2] at h1 h2
      dsimp only at h1 h2
      omega
    · have h1 := hm.1.2.2.2
      rw [hx.2] at h1
      dsimp only at h1
      omega
  have hd1 : Disjoint
      ((Finset.range h ×ˢ Finset.range w).filter
        (fun x : Pos => x = (1, 0)))
      (((Finset.range h ×ˢ Finset.range w).filter
          (fun x : Pos => x = (h - 2, w - 1))) ∪
        (((Finset.range h ×ˢ Finset.range w).filter
            (fun x : Pos => NodeP h w x ∧ (g x.1 x.2).wall = false)) ∪
          ((Finset.range h ×ˢ Finset.range w).filter
            (fun x : Pos => MidP h w x ∧ (g x.1 x.2).wall = false)))) := by
    rw [Finset.disjoint_left]
    intro x hx hx2
    rw [Finset.mem_filter] at hx
    rw [Finset.mem_union, Finset.mem_union, Finset.mem_filter,
      Finset.mem_filter, Finset.mem_filter] at hx2
    rcases hx2 with ⟨-, hgl⟩ | ⟨-, hn, -⟩ | ⟨-, hm, -⟩
    · rw [hx.2] at hgl
      rw [Prod.ext_iff] at hgl
      dsimp only at hgl
      omega
    · have h1 := hn.2.1
      rw [hx.2] at h1
      exact absurd h1 (by decide)
    · have h1 := hm.1.2.2.1
      rw [hx.2] at h1
      exact absurd h1 (by decide)
  rw [openCount, filter_card_congr _ _ _ hA, Finset.filter_or,
    Finset.filter_or, Finset.filter_or,
    Finset.card_union_of_disjoint hd1, Finset.card_union_of_disjoint hd2,
    Finset.card_union_of_disjoint hd3, hFe, hFg]
  show 1 + (1 + (openNodeCount g h w + openMidCount g h w)) = _
  omega

/-- open horizontal passage cells (odd row, even column) -/
def openHMidCount (g : Grid) (h w : Nat) : Nat :=
  ((Finset.range h ×ˢ Finset.range w).filter
    (fun p => MidP h w p ∧ p.1 % 2 = 1 ∧ (g p.1 p.2).wall = false)).card

/-- open vertical passage cells (even row, odd column) -/
def openVMidCount (g : Grid) (h w : Nat) : Nat :=
  ((Finset.range h ×ˢ Finset.range w).filter
    (fun p => MidP h w p ∧ p.1 % 2 = 0 ∧ (g p.1 p.2).wall = false)).card

theorem openMid_split (g : Grid) (h w : Nat) :
    openMidCount g h w = openHMidCount g h w + openVMidCount g h w := by
  have hA : ∀ x : Pos, x ∈ Finset.range h ×ˢ Finset.range w →
      ((MidP h w x ∧ (g x.1 x.2).wall = false) ↔
        (MidP h w x ∧ x.1 % 2 = 1 ∧ (g x.1 x.2).wall = false) ∨
        (MidP h w x ∧ x.1 % 2 = 0 ∧ (g x.1 x.2).wall = false)) := by
    intro x _
    constructor
    · rintro ⟨hm, ho⟩
      rcases Nat.mod_two_eq_zero_or_one x.1 with h1 | h1
      · exact Or.inr ⟨hm, h1, ho⟩
      · exact Or.inl ⟨hm, h1, ho⟩
    · rintro (⟨hm, -, ho⟩ | ⟨hm, -, ho⟩) <;> exact ⟨hm, ho⟩
  have hd : Disjoint
      ((Finset.range h ×ˢ Finset.range w).filter
        (fun x : Pos => MidP h w x ∧ x.1 % 2 = 1 ∧ (g x.1 x.2).wall = false))
      ((Finset.range h ×ˢ Finset.range w).filter
        (fun x : Pos => MidP h w x ∧ x.1 % 2 = 0 ∧
          (g x.1 x.2).wall = false)) := by
    rw [Finset.disjoint_left]
    intro x hx hx2
    rw [Finset.mem_filter] at hx hx2
    have h1 := hx.2.2.1
    have h2 := hx2.2.2.1
    omega
  rw [openMidCount, filter_card_congr _ _ _ hA, Finset.filter_or,
    Finset.card_union_of_disjoint hd]
  rfl

theorem adjH_card (g : Grid) (h w : Nat) (hh3 : 3 ≤ h) (hw3 : 3 ≤ w)
    (hho : h % 2 = 1) (hwo : w % 2 = 1)
    (hev : ∀ p : Pos, EvenP h w p → (g p.1 p.2).wall = true)
    (hbd : ∀ p : Pos, p.1 < h → p.2 < w → ¬ Interior h w p → p ≠ (1, 0) →
      p ≠ (h - 2, w - 1) → (g p.1 p.2).wall = true)
    (heO : (g 1 0).wall = false) (hgO : (g (h - 2) (w - 1)).wall = false)
    (hmids : ∀ p : Pos, MidP h w p → (g p.1 p.2).wall = false →
      (g (midEnds p).1.1 (midEnds p).1.2).wall = false ∧
      (g (midEnds p).2.1 (midEnds p).2.2).wall = false) :
    ((Finset.range h ×ˢ Finset.range w).filter
      (fun p : Pos => p.2 + 1 < w ∧ (g p.1 p.2).wall = false ∧
        (g p.1 (p.2 + 1)).wall = false)).card =
    2 * openHMidCount g h w + (if (g 1 1).wall = false then 1 else 0) +
      (if (g (h - 2) (w - 2)).wall = false then 1 else 0) := by
  have hA : ∀ x : Pos, x ∈ Finset.range h ×ˢ Finset.range w →
      ((x.2 + 1 < w ∧ (g x.1 x.2).wall = false ∧
          (g x.1 (x.2 + 1)).wall = false) ↔
        (x = (1, 0) ∧ (g 1 1).wall = false) ∨
        (x = (h - 2, w - 2) ∧ (g (h - 2) (w - 2)).wall = false) ∨
        (MidP h w x ∧ x.1 % 2 = 1 ∧ (g x.1 x.2).wall = false) ∨
        (MidP h w (x.1, x.2 + 1) ∧ x.1 % 2 = 1 ∧
          (g x.1 (x.2 + 1)).wall = false)) := by
    intro x hx
    rw [mem_rangeProd] at hx
    constructor
    · rintro ⟨hb, ho1, ho2⟩
      by_cases hI : Interior h w x
      · rcases Nat.mod_two_eq_zero_or_one x.1 with e1 | e1 <;>
          rcases Nat.mod_two_eq_zero_or_one x.2 with e2 | e2
        · -- even/even interior: wall, contradiction
          exfalso
          have := hev x ⟨hI, e1, e2⟩
          rw [this] at ho1; exact absurd ho1 (by simp)
        · -- vertical mid: right neighbour is even/even or border, wall
          exfalso
          by_cases hIr : Interior h w (x.1, x.2 + 1)
          · have := hev (x.1, x.2 + 1) ⟨hIr, e1, by dsimp only; omega⟩
            dsimp only at this
            rw [this] at ho2; exact absurd ho2 (by simp)
          · have := hbd (x.1, x.2 + 1) (by dsimp only; omega)
              (by dsimp only; omega) hIr
              (by intro hc; rw [Prod.ext_iff] at hc; dsimp only at hc; omega)
              (by intro hc; rw [Prod.ext_iff] at hc; dsimp only at hc; omega)
            dsimp only at this
            rw [this] at ho2; exact absurd ho2 (by simp)
        · -- horizontal mid at x
          exact Or.inr (Or.inr (Or.inl ⟨⟨hI, by omega⟩, e1, ho1⟩))
        · -- node at x: right neighbour is a mid, the goal, or border wall
          by_cases hIr : Interior h w (x.1, x.2 + 1)
          · exact Or.inr (Or.inr (Or.inr ⟨⟨hIr, by dsimp only; omega⟩,
              e1, ho2⟩))
          · by_cases hgr : (⟨x.1, x.2 + 1⟩ : Pos) = (h - 2, w - 1)
            · rw [Prod.ext_iff] at hgr
              dsimp only at hgr
              have hx2 : x = (h - 2, w - 2) := by
                rw [Prod.ext_iff]; constructor <;> [exact hgr.1; omega]
              refine Or.inr (Or.inl ⟨hx2, ?_⟩)
              rw [hx2] at ho1
              exact ho1
            · exfalso
              have := hbd (x.1, x.2 + 1) (by dsimp only; omega)
                (by dsimp only; omega) hIr
                (by intro hc; rw [Prod.ext_iff] at hc; dsimp only at hc; omega)
                hgr
              dsimp only at this
              rw [this] at ho2; exact absurd ho2 (by simp)
      · by_cases he : x = (1, 0)
        · refine Or.inl ⟨he, ?_⟩
          rw [he] at ho2
          exact ho2
        · exfalso
          by_cases hgl : x = (h - 2, w - 1)
          · rw [hgl] at hb
            dsimp only at hb
            omega
          · have := hbd x hx.1 hx.2 hI he hgl
            rw [this] at ho1; exact absurd ho1 (by simp)
    · rintro (⟨he, ho⟩ | ⟨hgn, ho⟩ | ⟨hm, hodd, ho⟩ | ⟨hm, hodd, ho⟩)
      · rw [he]
        refine ⟨by dsimp only; omega, heO, ho⟩
      · rw [hgn]
        refine ⟨by dsimp only; omega, ho, ?_⟩
        show (g (h - 2) (w - 2 + 1)).wall = false
        rw [show w - 2 + 1 = w - 1 from by omega]
        exact hgO
      · have hends := hmids x hm ho
        rw [midEnds, if_pos hodd] at hends
        dsimp only at hends
        exact ⟨by have := hm.1.2.2.2; omega, ho, hends.2⟩
      · have hends := hmids (x.1, x.2 + 1) hm ho
        rw [midEnds, if_pos (by dsimp only; exact hodd)] at hends
        dsimp only at hends
        rw [Nat.add_sub_cancel] at hends
        refine ⟨?_, hends.1, ho⟩
        have := hm.1.2.2.2
        dsimp only at this
        omega
  have hQ1card : ((Finset.range h ×ˢ Finset.range w).filter
      (fun x : Pos => x = (1, 0) ∧ (g 1 1).wall = false)).card =
      (if (g 1 1).wall = false then 1 else 0) := by
    by_cases h11 : (g 1 1).wall = false
    · rw [if_pos h11]
      have : ((Finset.range h ×ˢ Finset.range w).filter
          (fun x : Pos => x = (1, 0) ∧ (g 1 1).wall = false)) = {(1, 0)} := by
        ext x
        rw [Finset.mem_filter, Finset.mem_singleton, mem_rangeProd]
        constructor
        · intro hx; exact hx.2.1
        · intro hx; rw [hx]; exact ⟨⟨by omega, by omega⟩, rfl, h11⟩
      rw [this, Finset.card_singleton]
    · rw [if_neg h11, Finset.card_eq_zero, Finset.filter_eq_empty_iff]
      intro x _
      rintro ⟨-, ho⟩
      exact h11 ho
  have hQ2card : ((Finset.range h ×ˢ Finset.range w).filter
      (fun x : Pos => x = (h - 2, w - 2) ∧
        (g (h - 2) (w - 2)).wall = false)).card =
      (if (g (h - 2) (w - 2)).wall = false then 1 else 0) := by
    by_cases hgn : (g (h - 2) (w - 2)).wall = false
    · rw [if_pos hgn]
      have : ((Finset.range h ×ˢ Finset.range w).filter
          (fun x : Pos => x = (h - 2, w - 2) ∧
            (g (h - 2) (w - 2)).wall = false)) = {(h - 2, w - 2)} := by
        ext x
        rw [Finset.mem_filter, Finset.mem_singleton, mem_rangeProd]
        constructor
        · intro hx; exact hx.2.1
        · intro hx; rw [hx]; exact ⟨⟨by omega, by omega⟩, rfl, hgn⟩
      rw [this, Finset.card_singleton]
    · rw [if_neg hgn, Finset.card_eq_zero, Finset.filter_eq_empty_iff]
      intro x _
      rintro ⟨-, ho⟩
      exact hgn ho
  have hQ4card : ((Finset.range h ×ˢ Finset.range w).filter
      (fun x : Pos => MidP h w (x.1, x.2 + 1) ∧ x.1 % 2 = 1 ∧
        (g x.1 (x.2 + 1)).wall = false)).card =
      ((Finset.range h ×ˢ Finset.range w).filter
      (fun p : Pos => MidP h w p ∧ p.1 % 2 = 1 ∧
        (g p.1 p.2).wall = false)).card := by
    apply Finset.card_bij (fun p _ => ((p.1, p.2 + 1) : Pos))
    · intro a ha
      rw [Finset.mem_filter] at ha ⊢
      rw [mem_rangeProd] at ha ⊢
      obtain ⟨⟨hb1, hb2⟩, hm, hodd, ho⟩ := ha
      have hi := hm.1.2.2.2
      dsimp only at hi
      exact ⟨⟨by dsimp only; omega, by dsimp only; omega⟩, hm,
        by dsimp only; exact hodd, ho⟩
    · intro a ha b hb hab
      rw [Prod.ext_iff] at hab
      dsimp only at hab
      rw [Prod.ext_iff]
      omega
    · intro b hb
      rw [Finset.mem_filter, mem_rangeProd] at hb
      obtain ⟨⟨hb1, hb2⟩, hm, hodd, ho⟩ := hb
      have hlo := hm.1.2.2.1
      refine ⟨(b.1, b.2 - 1), ?_, ?_⟩
      · rw [Finset.mem_filter, mem_rangeProd]
        have hc : ((b.1, b.2 - 1 + 1) : Pos) = b := by
          rw [Prod.ext_iff]
          exact ⟨rfl, by dsimp only; omega⟩
        refine ⟨⟨by dsimp only; omega, by dsimp only; omega⟩, ?_, ?_, ?_⟩
        · show MidP h w (b.1, b.2 - 1 + 1)
          rw [show ((b.1, b.2 - 1 + 1) : Pos) = (b.1, b.2) from by
            rw [Prod.ext_iff]; exact ⟨rfl, by dsimp only; omega⟩]
          exact hm
        · exact hodd
        · show (g b.1 (b.2 - 1 + 1)).wall = false
          rw [show b.2 - 1 + 1 = b.2 from by omega]
          exact ho
      · rw [Prod.ext_iff]
        exact ⟨rfl, by dsimp only; omega⟩
  have hd3 : Disjoint
      ((Finset.range h ×ˢ Finset.range w).filter
        (fun x : Pos => MidP h w x ∧ x.1 % 2 = 1 ∧ (g x.1 x.2).wall = false))
      ((Finset.range h ×ˢ Finset.range w).filter
        (fun x : Pos => MidP h w (x.1, x.2 + 1) ∧ x.1 % 2 = 1 ∧
          (g x.1 (x.2 + 1)).wall = false)) := by
    rw [Finset.disjoint_left]
    intro x hx hx2
    rw [Finset.mem_filter] at hx hx2
    have h1 := hx.2.1.2
    have h2 := hx2.2.1.2
    dsimp only at h2
    omega
  have hd2 : Disjoint
      ((Finset.range h ×ˢ Finset.range w).filter
        (fun x : Pos => x = (h - 2, w - 2) ∧
          (g (h - 2) (w - 2)).wall = false))
      (((Finset.range h ×ˢ Finset.range w).filter
          (fun x : Pos => MidP h w x ∧ x.1 % 2 = 1 ∧
            (g x.1 x.2).wall = false)) ∪
        ((Finset.range h ×ˢ Finset.range w).filter
          (fun x : Pos => MidP h w (x.1, x.2 + 1) ∧ x.1 % 2 = 1 ∧
            (g x.1 (x.2 + 1)).wall = false))) := by
    rw [Finset.disjoint_left]
    intro x hx hx2
    rw [Finset.mem_filter] at hx
    rw [Finset.mem_union, Finset.mem_filter, Finset.mem_filter] at hx2
    rcases hx2 with ⟨-, hm, -, -⟩ | ⟨-, hm, -, -⟩
    · have h1 := hm.2
      rw [hx.2.1] at h1
      dsimp only at h1
      omega
    · have h1 := hm.1.2.2.2
      rw [hx.2.1] at h1
      dsimp only at h1
      omega
  have hd1 : Disjoint
      ((Finset.range h ×ˢ Finset.range w).filter
        (fun x : Pos => x = (1, 0) ∧ (g 1 1).wall = false))
      (((Finset.range h ×ˢ Finset.range w).filter
          (fun x : Pos => x = (h - 2, w - 2) ∧
            (g (h - 2) (w - 2)).wall = false)) ∪
        (((Finset.range h ×ˢ Finset.range w).filter
            (fun x : Pos => MidP h w x ∧ x.1 % 2 = 1 ∧
              (g x.1 x.2).wall = false)) ∪
          ((Finset.range h ×ˢ Finset.range w).filter
            (fun x : Pos => MidP h w (x.1, x.2 + 1) ∧ x.1 % 2 = 1 ∧
              (g x.1 (x.2 + 1)).wall = false)))) := by
    rw [Finset.disjoint_left]
    intro x hx hx2
    rw [Finset.mem_filter] at hx
    rw [Finset.mem_union, Finset.mem_union, Finset.mem_filter,
      Finset.mem_filter, Finset.mem_filter] at hx2
    rcases hx2 with ⟨-, hq, -⟩ | ⟨-, hm, -, -⟩ | ⟨-, hm, -, -⟩
    · rw [hx.2.1] at hq
      rw [Prod.ext_iff] at hq
      dsimp only at hq
      omega
    · have h1 := hm.1.2.2.1
      rw [hx.2.1] at h1
      exact absurd h1 (by decide)
    · have h1 := hm.2
      rw [hx.2.1] at h1
      dsimp only at h1
      omega
  rw [filter_card_congr _ _ _ hA, Finset.filter_or, Finset.filter_or,
    Finset.filter_or, Finset.card_union_of_disjoint hd1,
    Finset.card_union_of_disjoint hd2, Finset.card_union_of_disjoint hd3,
    hQ1card, hQ2card, hQ4card]
  show _ = 2 * openHMidCount g h w + _ + _
  unfold openHMidCount
  omega

theorem adjV_card (g : Grid) (h w : Nat) (hh3 : 3 ≤ h) (hw3 : 3 ≤ w)
    (hho : h % 2 = 1) (hwo : w % 2 = 1)
    (hev : ∀ p : Pos, EvenP h w p → (g p.1 p.2).wall = true)
    (hbd : ∀ p : Pos, p.1 < h → p.2 < w → ¬ Interior h w p → p ≠ (1, 0) →
      p ≠ (h - 2, w - 1) → (g p.1 p.2).wall = true)
    (heO : (g 1 0).wall = false) (hgO : (g (h - 2) (w - 1)).wall = false)
    (hmids : ∀ p : Pos, MidP h w p → (g p.1 p.2).wall = false →
      (g (midEnds p).1.1 (midEnds p).1.2).wall = false ∧
      (g (midEnds p).2.1 (midEnds p).2.2).wall = false) :
    ((Finset.range h ×ˢ Finset.range w).filter
      (fun p : Pos => p.1 + 1 < h ∧ (g p.1 p.2).wall = false ∧
        (g (p.1 + 1) p.2).wall = false)).card =
    2 * openVMidCount g h w := by
  have hA : ∀ x : Pos, x ∈ Finset.range h ×ˢ Finset.range w →
      ((x.1 + 1 < h ∧ (g x.1 x.2).wall = false ∧
          (g (x.1 + 1) x.2).wall = false) ↔
        (MidP h w x ∧ x.1 % 2 = 0 ∧ (g x.1 x.2).wall = false) ∨
        (MidP h w (x.1 + 1, x.2) ∧ (x.1 + 1) % 2 = 0 ∧
          (g (x.1 + 1) x.2).wall = false)) := by
    intro x hx
    rw [mem_rangeProd] at hx
    constructor
    · rintro ⟨hb, ho1, ho2⟩
      by_cases hI : Interior h w x
      · rcases Nat.mod_two_eq_zero_or_one x.1 with e1 | e1 <;>
          rcases Nat.mod_two_eq_zero_or_one x.2 with e2 | e2
        · -- even/even interior: wall, contradiction
          exfalso
          have := hev x ⟨hI, e1, e2⟩
          rw [this] at ho1; exact absurd ho1 (by simp)
        · -- vertical mid at x
          exact Or.inl ⟨⟨hI, by omega⟩, e1, ho1⟩
        · -- horizontal mid: lower neighbour is even/even or border, wall
          exfalso
          by_cases hIr : Interior h w (x.1 + 1, x.2)
          · have := hev (x.1 + 1, x.2) ⟨hIr, by dsimp only; omega, e2⟩
            dsimp only at this
            rw [this] at ho2; exact absurd ho2 (by simp)
          · have := hbd (x.1 + 1, x.2) (by dsimp only; omega)
              (by dsimp only; omega) hIr
              (by intro hc; rw [Prod.ext_iff] at hc; dsimp only at hc
                  have := hI.1; have := hI.2.2.1; omega)
              (by intro hc; rw [Prod.ext_iff] at hc; dsimp only at hc
                  have := hI.2.2.2; omega)
            dsimp only at this
            rw [this] at ho2; exact absurd ho2 (by simp)
        · -- node at x: lower neighbour is a vertical mid or border wall
          by_cases hIr : Interior h w (x.1 + 1, x.2)
          · exact Or.inr ⟨⟨hIr, by dsimp only; omega⟩, by omega, ho2⟩
          · exfalso
            have := hbd (x.1 + 1, x.2) (by dsimp only; omega)
              (by dsimp only; omega) hIr
              (by intro hc; rw [Prod.ext_iff] at hc; dsimp only at hc
                  have := hI.2.2.1; omega)
              (by intro hc; rw [Prod.ext_iff] at hc; dsimp only at hc; omega)
            dsimp only at this
            rw [this] at ho2; exact absurd ho2 (by simp)
      · exfalso
        by_cases he : x = (1, 0)
        · rw [he] at ho2
          have h20 : ¬ Interior h w ((1, 0).1 + 1, (1, 0).2) := by
            intro hc
            exact absurd hc.2.2.1 (by decide)
          have := hbd ((1, 0).1 + 1, (1, 0).2) (by dsimp only; omega)
            (by dsimp only; omega) h20
            (by intro hc; rw [Prod.ext_iff] at hc; dsimp only at hc; omega)
            (by intro hc; rw [Prod.ext_iff] at hc; dsimp only at hc; omega)
          dsimp only at this
          rw [this] at ho2; exact absurd ho2 (by simp)
        · by_cases hgl : x = (h - 2, w - 1)
          · rw [hgl] at ho2
            have hng : ¬ Interior h w ((h - 2, w - 1).1 + 1, (h - 2, w - 1).2)
                := by
              intro hc
              have := hc.2.2.2
              dsimp only at this
              omega
            have := hbd ((h - 2, w - 1).1 + 1, (h - 2, w - 1).2)
              (by dsimp only; omega) (by dsimp only; omega) hng
              (by intro hc; rw [Prod.ext_iff] at hc; dsimp only at hc; omega)
              (by intro hc; rw [Prod.ext_iff] at hc; dsimp only at hc; omega)
            dsimp only at this
            rw [this] at ho2; exact absurd ho2 (by simp)
          · have := hbd x hx.1 hx.2 hI he hgl
            rw [this] at ho1; exact absurd ho1 (by simp)
    · rintro (⟨hm, heven, ho⟩ | ⟨hm, heven, ho⟩)
      · have hends := hmids x hm ho
        rw [midEnds, if_neg (by omega)] at hends
        dsimp only at hends
        exact ⟨by have := hm.1.2.1; omega, ho, hends.2⟩
      · have hends := hmids (x.1 + 1, x.2) hm ho
        rw [midEnds, if_neg (by dsimp only; omega)] at hends
        dsimp only at hends
        rw [Nat.add_sub_cancel] at hends
        refine ⟨?_, hends.1, ho⟩
        have := hm.1.2.1
        dsimp only at this
        omega
  have hQ4card : ((Finset.range h ×ˢ Finset.range w).filter
      (fun x : Pos => MidP h w (x.1 + 1, x.2) ∧ (x.1 + 1) % 2 = 0 ∧
        (g (x.1 + 1) x.2).wall = false)).card =
      ((Finset.range h ×ˢ Finset.range w).filter
      (fun p : Pos => MidP h w p ∧ p.1 % 2 = 0 ∧
        (g p.1 p.2).wall = false)).card := by
    apply Finset.card_bij (fun p _ => ((p.1 + 1, p.2) : Pos))
    · intro a ha
      rw [Finset.mem_filter] at ha ⊢
      rw [mem_rangeProd] at ha ⊢
      obtain ⟨⟨hb1, hb2⟩, hm, heven, ho⟩ := ha
      have hi := hm.1.2.1
      dsimp only at hi
      exact ⟨⟨by dsimp only; omega, by dsimp only; omega⟩, hm, heven, ho⟩
    · intro a ha b hb hab
      rw [Prod.ext_iff] at hab
      dsimp only at hab
      rw [Prod.ext_iff]
      omega
    · intro b hb
      rw [Finset.mem_filter, mem_rangeProd] at hb
      obtain ⟨⟨hb1, hb2⟩, hm, heven, ho⟩ := hb
      have hlo := hm.1.1
      refine ⟨(b.1 - 1, b.2), ?_, ?_⟩
      · rw [Finset.mem_filter, mem_rangeProd]
        refine ⟨⟨by dsimp only; omega, by dsimp only; omega⟩, ?_, ?_, ?_⟩
        · show MidP h w (b.1 - 1 + 1, b.2)
          rw [show ((b.1 - 1 + 1, b.2) : Pos) = (b.1, b.2) from by
            rw [Prod.ext_iff]; exact ⟨by dsimp only; omega, rfl⟩]
          exact hm
        · show (b.1 - 1 + 1) % 2 = 0
          rw [show b.1 - 1 + 1 = b.1 from by omega]
          exact heven
        · show (g (b.1 - 1 + 1) b.2).wall = false
          rw [show b.1 - 1 + 1 = b.1 from by omega]
          exact ho
      · rw [Prod.ext_iff]
        exact ⟨by dsimp only; omega, rfl⟩
  have hd : Disjoint
      ((Finset.range h ×ˢ Finset.range w).filter
        (fun x : Pos => MidP h w x ∧ x.1 % 2 = 0 ∧ (g x.1 x.2).wall = false))
      ((Finset.range h ×ˢ Finset.range w).filter
        (fun x : Pos => MidP h w (x.1 + 1, x.2) ∧ (x.1 + 1) % 2 = 0 ∧
          (g (x.1 + 1) x.2).wall = false)) := by
    rw [Finset.disjoint_left]
    intro x hx hx2
    rw [Finset.mem_filter] at hx hx2
    have h1 := hx.2.2.1
    have h2 := hx2.2.2.1
    omega
  rw [filter_card_congr _ _ _ hA, Finset.filter_or,
    Finset.card_union_of_disjoint hd, hQ4card]
  show _ = 2 * openVMidCount g h w
  unfold openVMidCount
  omega

/-- under the structural invariant (with every open passage joining two open
cells), the adjacencies are exactly two per open passage plus the entry and
goal attachments -/
theorem adjCount_struct (g : Grid) (h w : Nat) (hh3 : 3 ≤ h) (hw3 : 3 ≤ w)
    (hho : h % 2 = 1) (hwo : w % 2 = 1)
    (hev : ∀ p : Pos, EvenP h w p → (g p.1 p.2).wall = true)
    (hbd : ∀ p : Pos, p.1 < h → p.2 < w → ¬ Interior h w p → p ≠ (1, 0) →
      p ≠ (h - 2, w - 1) → (g p.1 p.2).wall = true)
    (heO : (g 1 0).wall = false) (hgO : (g (h - 2) (w - 1)).wall = false)
    (hmids : ∀ p : Pos, MidP h w p → (g p.1 p.2).wall = false →
      (g (midEnds p).1.1 (midEnds p).1.2).wall = false ∧
      (g (midEnds p).2.1 (midEnds p).2.2).wall = false) :
    adjCount g h w = 2 * openMidCount g h w +
      (if (g 1 1).wall = false then 1 else 0) +
      (if (g (h - 2) (w - 2)).wall = false then 1 else 0) := by
  rw [adjCount, adjH_card g h w hh3 hw3 hho hwo hev hbd heO hgO hmids,
    adjV_card g h w hh3 hw3 hho hwo hev hbd heO hgO hmids, openMid_split]
  omega

/-! ### the walk recursion contract -/

/-- the state on entry to a `walk(pos)` call: the structure holds, every
open passage has visited endpoints except possibly the pending `pos`, and
there is one more visited node than open passages minus the pending one -/
def PreWalk (g : Grid) (h w : Nat) (pos : Pos) : Prop :=
  CarveBase g h w ∧ MidsOKExc g h w pos ∧ NodeP h w pos ∧
  (g pos.1 pos.2).visited = false ∧
  openMidCount g h w = visitedCount g h w

/-- the state on return from a `walk(pos)` call, relative to the entry
grid `g` -/
def WalkPost (g g' : Grid) (h w : Nat) (pos : Pos) : Prop :=
  CarveBase g' h w ∧ MidsOK g' h w ∧
  openMidCount g' h w + 1 = visitedCount g' h w ∧
  (∀ i j, (g i j).visited = true → (g' i j).visited = true) ∧
  (∀ i j, (g i j).wall = false → (g' i j).wall = false) ∧
  (g' pos.1 pos.2).visited = true ∧
  (∀ q : Pos, (g q.1 q.2).visited = false → (g' q.1 q.2).visited = true →
    NbrsVisited g' h w q) ∧
  (∀ p : Pos, (g p.1 p.2).wall = true → (g' p.1 p.2).wall = false →
    ReachOpen g' h w pos p)

theorem visited_carveMark_true (g : Grid) (p : Pos) (i j : Nat)
    (hij : (g i j).visited = true) : (carveMark g p i j).visited = true := by
  unfold carveMark; split <;> simp [hij]

theorem visited_carveMark_self (g : Grid) (p : Pos) :
    (carveMark g p p.1 p.2).visited = true := by
  unfold carveMark; simp

theorem unvisNodeCount_congr (g g' : Grid) (h w : Nat)
    (heq : ∀ i j, (g' i j).visited = (g i j).visited) :
    unvisNodeCount g' h w = unvisNodeCount g h w := by
  apply filter_card_congr
  intro x _
  rw [heq]

theorem NbrsVisited_mono (g g' : Grid) (h w : Nat)
    (hmono : ∀ i j, (g i j).visited = true → (g' i j).visited = true)
    (q : Pos) (hq : NbrsVisited g h w q) : NbrsVisited g' h w q := by
  intro off hoff hok
  exact hmono _ _ (hq off hoff hok)

/-- the `current.wall = false; current.visited = true` head of `walk`
re-establishes the stable invariant -/
theorem walk_carve (g : Grid) (h w : Nat) (hh3 : 3 ≤ h) (hw3 : 3 ≤ w)
    (hho : h % 2 = 1) (hwo : w % 2 = 1) (pos : Pos)
    (hpre : PreWalk g h w pos) :
    CarveBase (carveMark g pos) h w ∧ MidsOK (carveMark g pos) h w ∧
    openMidCount (carveMark g pos) h w + 1 =
      visitedCount (carveMark g pos) h w ∧
    (carveMark g pos pos.1 pos.2).visited = true ∧
    unvisNodeCount g h w = unvisNodeCount (carveMark g pos) h w + 1 := by
  obtain ⟨hbase, hmoke, hnode, hunvis, hcnt⟩ := hpre
  have hposI := NodeP_interior h w hho hwo pos hnode
  have hI1 := hposI.1
  have hI2 := hposI.2.1
  have hI3 := hposI.2.2.1
  have hI4 := hposI.2.2.2
  refine ⟨?_, ?_, ?_, visited_carveMark_self g pos, ?_⟩
  · refine ⟨?_, ?_, ?_, ?_, ?_, ?_, ?_⟩
    · -- visNode
      intro p hp1 hp2 hv
      by_cases hps : p.1 = pos.1 ∧ p.2 = pos.2
      · have : p = pos := Prod.ext hps.1 hps.2
        rw [this]
        exact hnode
      · rw [carveMark_ne _ _ _ _ hps] at hv
        exact hbase.visNode p hp1 hp2 hv
    · -- visOpen
      intro p hv
      by_cases hps : p.1 = pos.1 ∧ p.2 = pos.2
      · rw [carveMark_apply, if_pos hps]
      · rw [carveMark_ne _ _ _ _ hps] at hv ⊢
        exact hbase.visOpen p hv
    · -- nodeWall
      intro p hp hv
      by_cases hps : p.1 = pos.1 ∧ p.2 = pos.2
      · rw [carveMark_apply, if_pos hps] at hv
        exact absurd hv (by simp)
      · rw [carveMark_ne _ _ _ _ hps] at hv ⊢
        exact hbase.nodeWall p hp hv
    · -- evenWall
      intro p hp
      have hps : ¬(p.1 = pos.1 ∧ p.2 = pos.2) := by
        intro hps
        have h1 := hp.2.1
        have h2 := hnode.1
        omega
      rw [carveMark_ne _ _ _ _ hps]
      exact hbase.evenWall p hp
    · -- borderWall
      intro p hp1 hp2 hpI hpe hpg
      have hps : ¬(p.1 = pos.1 ∧ p.2 = pos.2) := by
        intro hps
        exact hpI ⟨by omega, by omega, by omega, by omega⟩
      rw [carveMark_ne _ _ _ _ hps]
      exact hbase.borderWall p hp1 hp2 hpI hpe hpg
    · -- eOpen
      rw [show (carveMark g pos 1 0) = g 1 0 from carveMark_ne _ _ _ _ (by
        intro hps
        have := hnode.2.1
        omega)]
      exact hbase.eOpen
    · -- gOpen
      rw [show (carveMark g pos (h - 2) (w - 1)) = g (h - 2) (w - 1) from
        carveMark_ne _ _ _ _ (by
          intro hps
          have := hnode.2.1
          omega)]
      exact hbase.gOpen
  · -- MidsOK
    intro m hm ho
    have hms : ¬(m.1 = pos.1 ∧ m.2 = pos.2) := by
      intro hps
      have h1 := hm.2
      have h2 := hnode.1
      have h3 := hnode.2.1
      omega
    rw [carveMark_ne _ _ _ _ hms] at ho
    rcases hmoke m hm ho with ⟨h1, h2⟩ | ⟨h1, h2⟩ | ⟨h1, h2⟩
    · exact ⟨visited_carveMark_true _ _ _ _ h1,
        visited_carveMark_true _ _ _ _ h2⟩
    · constructor
      · rw [h1]
        exact visited_carveMark_self g pos
      · exact visited_carveMark_true _ _ _ _ h2
    · constructor
      · exact visited_carveMark_true _ _ _ _ h2
      · rw [h1]
        exact visited_carveMark_self g pos
  · -- counts
    have hoM : openMidCount (carveMark g pos) h w = openMidCount g h w := by
      rw [openMidCount_congr (setWall g pos false) (carveMark g pos) h w
        (fun i j => wall_carveMark_as_setWall g pos i j),
        openMidCount_setWall_false_nonmid g h w pos (by
          intro hmid
          have h1 := hmid.2
          have h2 := hnode.1
          have h3 := hnode.2.1
          omega)]
    have hvc : visitedCount (carveMark g pos) h w =
        visitedCount g h w + 1 := by
      rw [visitedCount_congr (setVisited g pos true) (carveMark g pos) h w
        (fun i j => visited_carveMark_as_setVisited g pos i j),
        visitedCount_setVisited_true g h w pos hnode.2.2.1 hnode.2.2.2
          hunvis]
    omega
  · exact unvisNodeCount_carve g h w pos hnode hunvis

/-- opening the in-between cell before recursing establishes the `walk`
entry contract at the two-away target -/
theorem walk_attempt (g : Grid) (h w : Nat) (hh3 : 3 ≤ h) (hw3 : 3 ≤ w)
    (hho : h % 2 = 1) (hwo : w % 2 = 1) (pos : Pos) (off : Int × Int)
    (hoff : off ∈ walkOffsets) (hok : TwoStepOK h w pos off)
    (hnode : NodeP h w pos)
    (hbase : CarveBase g h w) (hmok : MidsOK g h w)
    (hcnt : openMidCount g h w + 1 = visitedCount g h w)
    (hposv : (g pos.1 pos.2).visited = true)
    (htv : (g (twoTarget pos off).1 (twoTarget pos off).2).visited = false) :
    PreWalk (setWall g (twoMid pos off) false) h w (twoTarget pos off) := by
  obtain ⟨hTn, hMm, hME, hMne, hMnt, hTne, hAdj1, hAdj2⟩ :=
    walkStep_geometry h w hh3 hw3 hho hwo pos hnode off hoff hok
  have hMI := hMm.1
  have hI1 := hMI.1
  have hI2 := hMI.2.1
  have hI3 := hMI.2.2.1
  have hI4 := hMI.2.2.2
  have hmw : (g (twoMid pos off).1 (twoMid pos off).2).wall = true := by
    by_contra hmw
    rw [Bool.not_eq_true] at hmw
    have hends := hmok _ hMm hmw
    rcases hME with hE | hE <;> rw [hE] at hends
    · have h1 := hends.1
      dsimp only at h1
      rw [htv] at h1
      exact absurd h1 (by simp)
    · have h1 := hends.2
      dsimp only at h1
      rw [htv] at h1
      exact absurd h1 (by simp)
  refine ⟨⟨?_, ?_, ?_, ?_, ?_, ?_, ?_⟩, ?_, hTn, ?_, ?_⟩
  · -- visNode
    intro p hp1 hp2 hv
    rw [visited_setWall] at hv
    exact hbase.visNode p hp1 hp2 hv
  · -- visOpen
    intro p hv
    rw [visited_setWall] at hv
    by_cases hpm : p.1 = (twoMid pos off).1 ∧ p.2 = (twoMid pos off).2
    · rw [setWall_apply, if_pos hpm]
    · rw [setWall_ne _ _ _ _ _ hpm]
      exact hbase.visOpen p hv
  · -- nodeWall
    intro p hp hv
    have hpm : ¬(p.1 = (twoMid pos off).1 ∧ p.2 = (twoMid pos off).2) := by
      intro hc
      have := hMm.2
      have := hp.1
      have := hp.2.1
      omega
    rw [setWall_ne _ _ _ _ _ hpm]
    rw [visited_setWall] at hv
    exact hbase.nodeWall p hp hv
  · -- evenWall
    intro p hp
    have hpm : ¬(p.1 = (twoMid pos off).1 ∧ p.2 = (twoMid pos off).2) := by
      intro hc
      have := hMm.2
      have := hp.2.1
      have := hp.2.2
      omega
    rw [setWall_ne _ _ _ _ _ hpm]
    exact hbase.evenWall p hp
  · -- borderWall
    intro p hp1 hp2 hpI hpe hpg
    have hpm : ¬(p.1 = (twoMid pos off).1 ∧ p.2 = (twoMid pos off).2) := by
      intro hc
      exact hpI ⟨by omega, by omega, by omega, by omega⟩
    rw [setWall_ne _ _ _ _ _ hpm]
    exact hbase.borderWall p hp1 hp2 hpI hpe hpg
  · -- eOpen
    rw [show setWall g (twoMid pos off) false 1 0 = g 1 0 from
      setWall_ne _ _ _ _ _ (by intro hc; omega)]
    exact hbase.eOpen
  · -- gOpen
    rw [show setWall g (twoMid pos off) false (h - 2) (w - 1) =
        g (h - 2) (w - 1) from
      setWall_ne _ _ _ _ _ (by intro hc; omega)]
    exact hbase.gOpen
  · -- MidsOKExc at the target
    intro p hp ho
    by_cases hpm : p.1 = (twoMid pos off).1 ∧ p.2 = (twoMid pos off).2
    · have hpm' : p = twoMid pos off := Prod.ext hpm.1 hpm.2
      rw [hpm']
      rcases hME with hE | hE <;> rw [hE]
      · refine Or.inr (Or.inl ⟨rfl, ?_⟩)
        show (setWall g (twoMid pos off) false pos.1 pos.2).visited = true
        rw [visited_setWall]
        exact hposv
      · refine Or.inr (Or.inr ⟨rfl, ?_⟩)
        show (setWall g (twoMid pos off) false pos.1 pos.2).visited = true
        rw [visited_setWall]
        exact hposv
    · rw [setWall_ne _ _ _ _ _ hpm] at ho
      have hends := hmok p hp ho
      refine Or.inl ⟨?_, ?_⟩
      · rw [visited_setWall]; exact hends.1
      · rw [visited_setWall]; exact hends.2
  · -- target unvisited
    rw [visited_setWall]
    exact htv
  · -- count
    have hoM : openMidCount (setWall g (twoMid pos off) false) h w =
        openMidCount g h w + 1 :=
      openMidCount_setWall_false_mid g h w _ hMm (by omega) (by omega) hmw
    have hvc : visitedCount (setWall g (twoMid pos off) false) h w =
        visitedCount g h w :=
      visitedCount_congr g _ h w (fun i j => visited_setWall g _ false i j)
    omega

/-- the `for two_offset in get_two_offset_shuffle()` loop of `walk`
preserves the stable invariant, visits every accepted target, and keeps
every newly opened cell reachable from `pos` -/
theorem walkTry_spec (h w : Nat) (hh3 : 3 ≤ h) (hw3 : 3 ≤ w)
    (hho : h % 2 = 1) (hwo : w % 2 = 1) (fuel : Nat)
    (step : Grid → Pos → Grid)
    (hstep : ∀ g2 p2, PreWalk g2 h w p2 → unvisNodeCount g2 h w ≤ fuel →
      WalkPost g2 (step g2 p2) h w p2) :
    ∀ (l : List (Int × Int)), (∀ o ∈ l, o ∈ walkOffsets) →
    ∀ (g : Grid) (pos : Pos),
      CarveBase g h w → MidsOK g h w →
      openMidCount g h w + 1 = visitedCount g h w →
      (g pos.1 pos.2).visited = true → NodeP h w pos →
      unvisNodeCount g h w ≤ fuel →
      CarveBase (walkTry (h, w) step g pos l) h w ∧
      MidsOK (walkTry (h, w) step g pos l) h w ∧
      openMidCount (walkTry (h, w) step g pos l) h w + 1 =
        visitedCount (walkTry (h, w) step g pos l) h w ∧
      (∀ i j, (g i j).visited = true →
        ((walkTry (h, w) step g pos l) i j).visited = true) ∧
      (∀ i j, (g i j).wall = false →
        ((walkTry (h, w) step g pos l) i j).wall = false) ∧
      (∀ q : Pos, (g q.1 q.2).visited = false →
        ((walkTry (h, w) step g pos l) q.1 q.2).visited = true →
        NbrsVisited (walkTry (h, w) step g pos l) h w q) ∧
      (∀ p : Pos, (g p.1 p.2).wall = true →
        ((walkTry (h, w) step g pos l) p.1 p.2).wall = false →
        ReachOpen (walkTry (h, w) step g pos l) h w pos p) ∧
      (∀ off ∈ l, TwoStepOK h w pos off →
        ((walkTry (h, w) step g pos l) (twoTarget pos off).1
          (twoTarget pos off).2).visited = true) := by
  intro l
  induction l with
  | nil =>
    intro _ g pos hbase hmok hcnt hposv hnode hfuel
    simp only [walkTry]
    refine ⟨hbase, hmok, hcnt, fun i j hv => hv, fun i j ho => ho,
      ?_, ?_, ?_⟩
    · intro q h1 h2
      rw [h1] at h2
      exact absurd h2 (by simp)
    · intro p h1 h2
      rw [h1] at h2
      exact absurd h2 (by simp)
    · intro off hoff
      exact absurd hoff (by simp)
  | cons off rest ihl =>
    intro hlist g pos hbase hmok hcnt hposv hnode hfuel
    have hoff : off ∈ walkOffsets := hlist off (by simp)
    have hrest : ∀ o ∈ rest, o ∈ walkOffsets := by
      intro o ho
      exact hlist o (by simp [ho])
    simp only [walkTry]
    split
    · -- the bounds-and-unvisited check succeeded: recurse at the target
      rename_i hC
      have hok : TwoStepOK h w pos off :=
        ⟨hC.1, hC.2.1, hC.2.2.1, hC.2.2.2.1⟩
      have htv : (g (twoTarget pos off).1 (twoTarget pos off).2).visited =
          false := hC.2.2.2.2
      obtain ⟨hTn, hMm, hME, hMne, hMnt, hTne, hAdj1, hAdj2⟩ :=
        walkStep_geometry h w hh3 hw3 hho hwo pos hnode off hoff hok
      have hpre2 : PreWalk (setWall g (twoMid pos off) false) h w
          (twoTarget pos off) :=
        walk_attempt g h w hh3 hw3 hho hwo pos off hoff hok hnode hbase hmok
          hcnt hposv htv
      have hfuel2 : unvisNodeCount (setWall g (twoMid pos off) false) h w ≤
          fuel := by
        rw [unvisNodeCount_congr g (setWall g (twoMid pos off) false) h w
          (fun i j => visited_setWall g _ false i j)]
        exact hfuel
      obtain ⟨hbase2, hmok2, hcnt2, hvmono2, hwmono2, htvis2, hnew2,
        hreach2⟩ := hstep _ _ hpre2 hfuel2
      have hposv2 : (step (setWall g (twoMid pos off) false)
          (twoTarget pos off) pos.1 pos.2).visited = true := by
        apply hvmono2
        rw [visited_setWall]
        exact hposv
      have hfuel3 : unvisNodeCount (step (setWall g (twoMid pos off) false)
          (twoTarget pos off)) h w ≤ fuel :=
        le_trans (unvisNodeCount_le _ _ h w hvmono2) hfuel2
      obtain ⟨ih1, ih2, ih3, ih4, ih5, ih6, ih7, ih8⟩ :=
        ihl hrest (step (setWall g (twoMid pos off) false)
          (twoTarget pos off)) pos hbase2 hmok2 hcnt2 hposv2 hnode hfuel3
      have hmidopenR : ((walkTry (h, w) step
          (step (setWall g (twoMid pos off) false) (twoTarget pos off)) pos
          rest) (twoMid pos off).1 (twoMid pos off).2).wall = false := by
        apply ih5
        apply hwmono2
        exact wall_setWall_false_self g (twoMid pos off)
      have hposopenR : ((walkTry (h, w) step
          (step (setWall g (twoMid pos off) false) (twoTarget pos off)) pos
          rest) pos.1 pos.2).wall = false := by
        apply ih1.visOpen
        exact ih4 _ _ hposv2
      have htopenR : ((walkTry (h, w) step
          (step (setWall g (twoMid pos off) false) (twoTarget pos off)) pos
          rest) (twoTarget pos off).1 (twoTarget pos off).2).wall =
          false := by
        apply ih1.visOpen
        exact ih4 _ _ htvis2
      refine ⟨ih1, ih2, ih3, ?_, ?_, ?_, ?_, ?_⟩
      · intro i j hv
        apply ih4
        apply hvmono2
        rw [visited_setWall]
        exact hv
      · intro i j ho
        apply ih5
        apply hwmono2
        exact wall_setWall_false_keep g _ i j ho
      · intro q h1 h2
        by_cases hq2 : (step (setWall g (twoMid pos off) false)
            (twoTarget pos off) q.1 q.2).visited = true
        · have h1' : (setWall g (twoMid pos off) false q.1 q.2).visited =
              false := by
            rw [visited_setWall]
            exact h1
          exact NbrsVisited_mono _ _ h w ih4 q (hnew2 q h1' hq2)
        · rw [Bool.not_eq_true] at hq2
          exact ih6 q hq2 h2
      · intro p hpw hpo
        by_cases hp2 : (step (setWall g (twoMid pos off) false)
            (twoTarget pos off) p.1 p.2).wall = false
        · by_cases hpm : p.1 = (twoMid pos off).1 ∧ p.2 = (twoMid pos off).2
          · have hp' : p = twoMid pos off := Prod.ext hpm.1 hpm.2
            apply Relation.ReflTransGen.single
            refine ⟨⟨hnode.2.2.1, hnode.2.2.2, hposopenR⟩, ?_, ?_⟩
            · rw [hp']
              have hI2 := hMm.1.2.1
              have hI4 := hMm.1.2.2.2
              exact ⟨by omega, by omega, hmidopenR⟩
            · rw [hp']
              exact hAdj1
          · have hpw2 : (setWall g (twoMid pos off) false p.1 p.2).wall =
                true := by
              rw [setWall_ne _ _ _ _ _ hpm]
              exact hpw
            have hre := hreach2 p hpw2 hp2
            have hreR := ReachOpen_mono _ _ h w ih5 _ _ hre
            refine Relation.ReflTransGen.trans ?_ hreR
            have hI2 := hMm.1.2.1
            have hI4 := hMm.1.2.2.2
            have hTI := NodeP_interior h w hho hwo _ hTn
            refine Relation.ReflTransGen.trans
              (Relation.ReflTransGen.single
                ⟨⟨hnode.2.2.1, hnode.2.2.2, hposopenR⟩,
                 ⟨by omega, by omega, hmidopenR⟩, hAdj1⟩)
              (Relation.ReflTransGen.single
                ⟨⟨by omega, by omega, hmidopenR⟩,
                 ⟨hTn.2.2.1, hTn.2.2.2, htopenR⟩, hAdj2⟩)
        · rw [Bool.not_eq_false] at hp2
          exact ih7 p hp2 hpo
      · intro off' hoff' hok'
        rcases List.mem_cons.1 hoff' with rfl | hmem
        · exact ih4 _ _ htvis2
        · exact ih8 off' hmem hok'
    · -- the check failed: the grid is unchanged for this offset
      rename_i hnC
      obtain ⟨ih1, ih2, ih3, ih4, ih5, ih6, ih7, ih8⟩ :=
        ihl hrest g pos hbase hmok hcnt hposv hnode hfuel
      refine ⟨ih1, ih2, ih3, ih4, ih5, ih6, ih7, ?_⟩
      intro off' hoff' hok'
      rcases List.mem_cons.1 hoff' with rfl | hmem
      · apply ih4
        by_contra hv
        rw [Bool.not_eq_true] at hv
        exact hnC ⟨hok'.1, hok'.2.1, hok'.2.2.1, hok'.2.2.2, hv⟩
      · exact ih8 off' hmem hok'

/-- the recursive `walk` satisfies its entry/return contract for every
shuffle oracle that produces permutations of the offset array -/
theorem walkGo_spec (σ : Grid → Pos → List (Int × Int))
    (hσ : ShuffleOracleOK σ) (hσf : ShuffleOracleFull σ)
    (h w : Nat) (hh3 : 3 ≤ h) (hw3 : 3 ≤ w)
    (hho : h % 2 = 1) (hwo : w % 2 = 1) :
    ∀ (fuel : Nat) (g : Grid) (pos : Pos),
      PreWalk g h w pos → unvisNodeCount g h w ≤ fuel →
      WalkPost g (walkGo σ (h, w) fuel g pos) h w pos := by
  intro fuel
  induction fuel with
  | zero =>
    intro g pos hpre hfuel
    exfalso
    have hnode := hpre.2.2.1
    have hmem : pos ∈ (Finset.range h ×ˢ Finset.range w).filter
        (fun p => NodeP h w p ∧ (g p.1 p.2).visited = false) := by
      rw [Finset.mem_filter]
      exact ⟨(mem_rangeProd h w pos).2 ⟨hnode.2.2.1, hnode.2.2.2⟩, hnode,
        hpre.2.2.2.1⟩
    have : 0 < unvisNodeCount g h w := Finset.card_pos.2 ⟨pos, hmem⟩
    omega
  | succ n ih =>
    intro g pos hpre hfuel
    simp only [walkGo]
    obtain ⟨hbase1, hmok1, hcnt1, hvis1, hunv1⟩ :=
      walk_carve g h w hh3 hw3 hho hwo pos hpre
    have hnode := hpre.2.2.1
    have hfuel1 : unvisNodeCount (carveMark g pos) h w ≤ n := by omega
    obtain ⟨t1, t2, t3, t4, t5, t6, t7, t8⟩ :=
      walkTry_spec h w hh3 hw3 hho hwo n
        (fun g2 p2 => walkGo σ (h, w) n g2 p2)
        (fun g2 p2 hp hf => ih g2 p2 hp hf)
        (σ (carveMark g pos) pos) (hσ _ _) (carveMark g pos) pos hbase1
        hmok1 hcnt1 hvis1 hnode hfuel1
    refine ⟨t1, t2, t3, ?_, ?_, ?_, ?_, ?_⟩
    · intro i j hv
      exact t4 i j (visited_carveMark_true g pos i j hv)
    · intro i j ho
      exact t5 i j (wall_carveMark_keep g pos i j ho)
    · exact t4 _ _ hvis1
    · intro q h1 h2
      by_cases hqp : q.1 = pos.1 ∧ q.2 = pos.2
      · have hq' : q = pos := Prod.ext hqp.1 hqp.2
        subst hq'
        intro off hoffw hok
        exact t8 off (hσf _ _ off hoffw) hok
      · have h1' : (carveMark g pos q.1 q.2).visited = false := by
          rw [carveMark_ne _ _ _ _ hqp]
          exact h1
        exact t6 q h1' h2
    · intro p hpw hpo
      by_cases hpp : p.1 = pos.1 ∧ p.2 = pos.2
      · have hp' : p = pos := Prod.ext hpp.1 hpp.2
        rw [hp']
        exact Relation.ReflTransGen.refl
      · have hpw1 : (carveMark g pos p.1 p.2).wall = true := by
          rw [carveMark_ne _ _ _ _ hpp]
          exact hpw
        exact t7 p hpw1 hpo

/-- `gen_from_walk` produces a perfect maze: one fewer adjacency than open
cells, and every open cell reachable from the entrypoint -/
theorem walk_perfect (σ : Grid → Pos → List (Int × Int))
    (hσ : ShuffleOracleOK σ) (hσf : ShuffleOracleFull σ) (starter : Pos)
    (h w : Nat) (hh3 : 3 ≤ h) (hw3 : 3 ≤ w)
    (hho : h % 2 = 1) (hwo : w % 2 = 1) (hst : NodeP h w starter)
    (cells : Grid) (hcells : ∀ i j, cells i j = ⟨true, false⟩) :
    adjCount (gen_from_walk σ starter h w cells).cells h w + 1 =
      openCount (gen_from_walk σ starter h w cells).cells h w ∧
    ∀ p : Pos, OpenIn (gen_from_walk σ starter h w cells).cells h w p →
      ReachOpen (gen_from_walk σ starter h w cells).cells h w (1, 0) p := by
  set c1 := setWall cells (1, 0) false with hc1def
  set c2 := setWall c1 (h - 2, w - 1) false with hc2def
  set g3 := walkGo σ (h, w) (h * w) c2 starter with hg3def
  have hMc : (gen_from_walk σ starter h w cells).cells = clearVisited g3 :=
    rfl
  have hc2e : (c2 1 0).wall = false := by
    rw [hc2def, setWall_apply, if_neg (by intro hc; omega)]
    rw [hc1def, setWall_apply, if_pos (by exact ⟨rfl, rfl⟩)]
  have hc2g : (c2 (h - 2) (w - 1)).wall = false := by
    rw [hc2def, setWall_apply, if_pos (by exact ⟨rfl, rfl⟩)]
  have hc2other : ∀ i j, ¬(i = 1 ∧ j = 0) → ¬(i = h - 2 ∧ j = w - 1) →
      (c2 i j).wall = true := by
    intro i j h1 h2
    rw [hc2def, setWall_ne _ _ _ _ _ h2, hc1def, setWall_ne _ _ _ _ _ h1,
      hcells]
  have hc2v : ∀ i j, (c2 i j).visited = false := by
    intro i j
    rw [hc2def, visited_setWall, hc1def, visited_setWall, hcells]
  have hpre : PreWalk c2 h w starter := by
    refine ⟨⟨?_, ?_, ?_, ?_, ?_, hc2e, hc2g⟩, ?_, hst, hc2v _ _, ?_⟩
    · intro p _ _ hv
      rw [hc2v] at hv
      exact absurd hv (by simp)
    · intro p hv
      rw [hc2v] at hv
      exact absurd hv (by simp)
    · intro p hp _
      apply hc2other
      · intro hc
        have := hp.2.1
        omega
      · intro hc
        have := hp.2.1
        omega
    · intro p hp
      apply hc2other
      · intro hc
        have := hp.1.2.2.1
        omega
      · intro hc
        have := hp.1.2.2.2
        omega
    · intro p _ _ _ hpe hpg
      apply hc2other
      · intro hc
        exact hpe (Prod.ext hc.1 hc.2)
      · intro hc
        exact hpg (Prod.ext hc.1 hc.2)
    · intro m hm ho
      rw [hc2other m.1 m.2 (by
          intro hc
          have := hm.1.2.2.1
          omega)
        (by
          intro hc
          have := hm.1.2.2.2
          omega)] at ho
      exact absurd ho (by simp)
    · have hoM0 : openMidCount c2 h w = 0 := by
        rw [openMidCount, Finset.card_eq_zero, Finset.filter_eq_empty_iff]
        intro x _
        rintro ⟨hm, ho⟩
        rw [hc2other x.1 x.2 (by
            intro hc
            have := hm.1.2.2.1
            omega)
          (by
            intro hc
            have := hm.1.2.2.2
            omega)] at ho
        exact absurd ho (by simp)
      have hvc0 : visitedCount c2 h w = 0 := by
        rw [visitedCount, Finset.card_eq_zero, Finset.filter_eq_empty_iff]
        intro x _
        rw [hc2v]
        simp
      rw [hoM0, hvc0]
  have hfuel : unvisNodeCount c2 h w ≤ h * w := by
    have h1 : unvisNodeCount c2 h w ≤
        (Finset.range h ×ˢ Finset.range w).card := Finset.card_filter_le _ _
    rw [Finset.card_product, Finset.card_range, Finset.card_range] at h1
    exact h1
  obtain ⟨hbase, hmok, hcnt, hvmono, hwmono, hsvis, hnew, hreach⟩ :=
    walkGo_spec σ hσ hσf h w hh3 hw3 hho hwo (h * w) c2 starter hpre hfuel
  rw [← hg3def] at hcnt
  have hall : ∀ q : Pos, NodeP h w q → (g3 q.1 q.2).visited = true :=
    all_nodes_pred h w hh3 hw3 hho hwo
      (fun q => (g3 q.1 q.2).visited = true) starter hst hsvis
      (fun q hq hv off hoff hok => hnew q (hc2v q.1 q.2) hv off hoff hok)
  have hallopen : ∀ q : Pos, NodeP h w q → (g3 q.1 q.2).wall = false :=
    fun q hq => hbase.visOpen q (hall q hq)
  have hn11 : NodeP h w ((1, 1) : Pos) := ⟨by decide, by decide, by omega,
    by omega⟩
  have hnGN : NodeP h w ((h - 2, w - 2) : Pos) := by
    refine ⟨?_, ?_, ?_, ?_⟩ <;> dsimp only <;> omega
  have ind11 : (g3 1 1).wall = false := hallopen (1, 1) hn11
  have indGN : (g3 (h - 2) (w - 2)).wall = false := hallopen (h - 2, w - 2)
    hnGN
  have hONV : openNodeCount g3 h w = visitedCount g3 h w := by
    apply filter_card_congr
    intro x hx
    rw [mem_rangeProd] at hx
    constructor
    · rintro ⟨hn, -⟩
      exact hall x hn
    · intro hv
      exact ⟨hbase.visNode x hx.1 hx.2 hv, hbase.visOpen x hv⟩
  have hmids2 : ∀ p : Pos, MidP h w p → (g3 p.1 p.2).wall = false →
      (g3 (midEnds p).1.1 (midEnds p).1.2).wall = false ∧
      (g3 (midEnds p).2.1 (midEnds p).2.2).wall = false := by
    intro p hp ho
    have he := hmok p hp ho
    exact ⟨hbase.visOpen _ he.1, hbase.visOpen _ he.2⟩
  have hoc := openCount_struct g3 h w hh3 hw3 hho hwo hbase.evenWall
    hbase.borderWall hbase.eOpen hbase.gOpen
  have hac := adjCount_struct g3 h w hh3 hw3 hho hwo hbase.evenWall
    hbase.borderWall hbase.eOpen hbase.gOpen hmids2
  rw [if_pos ind11, if_pos indGN] at hac
  have hreachg3 : ∀ p : Pos, OpenIn g3 h w p →
      ReachOpen g3 h w (1, 0) p := by
    have hre_start : ReachOpen g3 h w (1, 0) starter := by
      have hstep1 : ReachOpen g3 h w (1, 0) (1, 1) :=
        Relation.ReflTransGen.single
          ⟨⟨by omega, by omega, hbase.eOpen⟩, ⟨by omega, by omega, ind11⟩,
            by decide⟩
      have hwall11 : (c2 1 1).wall = true := by
        apply hc2other <;> intro hc <;> omega
      have hstep2 := hreach (1, 1) hwall11 ind11
      exact Relation.ReflTransGen.trans hstep1
        (ReachOpen_symm g3 h w _ _ hstep2)
    intro p hop
    by_cases hpe : p.1 = 1 ∧ p.2 = 0
    · rw [show p = ((1, 0) : Pos) from Prod.ext hpe.1 hpe.2]
      exact Relation.ReflTransGen.refl
    · by_cases hpg : p.1 = h - 2 ∧ p.2 = w - 1
      · have hwGN : (c2 (h - 2) (w - 2)).wall = true := by
          apply hc2other <;> intro hc <;> omega
        have hreGN := hreach (h - 2, w - 2) hwGN indGN
        rw [show p = ((h - 2, w - 1) : Pos) from Prod.ext hpg.1 hpg.2]
        refine Relation.ReflTransGen.trans hre_start
          (Relation.ReflTransGen.trans hreGN
            (Relation.ReflTransGen.single
              ⟨⟨by omega, by omega, indGN⟩,
                ⟨by omega, by omega, hbase.gOpen⟩, ?_⟩))
        left
        exact ⟨rfl, Or.inl (by dsimp only; omega)⟩
      · have hwp : (c2 p.1 p.2).wall = true := hc2other p.1 p.2 hpe hpg
        exact Relation.ReflTransGen.trans hre_start
          (hreach p hwp hop.2.2)
  rw [hMc]
  constructor
  · rw [adjCount_congr g3 (clearVisited g3) h w
        (fun i j => wall_clearVisited g3 i j),
      openCount_congr g3 (clearVisited g3) h w
        (fun i j => wall_clearVisited g3 i j)]
    omega
  · intro p hop
    have hop3 : OpenIn g3 h w p := by
      refine ⟨hop.1, hop.2.1, ?_⟩
      have := hop.2.2
      rw [wall_clearVisited] at this
      exact this
    refine ReachOpen_mono g3 (clearVisited g3) h w ?_ _ _ (hreachg3 p hop3)
    intro i j ho
    rw [wall_clearVisited]
    exact ho

/-! ### helper facts for the Prim invariant -/

theorem mem_primOffsets_iff (o : Int × Int) :
    o ∈ primOffsets ↔ o ∈ walkOffsets := by
  constructor <;> intro ho <;> fin_cases ho <;> decide

/-- a two-step move can be undone by the opposite offset -/
theorem twoStep_reverse (h w : Nat) (hh3 : 3 ≤ h) (hw3 : 3 ≤ w)
    (hho : h % 2 = 1) (hwo : w % 2 = 1) (c : Pos) (hc : NodeP h w c)
    (off : Int × Int) (hoff : off ∈ walkOffsets) (hok : TwoStepOK h w c off) :
    ∃ off' ∈ walkOffsets, TwoStepOK h w (twoTarget c off) off' ∧
      twoTarget (twoTarget c off) off' = c := by
  obtain ⟨hc1, hc2, hc3, hc4⟩ := hc
  fin_cases hoff <;> obtain ⟨b1, b2, b3, b4⟩ := hok
  · refine ⟨(2, 0), by decide, ?_, ?_⟩
    · refine ⟨?_, ?_, ?_, ?_⟩ <;> simp only [twoTarget] <;> omega
    · refine Prod.ext ?_ ?_ <;> simp only [twoTarget] <;> omega
  · refine ⟨(-2, 0), by decide, ?_, ?_⟩
    · refine ⟨?_, ?_, ?_, ?_⟩ <;> simp only [twoTarget] <;> omega
    · refine Prod.ext ?_ ?_ <;> simp only [twoTarget] <;> omega
  · refine ⟨(0, 2), by decide, ?_, ?_⟩
    · refine ⟨?_, ?_, ?_, ?_⟩ <;> simp only [twoTarget] <;> omega
    · refine Prod.ext ?_ ?_ <;> simp only [twoTarget] <;> omega
  · refine ⟨(0, -2), by decide, ?_, ?_⟩
    · refine ⟨?_, ?_, ?_, ?_⟩ <;> simp only [twoTarget] <;> omega
    · refine Prod.ext ?_ ?_ <;> simp only [twoTarget] <;> omega

/-- the midpoint computed by the Prim connection step is the in-between
cell of the two-step move -/
theorem prim_mid_eq (h w : Nat) (c : Pos) (off : Int × Int)
    (hoff : off ∈ walkOffsets) (hok : TwoStepOK h w c off) :
    ((((twoTarget c off).1 + c.1) / 2, ((twoTarget c off).2 + c.2) / 2) :
      Pos) = twoMid c off := by
  fin_cases hoff <;> obtain ⟨b1, b2, b3, b4⟩ := hok <;>
    refine Prod.ext ?_ ?_ <;>
    simp only [twoTarget, twoMid] <;>
    first
    | (rw [show ((-2 : Int)) / 2 = -1 from by decide]; omega)
    | (rw [show ((2 : Int)) / 2 = 1 from by decide]; omega)
    | (rw [show ((0 : Int)) / 2 = 0 from by decide]; omega)

theorem tn_sub (h w : Nat) (g : Grid) (c : Pos) :
    ∀ (l : List (Int × Int)) (ns : List Pos) (x : Pos), x ∈ ns →
      x ∈ List.foldl (tnStep h w g c) ns l := by
  intro l
  induction l with
  | nil => intro ns x hx; exact hx
  | cons off rest ihl =>
    intro ns x hx
    apply ihl
    simp only [tnStep]
    split
    · exact List.mem_append.2 (Or.inl hx)
    · exact hx

/-- elements collected by the `two_neighbors` loop are open two-step
targets -/
theorem tn_elem (h w : Nat) (g : Grid) (c : Pos) :
    ∀ (l : List (Int × Int)) (ns : List Pos) (x : Pos),
      x ∈ List.foldl (tnStep h w g c) ns l →
      x ∈ ns ∨ ∃ off ∈ l, TwoStepOK h w c off ∧ x = twoTarget c off ∧
        (g x.1 x.2).wall = false := by
  intro l
  induction l with
  | nil => intro ns x hx; exact Or.inl hx
  | cons off rest ihl =>
    intro ns x hx
    rcases ihl _ x hx with hin | ⟨o, ho, hok, hxt, hopen⟩
    · simp only [tnStep] at hin
      split at hin
      · rename_i hcond
        rcases List.mem_append.1 hin with hns | hone
        · exact Or.inl hns
        · rcases List.mem_singleton.1 hone with rfl
          exact Or.inr ⟨off, by simp,
            ⟨hcond.1, hcond.2.1, hcond.2.2.1, hcond.2.2.2.1⟩, rfl,
            hcond.2.2.2.2⟩
      · exact Or.inl hin
    · exact Or.inr ⟨o, by simp [ho], hok, hxt, hopen⟩

/-- every open in-range two-step target is collected by the
`two_neighbors` loop -/
theorem tn_complete (h w : Nat) (g : Grid) (c : Pos) :
    ∀ (l : List (Int × Int)) (ns : List Pos) (off : Int × Int), off ∈ l →
      TwoStepOK h w c off →
      (g (twoTarget c off).1 (twoTarget c off).2).wall = false →
      twoTarget c off ∈ List.foldl (tnStep h w g c) ns l := by
  intro l
  induction l with
  | nil => intro ns off hoff; exact absurd hoff (by simp)
  | cons o rest ihl =>
    intro ns off hoff hok hopen
    rcases List.mem_cons.1 hoff with rfl | hmem
    · rw [List.foldl_cons]
      apply tn_sub
      simp only [tnStep]
      rw [if_pos ⟨hok.1, hok.2.1, hok.2.2.1, hok.2.2.2, hopen⟩]
      exact List.mem_append.2 (Or.inr (by simp [twoTarget]))
    · exact ihl _ off hmem hok hopen

theorem af_sub (h w : Nat) (g : Grid) (c : Pos) (l : List (Int × Int))
    (fs : List Pos) (x : Pos) (hx : x ∈ fs) :
    x ∈ List.foldl (afStep h w g c) fs l := by
  obtain ⟨t, ht⟩ := af_prefix h w g c l fs
  rw [ht]
  exact List.mem_append.2 (Or.inl hx)

/-- elements of the appended frontier list: either already present, or a
new wall two-step target -/
theorem af_elem (h w : Nat) (g : Grid) (c : Pos) :
    ∀ (l : List (Int × Int)) (fs : List Pos) (x : Pos),
      x ∈ List.foldl (afStep h w g c) fs l →
      x ∈ fs ∨ (x ∉ fs ∧ ∃ off ∈ l, TwoStepOK h w c off ∧
        x = twoTarget c off ∧ (g x.1 x.2).wall = true) := by
  intro l
  induction l with
  | nil => intro fs x hx; exact Or.inl hx
  | cons off rest ihl =>
    intro fs x hx
    rcases ihl _ x hx with hin | ⟨hnotin, o, ho, hok, hxt, hwall⟩
    · simp only [afStep] at hin
      split at hin
      · rename_i hcond
        rcases List.mem_append.1 hin with hfs | hone
        · exact Or.inl hfs
        · rcases List.mem_singleton.1 hone with rfl
          exact Or.inr ⟨hcond.2.2.2.2.2, off, by simp,
            ⟨hcond.1, hcond.2.1, hcond.2.2.1, hcond.2.2.2.1⟩, rfl,
            hcond.2.2.2.2.1⟩
      · exact Or.inl hin
    · refine Or.inr ⟨?_, o, by simp [ho], hok, hxt, hwall⟩
      intro hxfs
      apply hnotin
      simp only [afStep]
      split
      · exact List.mem_append.2 (Or.inl hxfs)
      · exact hxfs

/-- every in-range wall two-step target ends up in the appended frontier
list -/
theorem af_complete (h w : Nat) (g : Grid) (c : Pos) :
    ∀ (l : List (Int × Int)) (fs : List Pos) (off : Int × Int), off ∈ l →
      TwoStepOK h w c off →
      (g (twoTarget c off).1 (twoTarget c off).2).wall = true →
      twoTarget c off ∈ List.foldl (afStep h w g c) fs l := by
  intro l
  induction l with
  | nil => intro fs off hoff; exact absurd hoff (by simp)
  | cons o rest ihl =>
    intro fs off hoff hok hwall
    rcases List.mem_cons.1 hoff with rfl | hmem
    · by_cases hmemfs : twoTarget c off ∈ fs
      · exact af_sub h w g c _ _ _ hmemfs
      · rw [List.foldl_cons]
        apply af_sub
        simp only [afStep]
        rw [if_pos ⟨hok.1, hok.2.1, hok.2.2.1, hok.2.2.2, hwall, hmemfs⟩]
        exact List.mem_append.2 (Or.inr (by simp [twoTarget]))
    · exact ihl _ off hmem hok hwall

theorem af_nodup (h w : Nat) (g : Grid) (c : Pos) :
    ∀ (l : List (Int × Int)) (fs : List Pos), fs.Nodup →
      (List.foldl (afStep h w g c) fs l).Nodup := by
  intro l
  induction l with
  | nil => intro fs hfs; exact hfs
  | cons off rest ihl =>
    intro fs hfs
    apply ihl
    simp only [afStep]
    split
    · rename_i hcond
      rw [List.nodup_append]
      exact ⟨hfs, List.nodup_singleton _, by
        intro a ha hax
        rcases List.mem_singleton.1 hax with rfl
        exact hcond.2.2.2.2.2 ha⟩
    · exact hfs

theorem mem_eraseIdx_of_ne (l : List Pos) :
    ∀ (idx : Nat), idx < l.length → ∀ q ∈ l, q ≠ l.getD idx (0, 0) →
      q ∈ l.eraseIdx idx := by
  induction l with
  | nil => intro idx hidx; simp at hidx
  | cons a t ihl =>
    intro idx hidx q hq hne
    cases idx with
    | zero =>
      rcases List.mem_cons.1 hq with rfl | hmem
      · exact absurd rfl hne
      · exact hmem
    | succ n =>
      rcases List.mem_cons.1 hq with rfl | hmem
      · exact List.mem_cons_self _ _
      · exact List.mem_cons_of_mem a
          (ihl n (by simpa using hidx) q hmem hne)

theorem not_mem_eraseIdx_self (l : List Pos) :
    l.Nodup → ∀ (idx : Nat), idx < l.length →
      l.getD idx (0, 0) ∉ l.eraseIdx idx := by
  induction l with
  | nil => intro _ idx hidx; simp at hidx
  | cons a t ihl =>
    intro hnd idx hidx
    cases idx with
    | zero =>
      exact (List.nodup_cons.1 hnd).1
    | succ n =>
      intro hmem
      rcases List.mem_cons.1 hmem with heq | hmem2
      · have heq' : t.getD n (0, 0) = a := heq
        have hmem3 : t.getD n (0, 0) ∈ t :=
          getD_mem_of_lt t n (0, 0) (by simpa using hidx)
        rw [heq'] at hmem3
        exact (List.nodup_cons.1 hnd).1 hmem3
      · exact ihl (List.nodup_cons.1 hnd).2 n (by simpa using hidx) hmem2

/-- the Prim loop invariant: structural soundness of the partially carved
grid, one more open node than open passages, and a frontier list of
distinct wall nodes, each justified by an open two-away node, containing
every wall node with an open two-away node, with all open interior cells
reachable from the seed -/
structure PrimInv (g : Grid) (h w : Nat) (starter : Pos) (fs : List Pos) :
    Prop where
  evenWall : ∀ p : Pos, EvenP h w p → (g p.1 p.2).wall = true
  borderWall : ∀ p : Pos, p.1 < h → p.2 < w → ¬ Interior h w p →
    p ≠ (1, 0) → p ≠ (h - 2, w - 1) → (g p.1 p.2).wall = true
  eOpen : (g 1 0).wall = false
  gOpen : (g (h - 2) (w - 1)).wall = false
  midsOpen : ∀ p : Pos, MidP h w p → (g p.1 p.2).wall = false →
    (g (midEnds p).1.1 (midEnds p).1.2).wall = false ∧
    (g (midEnds p).2.1 (midEnds p).2.2).wall = false
  starterOpen : (g starter.1 starter.2).wall = false
  counts : openMidCount g h w + 1 = openNodeCount g h w
  nodup : fs.Nodup
  fsWallNode : ∀ p ∈ fs, NodeP h w p ∧ (g p.1 p.2).wall = true
  fsJust : ∀ p ∈ fs, ∃ off ∈ walkOffsets, TwoStepOK h w p off ∧
    (g (twoTarget p off).1 (twoTarget p off).2).wall = false
  complete : ∀ q : Pos, NodeP h w q → (g q.1 q.2).wall = true →
    (∃ off ∈ walkOffsets, TwoStepOK h w q off ∧
      (g (twoTarget q off).1 (twoTarget q off).2).wall = false) → q ∈ fs
  conn : ∀ p : Pos, Interior h w p → (g p.1 p.2).wall = false →
    ReachOpen g h w starter p

/-- one iteration of the Prim loop preserves the invariant -/
theorem primIter_inv (pickN : Grid → List Pos → Nat) (h w : Nat)
    (hh3 : 3 ≤ h) (hw3 : 3 ≤ w) (hho : h % 2 = 1) (hwo : w % 2 = 1)
    (starter : Pos) (g : Grid) (fs : List Pos)
    (hne : ¬ fs.length = 0) (hinv : PrimInv g h w starter fs)
    (idx : Nat) (hidxlt : idx < fs.length)
    (current : Pos) (hcur : current = fs.getD idx (0, 0))
    (g1 : Grid) (hg1 : g1 = setWall g current false)
    (tns : List Pos) (htns : tns = primTwoNeighbors h w g1 current)
    (g2 : Grid) (hg2 : g2 = primConnect pickN g1 current tns)
    (fs2 : List Pos) (hfs2 : fs2 = appendFrontiers h w g2 fs current) :
    PrimInv g2 h w starter (fs2.eraseIdx idx) ∧
    (∀ i j, (g i j).wall = false → (g2 i j).wall = false) := by
  have hcurfs : current ∈ fs := hcur ▸ getD_mem_of_lt _ _ _ hidxlt
  obtain ⟨hcn, hcw⟩ := hinv.fsWallNode current hcurfs
  have hcI : Interior h w current := NodeP_interior h w hho hwo current hcn
  have hcI1 := hcI.1
  have hcI2 := hcI.2.1
  have hcI3 := hcI.2.2.1
  have hcI4 := hcI.2.2.2
  obtain ⟨joff, hjoff, hjok, hjopen⟩ := hinv.fsJust current hcurfs
  have hjopen1 : (g1 (twoTarget current joff).1
      (twoTarget current joff).2).wall = false := by
    rw [hg1]
    exact wall_setWall_false_keep _ _ _ _ hjopen
  have hjmem : twoTarget current joff ∈ tns := by
    rw [htns]
    show twoTarget current joff ∈ List.foldl (tnStep h w g1 current) []
      primOffsets
    exact tn_complete h w g1 current primOffsets [] joff
      ((mem_primOffsets_iff joff).2 hjoff) hjok hjopen1
  cases htns_shape : tns with
  | nil =>
    rw [htns_shape] at hjmem
    exact absurd hjmem (List.not_mem_nil _)
  | cons tn0 tnrest =>
    have hg2' : g2 = setWall g1
        ((((tn0 :: tnrest).getD
            (pickN g1 (tn0 :: tnrest) % (tn0 :: tnrest).length) (0, 0)).1 +
          current.1) / 2,
         (((tn0 :: tnrest).getD
            (pickN g1 (tn0 :: tnrest) % (tn0 :: tnrest).length) (0, 0)).2 +
          current.2) / 2) false := by
      rw [hg2, htns_shape]
      rfl
    have htnmem : (tn0 :: tnrest).getD
        (pickN g1 (tn0 :: tnrest) % (tn0 :: tnrest).length) (0, 0) ∈ tns := by
      rw [htns_shape]
      exact getD_mem_of_lt _ _ _ (Nat.mod_lt _ (by simp))
    have htn_elem := tn_elem h w g1 current primOffsets []
      ((tn0 :: tnrest).getD
        (pickN g1 (tn0 :: tnrest) % (tn0 :: tnrest).length) (0, 0))
      (by rw [htns] at htnmem; exact htnmem)
    rcases htn_elem with habs | ⟨off, hoffP, hok, htnt, htnopen1⟩
    · exact absurd habs (List.not_mem_nil _)
    have hoff : off ∈ walkOffsets := (mem_primOffsets_iff off).1 hoffP
    obtain ⟨hTn, hMm, hME, hMne, hMnt, hTne, hAdj1, hAdj2⟩ :=
      walkStep_geometry h w hh3 hw3 hho hwo current hcn off hoff hok
    have hg2m : g2 = setWall g1 (twoMid current off) false := by
      rw [hg2', htnt]
      rw [prim_mid_eq h w current off hoff hok]
    clear hg2'
    have hTI : Interior h w (twoTarget current off) :=
      NodeP_interior h w hho hwo _ hTn
    have hTI1 := hTI.1
    have hTI2 := hTI.2.1
    have hTI3 := hTI.2.2.1
    have hTI4 := hTI.2.2.2
    have hMI := hMm.1
    have htnopen0 : (g (twoTarget current off).1
        (twoTarget current off).2).wall = false := by
      rw [htnt] at htnopen1
      rw [hg1] at htnopen1
      rwa [setWall_ne _ _ _ _ _ (prodNe_of_ne hTne)] at htnopen1
    have hmw0 : (g (twoMid current off).1 (twoMid current off).2).wall =
        true := by
      by_contra hmw
      rw [Bool.not_eq_true] at hmw
      have hends := hinv.midsOpen _ hMm hmw
      rcases hME with hE | hE <;> rw [hE] at hends
      · have h1 := hends.2
        dsimp only at h1
        rw [hcw] at h1
        exact absurd h1 (by simp)
      · have h1 := hends.1
        dsimp only at h1
        rw [hcw] at h1
        exact absurd h1 (by simp)
    have hmnec : ¬((twoMid current off).1 = current.1 ∧
        (twoMid current off).2 = current.2) := by
      intro hc
      have := hMm.2
      have := hcn.1
      have := hcn.2.1
      omega
    have hmw1 : (g1 (twoMid current off).1 (twoMid current off).2).wall =
        true := by
      rw [hg1, setWall_ne _ _ _ _ _ hmnec]
      exact hmw0
    have hcopen2 : (g2 current.1 current.2).wall = false := by
      rw [hg2m, setWall_ne _ _ _ _ _ (by
        intro hc
        exact hmnec ⟨hc.1.symm, hc.2.symm⟩), hg1]
      exact wall_setWall_false_self g current
    have hmopen2 : (g2 (twoMid current off).1 (twoMid current off).2).wall =
        false := by
      rw [hg2m]
      exact wall_setWall_false_self g1 (twoMid current off)
    have htopen2 : (g2 (twoTarget current off).1
        (twoTarget current off).2).wall = false := by
      rw [hg2m]
      apply wall_setWall_false_keep
      rw [htnt] at htnopen1
      exact htnopen1
    have hkeep : ∀ i j, (g i j).wall = false → (g2 i j).wall = false := by
      intro i j ho
      rw [hg2m, hg1]
      exact wall_setWall_false_keep _ _ _ _
        (wall_setWall_false_keep _ _ _ _ ho)
    have himp : ∀ i j, (g2 i j).wall = true → (g i j).wall = true := by
      intro i j hwall
      rw [hg2m] at hwall
      have h1 := wall_setWall_false_imp _ _ _ _ hwall
      rw [hg1] at h1
      exact wall_setWall_false_imp _ _ _ _ h1
    have hunch : ∀ i j, ¬(i = current.1 ∧ j = current.2) →
        ¬(i = (twoMid current off).1 ∧ j = (twoMid current off).2) →
        g2 i j = g i j := by
      intro i j h1 h2
      rw [hg2m, setWall_ne _ _ _ _ _ h2, hg1, setWall_ne _ _ _ _ _ h1]
    obtain ⟨newtail, hnt⟩ := af_prefix h w g2 current primOffsets fs
    have hfs2nt : fs2 = fs ++ newtail := by
      rw [hfs2]
      exact hnt
    have hfs2nodup : fs2.Nodup := by
      rw [hfs2]
      exact af_nodup h w g2 current primOffsets fs hinv.nodup
    have hdisj : fs.Disjoint newtail := by
      have := hfs2nt ▸ hfs2nodup
      exact (List.nodup_append.1 this).2.2
    have hfs3 : fs2.eraseIdx idx = fs.eraseIdx idx ++ newtail := by
      rw [hfs2nt, List.eraseIdx_append_of_lt_length hidxlt]
    have hnewprops : ∀ p ∈ newtail, NodeP h w p ∧
        (g2 p.1 p.2).wall = true ∧ ∃ o ∈ walkOffsets,
          TwoStepOK h w current o ∧ p = twoTarget current o := by
      intro p hp
      have hpfs2 : p ∈ fs2 := by
        rw [hfs2nt]
        exact List.mem_append.2 (Or.inr hp)
      have hpnotfs : p ∉ fs := fun hc => hdisj hc hp
      have := af_elem h w g2 current primOffsets fs p (by
        rw [hfs2] at hpfs2
        exact hpfs2)
      rcases this with hin | ⟨-, o, hoP, hokP, hpt, hwallP⟩
      · exact absurd hin hpnotfs
      · have hoW : o ∈ walkOffsets := (mem_primOffsets_iff o).1 hoP
        obtain ⟨hTn', -, -, -, -, -, -, -⟩ :=
          walkStep_geometry h w hh3 hw3 hho hwo current hcn o hoW hokP
        rw [hpt]
        exact ⟨hTn', hpt ▸ hwallP, o, hoW, hokP, rfl⟩
    have hfs3mem : ∀ p ∈ fs2.eraseIdx idx,
        (p ∈ fs.eraseIdx idx ∧ p ∈ fs ∧ p ≠ current) ∨ p ∈ newtail := by
      intro p hp
      rw [hfs3] at hp
      rcases List.mem_append.1 hp with hl | hr
      · refine Or.inl ⟨hl, List.eraseIdx_subset _ _ hl, ?_⟩
        intro hpc
        rw [hpc, hcur] at hl
        exact not_mem_eraseIdx_self fs hinv.nodup idx hidxlt hl
      · exact Or.inr hr
    refine ⟨⟨?_, ?_, ?_, ?_, ?_, ?_, ?_, ?_, ?_, ?_, ?_, ?_⟩, hkeep⟩
    · -- evenWall
      intro p hp
      rw [hunch p.1 p.2 (by
          intro hc
          have := hp.2.1
          have := hcn.1
          omega)
        (by
          intro hc
          have := hp.2.1
          have := hp.2.2
          have := hMm.2
          omega)]
      exact hinv.evenWall p hp
    · -- borderWall
      intro p hp1 hp2 hpI hpe hpg
      rw [hunch p.1 p.2 (by
          intro hc
          exact hpI ⟨by omega, by omega, by omega, by omega⟩)
        (by
          intro hc
          have := hMI.1
          have := hMI.2.1
          have := hMI.2.2.1
          have := hMI.2.2.2
          exact hpI ⟨by omega, by omega, by omega, by omega⟩)]
      exact hinv.borderWall p hp1 hp2 hpI hpe hpg
    · -- eOpen
      rw [hunch 1 0 (by
          intro hc
          have := hcn.2.1
          omega)
        (by
          intro hc
          have := hMI.2.2.1
          omega)]
      exact hinv.eOpen
    · -- gOpen
      rw [hunch (h - 2) (w - 1) (by
          intro hc
          have := hcn.2.1
          omega)
        (by
          intro hc
          have := hMI.2.2.2
          omega)]
      exact hinv.gOpen
    · -- midsOpen
      intro p hp ho
      by_cases hpm : p.1 = (twoMid current off).1 ∧
          p.2 = (twoMid current off).2
      · have hp' : p = twoMid current off := Prod.ext hpm.1 hpm.2
        rw [hp']
        rcases hME with hE | hE <;> rw [hE]
        · exact ⟨htopen2, hcopen2⟩
        · exact ⟨hcopen2, htopen2⟩
      · have hpc : ¬(p.1 = current.1 ∧ p.2 = current.2) := by
          intro hc
          have := hp.2
          have := hcn.1
          have := hcn.2.1
          omega
        rw [hunch p.1 p.2 hpc hpm] at ho
        have hends := hinv.midsOpen p hp ho
        exact ⟨hkeep _ _ hends.1, hkeep _ _ hends.2⟩
    · -- starterOpen
      exact hkeep _ _ hinv.starterOpen
    · -- counts
      have h1 : openNodeCount g1 h w = openNodeCount g h w + 1 := by
        rw [hg1]
        exact openNodeCount_setWall_false_node g h w current hcn
          hcn.2.2.1 hcn.2.2.2 hcw
      have h2 : openMidCount g1 h w = openMidCount g h w := by
        rw [hg1]
        exact openMidCount_setWall_false_nonmid g h w current (by
          intro hmid
          have := hmid.2
          have := hcn.1
          have := hcn.2.1
          omega)
      have h3 : openMidCount g2 h w = openMidCount g1 h w + 1 := by
        rw [hg2m]
        exact openMidCount_setWall_false_mid g1 h w _ hMm (by
            have := hMI.2.1
            omega)
          (by
            have := hMI.2.2.2
            omega) hmw1
      have h4 : openNodeCount g2 h w = openNodeCount g1 h w := by
        rw [hg2m]
        exact openNodeCount_setWall_false_nonnode g1 h w _ (by
          intro hnd
          have := hnd.1
          have := hnd.2.1
          have := hMm.2
          omega)
      have h5 := hinv.counts
      omega
    · -- nodup
      exact hfs2nodup.sublist (List.eraseIdx_sublist fs2 idx)
    · -- fsWallNode
      intro p hp
      rcases hfs3mem p hp with ⟨-, hpfs, hpne⟩ | hpnew
      · obtain ⟨hn, hw'⟩ := hinv.fsWallNode p hpfs
        refine ⟨hn, ?_⟩
        rw [hunch p.1 p.2 (prodNe_of_ne hpne) (by
          intro hc
          have := hMm.2
          have := hn.1
          have := hn.2.1
          omega)]
        exact hw'
      · obtain ⟨hn, hw', -⟩ := hnewprops p hpnew
        exact ⟨hn, hw'⟩
    · -- fsJust
      intro p hp
      rcases hfs3mem p hp with ⟨-, hpfs, -⟩ | hpnew
      · obtain ⟨o, hoW, hokP, hopenP⟩ := hinv.fsJust p hpfs
        exact ⟨o, hoW, hokP, hkeep _ _ hopenP⟩
      · obtain ⟨hn, -, o, hoW, hokP, hpt⟩ := hnewprops p hpnew
        obtain ⟨o', hoW', hok', heq'⟩ :=
          twoStep_reverse h w hh3 hw3 hho hwo current hcn o hoW hokP
        rw [← hpt] at hok' heq'
        refine ⟨o', hoW', hok', ?_⟩
        rw [heq']
        exact hcopen2
    · -- complete
      intro q hqn hqw ⟨o, hoW, hokQ, hopenQ⟩
      have hqnec : q ≠ current := by
        intro hc
        rw [hc, hcopen2] at hqw
        exact absurd hqw (by simp)
      have hqw0 : (g q.1 q.2).wall = true := himp _ _ hqw
      obtain ⟨hRn, -, -, -, -, hRne, -, -⟩ :=
        walkStep_geometry h w hh3 hw3 hho hwo q hqn o hoW hokQ
      by_cases hro : (g (twoTarget q o).1 (twoTarget q o).2).wall = false
      · have hqfs := hinv.complete q hqn hqw0 ⟨o, hoW, hokQ, hro⟩
        rw [hfs3]
        refine List.mem_append.2 (Or.inl ?_)
        exact mem_eraseIdx_of_ne fs idx hidxlt q hqfs (hcur ▸ hqnec)
      · rw [Bool.not_eq_false] at hro
        have hrc : (twoTarget q o).1 = current.1 ∧
            (twoTarget q o).2 = current.2 := by
          by_contra hrc
          by_cases hrm : (twoTarget q o).1 = (twoMid current off).1 ∧
              (twoTarget q o).2 = (twoMid current off).2
          · have := hRn.1
            have := hRn.2.1
            have := hMm.2
            omega
          · by_cases hrcur : (twoTarget q o).1 = current.1 ∧
                (twoTarget q o).2 = current.2
            · exact hrc hrcur
            · rw [hunch _ _ hrcur hrm] at hopenQ
              rw [hopenQ] at hro
              exact absurd hro (by simp)
        have hreq : twoTarget q o = current := Prod.ext hrc.1 hrc.2
        obtain ⟨o', hoW', hok', heq'⟩ :=
          twoStep_reverse h w hh3 hw3 hho hwo q hqn o hoW hokQ
        rw [hreq] at hok' heq'
        have hqfs2 : q ∈ fs2 := by
          rw [hfs2]
          have := af_complete h w g2 current primOffsets fs o'
            ((mem_primOffsets_iff o').2 hoW') hok' (by
              rw [heq']
              exact hqw)
          rw [heq'] at this
          exact this
        rw [hfs2nt] at hqfs2
        rw [hfs3]
        rcases List.mem_append.1 hqfs2 with hl | hr
        · exact List.mem_append.2 (Or.inl
            (mem_eraseIdx_of_ne fs idx hidxlt q hl (hcur ▸ hqnec)))
        · exact List.mem_append.2 (Or.inr hr)
    · -- conn
      intro p hpI ho
      have hreach_tn : ReachOpen g2 h w starter (twoTarget current off) :=
        ReachOpen_mono g g2 h w hkeep _ _ (hinv.conn _ hTI htnopen0)
      have hstep_tn_mid : ReachOpen g2 h w (twoTarget current off)
          (twoMid current off) :=
        Relation.ReflTransGen.single
          ⟨⟨by omega, by omega, htopen2⟩,
           ⟨by
              have := hMI.2.1
              omega, by
              have := hMI.2.2.2
              omega, hmopen2⟩,
           AdjacentP_symm _ _ hAdj2⟩
      have hstep_mid_cur : ReachOpen g2 h w (twoMid current off) current :=
        Relation.ReflTransGen.single
          ⟨⟨by
              have := hMI.2.1
              omega, by
              have := hMI.2.2.2
              omega, hmopen2⟩,
           ⟨hcn.2.2.1, hcn.2.2.2, hcopen2⟩,
           AdjacentP_symm _ _ hAdj1⟩
      by_cases hpc : p.1 = current.1 ∧ p.2 = current.2
      · rw [Prod.ext hpc.1 hpc.2]
        exact Relation.ReflTransGen.trans hreach_tn
          (Relation.ReflTransGen.trans hstep_tn_mid hstep_mid_cur)
      · by_cases hpm : p.1 = (twoMid current off).1 ∧
            p.2 = (twoMid current off).2
        · rw [Prod.ext hpm.1 hpm.2]
          exact Relation.ReflTransGen.trans hreach_tn hstep_tn_mid
        · rw [hunch p.1 p.2 hpc hpm] at ho
          exact ReachOpen_mono g g2 h w hkeep _ _ (hinv.conn p hpI ho)

/-- the whole Prim loop preserves the invariant (at any fuel) -/
theorem primLoop_inv (pickF pickN : Grid → List Pos → Nat) (h w : Nat)
    (hh3 : 3 ≤ h) (hw3 : 3 ≤ w) (hho : h % 2 = 1) (hwo : w % 2 = 1)
    (starter : Pos) :
    ∀ (fuel : Nat) (g : Grid) (fs : List Pos), PrimInv g h w starter fs →
      PrimInv (primLoop pickF pickN h w fuel g fs).1 h w starter
        (primLoop pickF pickN h w fuel g fs).2 ∧
      (∀ i j, (g i j).wall = false →
        ((primLoop pickF pickN h w fuel g fs).1 i j).wall = false) := by
  intro fuel
  induction fuel with
  | zero => intro g fs hinv; exact ⟨hinv, fun i j ho => ho⟩
  | succ f ih =>
    intro g fs hinv
    simp only [primLoop]
    split
    · exact ⟨hinv, fun i j ho => ho⟩
    · rename_i hne
      obtain ⟨hinv2, hkeep⟩ := primIter_inv pickN h w hh3 hw3 hho hwo
        starter g fs hne hinv (pickF g fs % fs.length)
        (Nat.mod_lt _ (by omega)) _ rfl _ rfl _ rfl _ rfl _ rfl
      obtain ⟨hfinal, hmono⟩ := ih _ _ hinv2
      exact ⟨hfinal, fun i j ho => hmono i j (hkeep i j ho)⟩

/-- `gen_from_prim` produces a perfect maze -/
theorem prim_perfect (pickF pickN : Grid → List Pos → Nat) (starter : Pos)
    (h w : Nat) (hh3 : 3 ≤ h) (hw3 : 3 ≤ w)
    (hho : h % 2 = 1) (hwo : w % 2 = 1) (hst : NodeP h w starter)
    (cells : Grid) (hcells : ∀ i j, cells i j = ⟨true, false⟩) :
    adjCount (gen_from_prim pickF pickN starter h w cells).cells h w + 1 =
      openCount (gen_from_prim pickF pickN starter h w cells).cells h w ∧
    ∀ p : Pos, OpenIn (gen_from_prim pickF pickN starter h w cells).cells
        h w p →
      ReachOpen (gen_from_prim pickF pickN starter h w cells).cells h w
        (1, 0) p := by
  have hstI : Interior h w starter := NodeP_interior h w hho hwo starter hst
  have hsI1 := hstI.1
  have hsI2 := hstI.2.1
  have hsI3 := hstI.2.2.1
  have hsI4 := hstI.2.2.2
  set c1 := setWall cells (1, 0) false with hc1def
  set c2 := setWall c1 (h - 2, w - 1) false with hc2def
  set c3 := setWall c2 starter false with hc3def
  set fs0 := appendFrontiers h w c3 [] starter with hfs0def
  have hMc : (gen_from_prim pickF pickN starter h w cells).cells =
      (primLoop pickF pickN h w (2 * (h * w) + 5) c3 fs0).1 := rfl
  have hc3other : ∀ i j, ¬(i = 1 ∧ j = 0) → ¬(i = h - 2 ∧ j = w - 1) →
      ¬(i = starter.1 ∧ j = starter.2) → (c3 i j).wall = true := by
    intro i j h1 h2 h3
    rw [hc3def, setWall_ne _ _ _ _ _ h3, hc2def, setWall_ne _ _ _ _ _ h2,
      hc1def, setWall_ne _ _ _ _ _ h1, hcells]
  have hc3e : (c3 1 0).wall = false := by
    rw [hc3def, setWall_ne _ _ _ _ _ (by
        intro hc
        have := hst.2.1
        omega),
      hc2def, setWall_ne _ _ _ _ _ (by intro hc; omega),
      hc1def]
    exact wall_setWall_false_self cells (1, 0)
  have hc3g : (c3 (h - 2) (w - 1)).wall = false := by
    rw [hc3def, setWall_ne _ _ _ _ _ (by
        intro hc
        have := hst.2.1
        omega),
      hc2def]
    exact wall_setWall_false_self c1 (h - 2, w - 1)
  have hc3s : (c3 starter.1 starter.2).wall = false := by
    rw [hc3def]
    exact wall_setWall_false_self c2 starter
  have hinv0 : PrimInv c3 h w starter fs0 := by
    refine ⟨?_, ?_, hc3e, hc3g, ?_, hc3s, ?_, ?_, ?_, ?_, ?_, ?_⟩
    · intro p hp
      apply hc3other
      · intro hc
        have := hp.1.2.2.1
        omega
      · intro hc
        have := hp.1.2.2.2
        omega
      · intro hc
        have := hp.2.1
        have := hst.1
        omega
    · intro p hp1 hp2 hpI hpe hpg
      apply hc3other
      · intro hc
        exact hpe (Prod.ext hc.1 hc.2)
      · intro hc
        exact hpg (Prod.ext hc.1 hc.2)
      · intro hc
        exact hpI ⟨by omega, by omega, by omega, by omega⟩
    · intro p hp ho
      exfalso
      rw [hc3other p.1 p.2 (by
          intro hc
          have := hp.1.2.2.1
          omega)
        (by
          intro hc
          have := hp.1.2.2.2
          omega)
        (by
          intro hc
          have := hp.2
          have := hst.1
          have := hst.2.1
          omega)] at ho
      exact absurd ho (by simp)
    · have hoM0 : openMidCount c3 h w = 0 := by
        rw [openMidCount, Finset.card_eq_zero, Finset.filter_eq_empty_iff]
        intro x _
        rintro ⟨hm, ho⟩
        rw [hc3other x.1 x.2 (by
            intro hc
            have := hm.1.2.2.1
            omega)
          (by
            intro hc
            have := hm.1.2.2.2
            omega)
          (by
            intro hc
            have := hm.2
            have := hst.1
            have := hst.2.1
            omega)] at ho
        exact absurd ho (by simp)
      have hoN1 : openNodeCount c3 h w = 1 := by
        have hset : ((Finset.range h ×ˢ Finset.range w).filter
            (fun p : Pos => NodeP h w p ∧ (c3 p.1 p.2).wall = false)) =
            {starter} := by
          ext x
          rw [Finset.mem_filter, Finset.mem_singleton, mem_rangeProd]
          constructor
          · rintro ⟨-, hn, ho⟩
            by_contra hxs
            rw [hc3other x.1 x.2 (by
                intro hc
                have := hn.2.1
                omega)
              (by
                intro hc
                have := hn.2.1
                omega)
              (by
                intro hc
                exact hxs (Prod.ext hc.1 hc.2))] at ho
            exact absurd ho (by simp)
          · intro hx
            rw [hx]
            exact ⟨⟨hst.2.2.1, hst.2.2.2⟩, hst, hc3s⟩
        rw [openNodeCount, hset, Finset.card_singleton]
      rw [hoM0, hoN1]
    · exact af_nodup h w c3 starter primOffsets [] (List.nodup_nil)
    · intro p hp
      rcases af_elem h w c3 starter primOffsets [] p hp with hin |
        ⟨-, o, hoP, hokP, hpt, hwallP⟩
      · exact absurd hin (List.not_mem_nil _)
      · have hoW : o ∈ walkOffsets := (mem_primOffsets_iff o).1 hoP
        obtain ⟨hTn', -, -, -, -, -, -, -⟩ :=
          walkStep_geometry h w hh3 hw3 hho hwo starter hst o hoW hokP
        rw [hpt]
        exact ⟨hTn', hpt ▸ hwallP⟩
    · intro p hp
      rcases af_elem h w c3 starter primOffsets [] p hp with hin |
        ⟨-, o, hoP, hokP, hpt, hwallP⟩
      · exact absurd hin (List.not_mem_nil _)
      · have hoW : o ∈ walkOffsets := (mem_primOffsets_iff o).1 hoP
        obtain ⟨o', hoW', hok', heq'⟩ :=
          twoStep_reverse h w hh3 hw3 hho hwo starter hst o hoW hokP
        rw [← hpt] at hok' heq'
        refine ⟨o', hoW', hok', ?_⟩
        rw [heq']
        exact hc3s
    · intro q hqn hqw ⟨o, hoW, hokQ, hopenQ⟩
      obtain ⟨hRn, -, -, -, -, -, -, -⟩ :=
        walkStep_geometry h w hh3 hw3 hho hwo q hqn o hoW hokQ
      have hrs : (twoTarget q o).1 = starter.1 ∧
          (twoTarget q o).2 = starter.2 := by
        by_contra hrs
        rw [hc3other _ _ (by
            intro hc
            have := hRn.2.1
            omega)
          (by
            intro hc
            have := hRn.2.1
            omega) hrs] at hopenQ
        exact absurd hopenQ (by simp)
      have hreq : twoTarget q o = starter := Prod.ext hrs.1 hrs.2
      obtain ⟨o', hoW', hok', heq'⟩ :=
        twoStep_reverse h w hh3 hw3 hho hwo q hqn o hoW hokQ
      rw [hreq] at hok' heq'
      have := af_complete h w c3 starter primOffsets [] o'
        ((mem_primOffsets_iff o').2 hoW') hok' (by
          rw [heq']
          exact hqw)
      rw [heq'] at this
      exact this
    · intro p hpI ho
      have hps : p.1 = starter.1 ∧ p.2 = starter.2 := by
        by_contra hps
        rw [hc3other p.1 p.2 (by
            intro hc
            have := hpI.2.2.1
            omega)
          (by
            intro hc
            have := hpI.2.2.2
            omega) hps] at ho
        exact absurd ho (by simp)
      rw [Prod.ext hps.1 hps.2]
      exact Relation.ReflTransGen.refl
  obtain ⟨hfinv, hmono⟩ := primLoop_inv pickF pickN h w hh3 hw3 hho hwo
    starter (2 * (h * w) + 5) c3 fs0 hinv0
  have hFSnil : (primLoop pickF pickN h w (2 * (h * w) + 5) c3 fs0).2 =
      [] := by
    apply primLoop_empties
    have h1 := wallFree_le h w c3 fs0
    have h2 : fs0.length ≤ 4 := by
      have := af_length_le h w c3 starter primOffsets []
      simpa [hfs0def, appendFrontiers] using this
    omega
  set G := (primLoop pickF pickN h w (2 * (h * w) + 5) c3 fs0).1 with hGdef
  have hallopen : ∀ q : Pos, NodeP h w q → (G q.1 q.2).wall = false := by
    apply all_nodes_pred h w hh3 hw3 hho hwo
      (fun q => (G q.1 q.2).wall = false) starter hst hfinv.starterOpen
    intro q hq hopen off hoff hok
    obtain ⟨hTn', -, -, -, -, -, -, -⟩ :=
      walkStep_geometry h w hh3 hw3 hho hwo q hq off hoff hok
    by_contra ht
    rw [Bool.not_eq_false] at ht
    obtain ⟨o', hoW', hok', heq'⟩ :=
      twoStep_reverse h w hh3 hw3 hho hwo q hq off hoff hok
    have := hfinv.complete (twoTarget q off) hTn' ht
      ⟨o', hoW', hok', by rw [heq']; exact hopen⟩
    rw [hFSnil] at this
    exact absurd this (List.not_mem_nil _)
  have hn11 : NodeP h w ((1, 1) : Pos) := ⟨by decide, by decide, by omega,
    by omega⟩
  have hnGN : NodeP h w ((h - 2, w - 2) : Pos) := by
    refine ⟨?_, ?_, ?_, ?_⟩ <;> dsimp only <;> omega
  have ind11 : (G 1 1).wall = false := hallopen (1, 1) hn11
  have indGN : (G (h - 2) (w - 2)).wall = false := hallopen (h - 2, w - 2)
    hnGN
  have hoc := openCount_struct G h w hh3 hw3 hho hwo hfinv.evenWall
    hfinv.borderWall hfinv.eOpen hfinv.gOpen
  have hac := adjCount_struct G h w hh3 hw3 hho hwo hfinv.evenWall
    hfinv.borderWall hfinv.eOpen hfinv.gOpen hfinv.midsOpen
  rw [if_pos ind11, if_pos indGN] at hac
  have hcounts := hfinv.counts
  have hreachG : ∀ p : Pos, OpenIn G h w p → ReachOpen G h w (1, 0) p := by
    have hre_start : ReachOpen G h w (1, 0) starter := by
      have hstep1 : ReachOpen G h w (1, 0) (1, 1) :=
        Relation.ReflTransGen.single
          ⟨⟨by omega, by omega, hfinv.eOpen⟩, ⟨by omega, by omega, ind11⟩,
            by decide⟩
      have h11I : Interior h w ((1, 1) : Pos) := ⟨by decide, by omega,
        by decide, by omega⟩
      have hstep2 := hfinv.conn (1, 1) h11I ind11
      exact Relation.ReflTransGen.trans hstep1
        (ReachOpen_symm G h w _ _ hstep2)
    intro p hop
    by_cases hpe : p.1 = 1 ∧ p.2 = 0
    · rw [show p = ((1, 0) : Pos) from Prod.ext hpe.1 hpe.2]
      exact Relation.ReflTransGen.refl
    · by_cases hpg : p.1 = h - 2 ∧ p.2 = w - 1
      · have hGNI : Interior h w ((h - 2, w - 2) : Pos) := by
          refine ⟨?_, ?_, ?_, ?_⟩ <;> dsimp only <;> omega
        have hreGN := hfinv.conn (h - 2, w - 2) hGNI indGN
        rw [show p = ((h - 2, w - 1) : Pos) from Prod.ext hpg.1 hpg.2]
        refine Relation.ReflTransGen.trans hre_start
          (Relation.ReflTransGen.trans hreGN
            (Relation.ReflTransGen.single
              ⟨⟨by omega, by omega, indGN⟩,
                ⟨by omega, by omega, hfinv.gOpen⟩, ?_⟩))
        left
        exact ⟨rfl, Or.inl (by dsimp only; omega)⟩
      · have hpInt : Interior h w p := by
          by_contra hpI
          have ho := hop.2.2
          rw [hfinv.borderWall p hop.1 hop.2.1 hpI
            (fun hc => hpe (by rw [hc]; exact ⟨rfl, rfl⟩))
            (fun hc => hpg (by rw [hc]; exact ⟨rfl, rfl⟩))] at ho
          exact absurd ho (by simp)
        exact Relation.ReflTransGen.trans hre_start
          (hfinv.conn p hpInt hop.2.2)
  rw [hMc]
  exact ⟨by omega, hreachG⟩

/-! ### regions of the recursive division and their counts -/

/-- strictly inside the region with corners `tl`, `br` -/
def InReg (tl br : Pos) (p : Pos) : Prop :=
  tl.1 < p.1 ∧ p.1 < br.1 ∧ tl.2 < p.2 ∧ p.2 < br.2

instance (tl br p : Pos) : Decidable (InReg tl br p) := by
  unfold InReg; infer_instance

/-- reachability along open cells strictly inside the region -/
def RegReach (g : Grid) (tl br : Pos) : Pos → Pos → Prop :=
  Relation.ReflTransGen (fun a b => InReg tl br a ∧ InReg tl br b ∧
    (g a.1 a.2).wall = false ∧ (g b.1 b.2).wall = false ∧ AdjacentP a b)

/-- nodes strictly inside the region -/
def regNodeCount (h w : Nat) (tl br : Pos) : Nat :=
  ((Finset.range h ×ˢ Finset.range w).filter
    (fun p => InReg tl br p ∧ p.1 % 2 = 1 ∧ p.2 % 2 = 1)).card

/-- open mixed-parity cells strictly inside the region -/
def regOpenMidCount (g : Grid) (h w : Nat) (tl br : Pos) : Nat :=
  ((Finset.range h ×ˢ Finset.range w).filter
    (fun p => InReg tl br p ∧ (p.1 + p.2) % 2 = 1 ∧
      (g p.1 p.2).wall = false)).card

theorem RegReach_symm (g : Grid) (tl br a b : Pos)
    (hr : RegReach g tl br a b) : RegReach g tl br b a := by
  induction hr with
  | refl => exact Relation.ReflTransGen.refl
  | tail hstep hlast ih =>
    exact Relation.ReflTransGen.trans
      (Relation.ReflTransGen.single ⟨hlast.2.1, hlast.1, hlast.2.2.2.1,
        hlast.2.2.1, AdjacentP_symm _ _ hlast.2.2.2.2⟩) ih

theorem RegReach_congr (g g' : Grid) (tl br : Pos)
    (heq : ∀ p : Pos, InReg tl br p → (g' p.1 p.2).wall = (g p.1 p.2).wall)
    (a b : Pos) (hr : RegReach g tl br a b) : RegReach g' tl br a b := by
  refine Relation.ReflTransGen.mono ?_ hr
  rintro x y ⟨hx, hy, hox, hoy, hadj⟩
  exact ⟨hx, hy, by rw [heq x hx]; exact hox, by rw [heq y hy]; exact hoy,
    hadj⟩

theorem RegReach_mono_region (g : Grid) (tl br tl' br' : Pos)
    (hsub : ∀ p : Pos, InReg tl' br' p → InReg tl br p)
    (a b : Pos) (hr : RegReach g tl' br' a b) : RegReach g tl br a b := by
  refine Relation.ReflTransGen.mono ?_ hr
  rintro x y ⟨hx, hy, hox, hoy, hadj⟩
  exact ⟨hsub x hx, hsub y hy, hox, hoy, hadj⟩

theorem RegReach_to_Reach (g : Grid) (h w : Nat) (tl br : Pos)
    (hsub : ∀ p : Pos, InReg tl br p → p.1 < h ∧ p.2 < w)
    (a b : Pos) (hr : RegReach g tl br a b) : ReachOpen g h w a b := by
  refine Relation.ReflTransGen.mono ?_ hr
  rintro x y ⟨hx, hy, hox, hoy, hadj⟩
  exact ⟨⟨(hsub x hx).1, (hsub x hx).2, hox⟩,
    ⟨(hsub y hy).1, (hsub y hy).2, hoy⟩, hadj⟩

theorem setWallRow_self (g : Grid) (r lo hi j : Nat) (h1 : lo ≤ j)
    (h2 : j < hi) : (setWallRow g r lo hi r j).wall = true := by
  unfold setWallRow
  rw [if_pos ⟨rfl, h1, h2⟩]

theorem setWallCol_self (g : Grid) (c lo hi i : Nat) (h1 : lo ≤ i)
    (h2 : i < hi) : (setWallCol g c lo hi i c).wall = true := by
  unfold setWallCol
  rw [if_pos ⟨h1, h2, rfl⟩]

/-- all open cells of one open row stretch are reachable from its left end -/
theorem rowReach (g : Grid) (tl br : Pos) (r : Nat)
    (hcells : ∀ j, tl.2 < j → j < br.2 → InReg tl br (r, j) ∧
      (g r j).wall = false) :
    ∀ c, tl.2 < c → c < br.2 → RegReach g tl br (r, tl.2 + 1) (r, c) := by
  have hstep : ∀ d (c : Nat), c = tl.2 + 1 + d → c < br.2 →
      RegReach g tl br (r, tl.2 + 1) (r, c) := by
    intro d
    induction d with
    | zero =>
      intro c hc _
      rw [hc]
      exact Relation.ReflTransGen.refl
    | succ n ihn =>
      intro c hc hcb
      have h1 := ihn (tl.2 + 1 + n) rfl (by omega)
      refine Relation.ReflTransGen.tail h1 ?_
      obtain ⟨hi1, ho1⟩ := hcells (tl.2 + 1 + n) (by omega) (by omega)
      obtain ⟨hi2, ho2⟩ := hcells c (by omega) hcb
      refine ⟨hi1, hi2, ho1, ho2, ?_⟩
      left
      exact ⟨rfl, Or.inl (by dsimp only; omega)⟩
  intro c hc1 hc2
  exact hstep (c - (tl.2 + 1)) c (by omega) hc2

/-- all open cells of one open column stretch are reachable from its top
end -/
theorem colReach (g : Grid) (tl br : Pos) (c : Nat)
    (hcells : ∀ i, tl.1 < i → i < br.1 → InReg tl br (i, c) ∧
      (g i c).wall = false) :
    ∀ r, tl.1 < r → r < br.1 → RegReach g tl br (tl.1 + 1, c) (r, c) := by
  have hstep : ∀ d (r : Nat), r = tl.1 + 1 + d → r < br.1 →
      RegReach g tl br (tl.1 + 1, c) (r, c) := by
    intro d
    induction d with
    | zero =>
      intro r hr _
      rw [hr]
      exact Relation.ReflTransGen.refl
    | succ n ihn =>
      intro r hr hrb
      have h1 := ihn (tl.1 + 1 + n) rfl (by omega)
      refine Relation.ReflTransGen.tail h1 ?_
      obtain ⟨hi1, ho1⟩ := hcells (tl.1 + 1 + n) (by omega) (by omega)
      obtain ⟨hi2, ho2⟩ := hcells r (by omega) hrb
      refine ⟨hi1, hi2, ho1, ho2, ?_⟩
      right
      exact ⟨rfl, Or.inl (by dsimp only; omega)⟩
  intro r hr1 hr2
  exact hstep (r - (tl.1 + 1)) r (by omega) hr2

/-- a fully open two-row region is a corridor: one fewer passage than
nodes -/
theorem corridor_count_h (g : Grid) (h w : Nat) (tl br : Pos)
    (hreg : RegionOK h w tl br) (hh2 : br.1 - tl.1 = 2)
    (hpre : ∀ p : Pos, InReg tl br p → (g p.1 p.2).wall = false) :
    regOpenMidCount g h w tl br + 1 = regNodeCount h w tl br := by
  obtain ⟨r1, r2, r3, r4, r5, r6, r7, r8⟩ := hreg
  have hanch : ((tl.1 + 1, tl.2 + 1) : Pos) ∈
      Finset.range h ×ˢ Finset.range w :=
    (mem_rangeProd h w _).2 ⟨by dsimp only; omega, by dsimp only; omega⟩
  have hstep1 : regNodeCount h w tl br =
      ((Finset.range h ×ˢ Finset.range w).filter
        (fun p : Pos => (InReg tl br p ∧ p.1 % 2 = 1 ∧ p.2 % 2 = 1) ∧
          p ≠ (tl.1 + 1, tl.2 + 1))).card + 1 := by
    apply filter_card_flip_at _ _ _ _ hanch
    · intro x _ hx
      constructor
      · intro hn; exact ⟨hn, hx⟩
      · intro hn; exact hn.1
    · rintro ⟨-, hne⟩
      exact hne rfl
    · refine ⟨⟨by dsimp only; omega, by dsimp only; omega,
        by dsimp only; omega, by dsimp only; omega⟩,
        by dsimp only; omega, by dsimp only; omega⟩
  have hstep2 : regOpenMidCount g h w tl br =
      ((Finset.range h ×ˢ Finset.range w).filter
        (fun p : Pos => (InReg tl br p ∧ p.1 % 2 = 1 ∧ p.2 % 2 = 1) ∧
          p ≠ (tl.1 + 1, tl.2 + 1))).card := by
    apply Finset.card_bij (fun p _ => ((p.1, p.2 + 1) : Pos))
    · intro a ha
      rw [Finset.mem_filter, mem_rangeProd] at ha
      obtain ⟨⟨hb1, hb2⟩, hin, hmix, ho⟩ := ha
      have hi1 := hin.1
      have hi2 := hin.2.1
      have hi3 := hin.2.2.1
      have hi4 := hin.2.2.2
      have ha1 : a.1 = tl.1 + 1 := by omega
      rw [Finset.mem_filter, mem_rangeProd]
      refine ⟨⟨by dsimp only; omega, by dsimp only; omega⟩,
        ⟨⟨by dsimp only; omega, by dsimp only; omega, by dsimp only; omega,
          ?_⟩, by dsimp only; omega, by dsimp only; omega⟩, ?_⟩
      · have := hin.2.2.2
        dsimp only
        omega
      · intro hc
        rw [Prod.ext_iff] at hc
        dsimp only at hc
        have := hin.2.2.1
        omega
    · intro a ha b hb hab
      rw [Prod.ext_iff] at hab
      dsimp only at hab
      rw [Prod.ext_iff]
      omega
    · intro b hb
      rw [Finset.mem_filter, mem_rangeProd] at hb
      obtain ⟨⟨hb1, hb2⟩, ⟨hin, ho1, ho2⟩, hne⟩ := hb
      have hi1 := hin.1
      have hi2 := hin.2.1
      have hi3 := hin.2.2.1
      have hi4 := hin.2.2.2
      have hb1' : b.1 = tl.1 + 1 := by omega
      have hbne : tl.2 + 3 ≤ b.2 := by
        by_contra hc
        apply hne
        rw [Prod.ext_iff]
        constructor
        · dsimp only; omega
        · dsimp only
          have := hin.2.2.1
          omega
      refine ⟨(b.1, b.2 - 1), ?_, ?_⟩
      · rw [Finset.mem_filter, mem_rangeProd]
        refine ⟨⟨by dsimp only; omega, by dsimp only; omega⟩,
          ⟨by dsimp only; omega, by dsimp only; omega, by dsimp only; omega,
            by
              dsimp only
              have := hin.2.2.2
              omega⟩,
          by dsimp only; omega, ?_⟩
        apply hpre
        refine ⟨by dsimp only; omega, by dsimp only; omega,
          by dsimp only; omega, ?_⟩
        dsimp only
        have := hin.2.2.2
        omega
      · rw [Prod.ext_iff]
        exact ⟨rfl, by dsimp only; omega⟩
  omega

/-- a fully open two-column region is a corridor -/
theorem corridor_count_v (g : Grid) (h w : Nat) (tl br : Pos)
    (hreg : RegionOK h w tl br) (hw2 : br.2 - tl.2 = 2)
    (hpre : ∀ p : Pos, InReg tl br p → (g p.1 p.2).wall = false) :
    regOpenMidCount g h w tl br + 1 = regNodeCount h w tl br := by
  obtain ⟨r1, r2, r3, r4, r5, r6, r7, r8⟩ := hreg
  have hanch : ((tl.1 + 1, tl.2 + 1) : Pos) ∈
      Finset.range h ×ˢ Finset.range w :=
    (mem_rangeProd h w _).2 ⟨by dsimp only; omega, by dsimp only; omega⟩
  have hstep1 : regNodeCount h w tl br =
      ((Finset.range h ×ˢ Finset.range w).filter
        (fun p : Pos => (InReg tl br p ∧ p.1 % 2 = 1 ∧ p.2 % 2 = 1) ∧
          p ≠ (tl.1 + 1, tl.2 + 1))).card + 1 := by
    apply filter_card_flip_at _ _ _ _ hanch
    · intro x _ hx
      constructor
      · intro hn; exact ⟨hn, hx⟩
      · intro hn; exact hn.1
    · rintro ⟨-, hne⟩
      exact hne rfl
    · refine ⟨⟨by dsimp only; omega, by dsimp only; omega,
        by dsimp only; omega, by dsimp only; omega⟩,
        by dsimp only; omega, by dsimp only; omega⟩
  have hstep2 : regOpenMidCount g h w tl br =
      ((Finset.range h ×ˢ Finset.range w).filter
        (fun p : Pos => (InReg tl br p ∧ p.1 % 2 = 1 ∧ p.2 % 2 = 1) ∧
          p ≠ (tl.1 + 1, tl.2 + 1))).card := by
    apply Finset.card_bij (fun p _ => ((p.1 + 1, p.2) : Pos))
    · intro a ha
      rw [Finset.mem_filter, mem_rangeProd] at ha
      obtain ⟨⟨hb1, hb2⟩, hin, hmix, ho⟩ := ha
      have hi1 := hin.1
      have hi2 := hin.2.1
      have hi3 := hin.2.2.1
      have hi4 := hin.2.2.2
      have ha2 : a.2 = tl.2 + 1 := by omega
      rw [Finset.mem_filter, mem_rangeProd]
      refine ⟨⟨by dsimp only; omega, by dsimp only; omega⟩,
        ⟨⟨by dsimp only; omega, ?_, by dsimp only; omega,
          by dsimp only; omega⟩, by dsimp only; omega,
          by dsimp only; omega⟩, ?_⟩
      · have := hin.2.1
        dsimp only
        omega
      · intro hc
        rw [Prod.ext_iff] at hc
        dsimp only at hc
        have := hin.1
        omega
    · intro a ha b hb hab
      rw [Prod.ext_iff] at hab
      dsimp only at hab
      rw [Prod.ext_iff]
      omega
    · intro b hb
      rw [Finset.mem_filter, mem_rangeProd] at hb
      obtain ⟨⟨hb1, hb2⟩, ⟨hin, ho1, ho2⟩, hne⟩ := hb
      have hi1 := hin.1
      have hi2 := hin.2.1
      have hi3 := hin.2.2.1
      have hi4 := hin.2.2.2
      have hb2' : b.2 = tl.2 + 1 := by omega
      have hbne : tl.1 + 3 ≤ b.1 := by
        by_contra hc
        apply hne
        rw [Prod.ext_iff]
        constructor
        · dsimp only
          have := hin.1
          omega
        · dsimp only; omega
      refine ⟨(b.1 - 1, b.2), ?_, ?_⟩
      · rw [Finset.mem_filter, mem_rangeProd]
        refine ⟨⟨by dsimp only; omega, by dsimp only; omega⟩,
          ⟨by dsimp only; omega, by
              dsimp only
              have := hin.2.1
              omega,
            by dsimp only; omega, by dsimp only; omega⟩,
          by dsimp only; omega, ?_⟩
        apply hpre
        refine ⟨by dsimp only; omega, by
            dsimp only
            have := hin.2.1
            omega,
          by dsimp only; omega, by dsimp only; omega⟩
      · rw [Prod.ext_iff]
        exact ⟨by dsimp only; omega, rfl⟩
  omega

/-- region nodes split across a horizontal cut at an even row -/
theorem regNode_split_h (h w : Nat) (tl br : Pos) (wi : Nat)
    (h1 : tl.1 < wi) (h2 : wi < br.1) (h3 : wi % 2 = 0) :
    regNodeCount h w tl br =
      regNodeCount h w tl (wi, br.2) + regNodeCount h w (wi, tl.2) br := by
  have hA : ∀ x : Pos, x ∈ Finset.range h ×ˢ Finset.range w →
      ((InReg tl br x ∧ x.1 % 2 = 1 ∧ x.2 % 2 = 1) ↔
        (InReg tl (wi, br.2) x ∧ x.1 % 2 = 1 ∧ x.2 % 2 = 1) ∨
        (InReg (wi, tl.2) br x ∧ x.1 % 2 = 1 ∧ x.2 % 2 = 1)) := by
    intro x _
    constructor
    · rintro ⟨⟨ha, hb, hc, hd⟩, hp, hq⟩
      rcases Nat.lt_or_ge x.1 wi with hlt | hge
      · exact Or.inl ⟨⟨ha, by dsimp only; omega, hc, by dsimp only; omega⟩,
          hp, hq⟩
      · exact Or.inr ⟨⟨by dsimp only; omega, hb, by dsimp only; omega, hd⟩,
          hp, hq⟩
    · rintro (⟨⟨ha, hb, hc, hd⟩, hp, hq⟩ | ⟨⟨ha, hb, hc, hd⟩, hp, hq⟩)
      · dsimp only at hb hd
        exact ⟨⟨ha, by omega, hc, hd⟩, hp, hq⟩
      · dsimp only at ha hc
        exact ⟨⟨by omega, hb, hc, hd⟩, hp, hq⟩
  rw [regNodeCount, filter_card_congr _ _ _ hA, Finset.filter_or,
    Finset.card_union_of_disjoint]
  · rfl
  · rw [Finset.disjoint_left]
    intro x hx hx2
    rw [Finset.mem_filter] at hx hx2
    have a1 := hx.2.1.2.1
    have a2 := hx2.2.1.1
    dsimp only at a1 a2
    omega

/-- region nodes split across a vertical cut at an even column -/
theorem regNode_split_v (h w : Nat) (tl br : Pos) (wi : Nat)
    (h1 : tl.2 < wi) (h2 : wi < br.2) (h3 : wi % 2 = 0) :
    regNodeCount h w tl br =
      regNodeCount h w tl (br.1, wi) + regNodeCount h w (tl.1, wi) br := by
  have hA : ∀ x : Pos, x ∈ Finset.range h ×ˢ Finset.range w →
      ((InReg tl br x ∧ x.1 % 2 = 1 ∧ x.2 % 2 = 1) ↔
        (InReg tl (br.1, wi) x ∧ x.1 % 2 = 1 ∧ x.2 % 2 = 1) ∨
        (InReg (tl.1, wi) br x ∧ x.1 % 2 = 1 ∧ x.2 % 2 = 1)) := by
    intro x _
    constructor
    · rintro ⟨⟨ha, hb, hc, hd⟩, hp, hq⟩
      rcases Nat.lt_or_ge x.2 wi with hlt | hge
      · exact Or.inl ⟨⟨ha, by dsimp only; omega, hc, by dsimp only; omega⟩,
          hp, hq⟩
      · exact Or.inr ⟨⟨by dsimp only; omega, hb, by dsimp only; omega, hd⟩,
          hp, hq⟩
    · rintro (⟨⟨ha, hb, hc, hd⟩, hp, hq⟩ | ⟨⟨ha, hb, hc, hd⟩, hp, hq⟩)
      · dsimp only at hb hd
        exact ⟨⟨ha, hb, hc, by omega⟩, hp, hq⟩
      · dsimp only at ha hc
        exact ⟨⟨ha, hb, by omega, hd⟩, hp, hq⟩
  rw [regNodeCount, filter_card_congr _ _ _ hA, Finset.filter_or,
    Finset.card_union_of_disjoint]
  · rfl
  · rw [Finset.disjoint_left]
    intro x hx hx2
    rw [Finset.mem_filter] at hx hx2
    have a1 := hx.2.1.2.2.2
    have a2 := hx2.2.1.2.2.1
    dsimp only at a1 a2
    omega

/-- open passages split across a horizontal wall row with exactly one
hole -/
theorem regOpenMid_split_h (g : Grid) (h w : Nat) (tl br : Pos)
    (wi hi : Nat) (hbw : wi < h) (hbh : hi < w)
    (h1 : tl.1 < wi) (h2 : wi < br.1) (h3 : wi % 2 = 0)
    (h4 : tl.2 < hi) (h5 : hi < br.2) (h6 : hi % 2 = 1)
    (hrow : ∀ j, tl.2 < j → j < br.2 → ((g wi j).wall = false ↔ j = hi)) :
    regOpenMidCount g h w tl br =
      regOpenMidCount g h w tl (wi, br.2) + 1 +
        regOpenMidCount g h w (wi, tl.2) br := by
  have hA : ∀ x : Pos, x ∈ Finset.range h ×ˢ Finset.range w →
      ((InReg tl br x ∧ (x.1 + x.2) % 2 = 1 ∧ (g x.1 x.2).wall = false) ↔
        (InReg tl (wi, br.2) x ∧ (x.1 + x.2) % 2 = 1 ∧
          (g x.1 x.2).wall = false) ∨
        x = ((wi, hi) : Pos) ∨
        (InReg (wi, tl.2) br x ∧ (x.1 + x.2) % 2 = 1 ∧
          (g x.1 x.2).wall = false)) := by
    intro x _
    constructor
    · rintro ⟨⟨ha, hb, hc, hd⟩, hp, hq⟩
      rcases Nat.lt_trichotomy x.1 wi with hlt | heq | hgt
      · exact Or.inl ⟨⟨ha, by dsimp only; omega, hc,
          by dsimp only; omega⟩, hp, hq⟩
      · refine Or.inr (Or.inl ?_)
        rw [← heq] at hrow
        have := (hrow x.2 hc hd).1 hq
        exact Prod.ext heq this
      · exact Or.inr (Or.inr ⟨⟨by dsimp only; omega, hb,
          by dsimp only; omega, hd⟩, hp, hq⟩)
    · rintro (⟨⟨ha, hb, hc, hd⟩, hp, hq⟩ | hx |
        ⟨⟨ha, hb, hc, hd⟩, hp, hq⟩)
      · dsimp only at hb hd
        exact ⟨⟨ha, by omega, hc, hd⟩, hp, hq⟩
      · rw [hx]
        refine ⟨⟨by dsimp only; omega, by dsimp only; omega,
          by dsimp only; omega, by dsimp only; omega⟩,
          by dsimp only; omega, ?_⟩
        show (g wi hi).wall = false
        exact (hrow hi h4 h5).2 rfl
      · dsimp only at ha hc
        exact ⟨⟨by omega, hb, hc, hd⟩, hp, hq⟩
  have hQHcard : ((Finset.range h ×ˢ Finset.range w).filter
      (fun x : Pos => x = ((wi, hi) : Pos))).card = 1 := by
    have : ((Finset.range h ×ˢ Finset.range w).filter
        (fun x : Pos => x = ((wi, hi) : Pos))) = {((wi, hi) : Pos)} := by
      ext x
      rw [Finset.mem_filter, Finset.mem_singleton, mem_rangeProd]
      constructor
      · intro hx; exact hx.2
      · intro hx
        rw [hx]
        exact ⟨⟨by dsimp only; omega, by dsimp only; omega⟩, rfl⟩
    rw [this, Finset.card_singleton]
  have hd1 : Disjoint
      ((Finset.range h ×ˢ Finset.range w).filter
        (fun x : Pos => InReg tl (wi, br.2) x ∧ (x.1 + x.2) % 2 = 1 ∧
          (g x.1 x.2).wall = false))
      (((Finset.range h ×ˢ Finset.range w).filter
          (fun x : Pos => x = ((wi, hi) : Pos))) ∪
        ((Finset.range h ×ˢ Finset.range w).filter
          (fun x : Pos => InReg (wi, tl.2) br x ∧ (x.1 + x.2) % 2 = 1 ∧
            (g x.1 x.2).wall = false))) := by
    rw [Finset.disjoint_left]
    intro x hx hx2
    rw [Finset.mem_filter] at hx
    rw [Finset.mem_union, Finset.mem_filter, Finset.mem_filter] at hx2
    have a1 := hx.2.1.2.1
    dsimp only at a1
    rcases hx2 with ⟨-, hq⟩ | ⟨-, hq, -⟩
    · rw [hq] at a1
      dsimp only at a1
      omega
    · have a2 := hq.1
      dsimp only at a2
      omega
  have hd2 : Disjoint
      ((Finset.range h ×ˢ Finset.range w).filter
        (fun x : Pos => x = ((wi, hi) : Pos)))
      ((Finset.range h ×ˢ Finset.range w).filter
        (fun x : Pos => InReg (wi, tl.2) br x ∧ (x.1 + x.2) % 2 = 1 ∧
          (g x.1 x.2).wall = false)) := by
    rw [Finset.disjoint_left]
    intro x hx hx2
    rw [Finset.mem_filter] at hx hx2
    have a2 := hx2.2.1.1
    rw [hx.2] at a2
    dsimp only at a2
    omega
  rw [regOpenMidCount, filter_card_congr _ _ _ hA, Finset.filter_or,
    Finset.filter_or, Finset.card_union_of_disjoint hd1,
    Finset.card_union_of_disjoint hd2, hQHcard]
  show _ = regOpenMidCount g h w tl (wi, br.2) + 1 +
    regOpenMidCount g h w (wi, tl.2) br
  unfold regOpenMidCount
  omega

/-- open passages split across a vertical wall column with exactly one
hole -/
theorem regOpenMid_split_v (g : Grid) (h w : Nat) (tl br : Pos)
    (wi hi : Nat) (hbw : hi < h) (hbh : wi < w)
    (h1 : tl.2 < wi) (h2 : wi < br.2) (h3 : wi % 2 = 0)
    (h4 : tl.1 < hi) (h5 : hi < br.1) (h6 : hi % 2 = 1)
    (hcol : ∀ i, tl.1 < i → i < br.1 → ((g i wi).wall = false ↔ i = hi)) :
    regOpenMidCount g h w tl br =
      regOpenMidCount g h w tl (br.1, wi) + 1 +
        regOpenMidCount g h w (tl.1, wi) br := by
  have hA : ∀ x : Pos, x ∈ Finset.range h ×ˢ Finset.range w →
      ((InReg tl br x ∧ (x.1 + x.2) % 2 = 1 ∧ (g x.1 x.2).wall = false) ↔
        (InReg tl (br.1, wi) x ∧ (x.1 + x.2) % 2 = 1 ∧
          (g x.1 x.2).wall = false) ∨
        x = ((hi, wi) : Pos) ∨
        (InReg (tl.1, wi) br x ∧ (x.1 + x.2) % 2 = 1 ∧
          (g x.1 x.2).wall = false)) := by
    intro x _
    constructor
    · rintro ⟨⟨ha, hb, hc, hd⟩, hp, hq⟩
      rcases Nat.lt_trichotomy x.2 wi with hlt | heq | hgt
      · exact Or.inl ⟨⟨ha, by dsimp only; omega, hc,
          by dsimp only; omega⟩, hp, hq⟩
      · refine Or.inr (Or.inl ?_)
        rw [← heq] at hcol
        have := (hcol x.1 ha hb).1 hq
        exact Prod.ext this heq
      · exact Or.inr (Or.inr ⟨⟨by dsimp only; omega, hb,
          by dsimp only; omega, hd⟩, hp, hq⟩)
    · rintro (⟨⟨ha, hb, hc, hd⟩, hp, hq⟩ | hx |
        ⟨⟨ha, hb, hc, hd⟩, hp, hq⟩)
      · dsimp only at hb hd
        exact ⟨⟨ha, hb, hc, by omega⟩, hp, hq⟩
      · rw [hx]
        refine ⟨⟨by dsimp only; omega, by dsimp only; omega,
          by dsimp only; omega, by dsimp only; omega⟩,
          by dsimp only; omega, ?_⟩
        show (g hi wi).wall = false
        exact (hcol hi h4 h5).2 rfl
      · dsimp only at ha hc
        exact ⟨⟨ha, hb, by omega, hd⟩, hp, hq⟩
  have hQHcard : ((Finset.range h ×ˢ Finset.range w).filter
      (fun x : Pos => x = ((hi, wi) : Pos))).card = 1 := by
    have : ((Finset.range h ×ˢ Finset.range w).filter
        (fun x : Pos => x = ((hi, wi) : Pos))) = {((hi, wi) : Pos)} := by
      ext x
      rw [Finset.mem_filter, Finset.mem_singleton, mem_rangeProd]
      constructor
      · intro hx; exact hx.2
      · intro hx
        rw [hx]
        exact ⟨⟨by dsimp only; omega, by dsimp only; omega⟩, rfl⟩
    rw [this, Finset.card_singleton]
  have hd1 : Disjoint
      ((Finset.range h ×ˢ Finset.range w).filter
        (fun x : Pos => InReg tl (br.1, wi) x ∧ (x.1 + x.2) % 2 = 1 ∧
          (g x.1 x.2).wall = false))
      (((Finset.range h ×ˢ Finset.range w).filter
          (fun x : Pos => x = ((hi, wi) : Pos))) ∪
        ((Finset.range h ×ˢ Finset.range w).filter
          (fun x : Pos => InReg (tl.1, wi) br x ∧ (x.1 + x.2) % 2 = 1 ∧
            (g x.1 x.2).wall = false))) := by
    rw [Finset.disjoint_left]
    intro x hx hx2
    rw [Finset.mem_filter] at hx
    rw [Finset.mem_union, Finset.mem_filter, Finset.mem_filter] at hx2
    have a1 := hx.2.1.2.2.2
    dsimp only at a1
    rcases hx2 with ⟨-, hq⟩ | ⟨-, hq, -⟩
    · rw [hq] at a1
      dsimp only at a1
      omega
    · have a2 := hq.2.2.1
      dsimp only at a2
      omega
  have hd2 : Disjoint
      ((Finset.range h ×ˢ Finset.range w).filter
        (fun x : Pos => x = ((hi, wi) : Pos)))
      ((Finset.range h ×ˢ Finset.range w).filter
        (fun x : Pos => InReg (tl.1, wi) br x ∧ (x.1 + x.2) % 2 = 1 ∧
          (g x.1 x.2).wall = false)) := by
    rw [Finset.disjoint_left]
    intro x hx hx2
    rw [Finset.mem_filter] at hx hx2
    have a2 := hx2.2.1.2.2.1
    rw [hx.2] at a2
    dsimp only at a2
    omega
  rw [regOpenMidCount, filter_card_congr _ _ _ hA, Finset.filter_or,
    Finset.filter_or, Finset.card_union_of_disjoint hd1,
    Finset.card_union_of_disjoint hd2, hQHcard]
  show _ = regOpenMidCount g h w tl (br.1, wi) + 1 +
    regOpenMidCount g h w (tl.1, wi) br
  unfold regOpenMidCount
  omega

/-- the recursive `divide`, run on a well-formed fully open region, walls
exactly the even/even cells, keeps every node open, creates one fewer
passage than nodes, and leaves all open region cells connected to the
top-left node -/
theorem divide_spec (wp hp : Pos → Pos → Nat) (h w : Nat) :
    ∀ (fuel : Nat) (g : Grid) (tl br : Pos), RegionOK h w tl br →
      (br.1 - tl.1) + (br.2 - tl.2) ≤ fuel →
      (∀ p : Pos, InReg tl br p → (g p.1 p.2).wall = false) →
      (∀ i j, ¬ InReg tl br (i, j) →
        divide wp hp fuel g tl br i j = g i j) ∧
      (∀ p : Pos, InReg tl br p → p.1 % 2 = 1 → p.2 % 2 = 1 →
        (divide wp hp fuel g tl br p.1 p.2).wall = false) ∧
      (∀ p : Pos, InReg tl br p → p.1 % 2 = 0 → p.2 % 2 = 0 →
        (divide wp hp fuel g tl br p.1 p.2).wall = true) ∧
      (regOpenMidCount (divide wp hp fuel g tl br) h w tl br + 1 =
        regNodeCount h w tl br) ∧
      (∀ p : Pos, InReg tl br p →
        (divide wp hp fuel g tl br p.1 p.2).wall = false →
        RegReach (divide wp hp fuel g tl br) tl br (tl.1 + 1, tl.2 + 1)
          p) := by
  intro fuel
  induction fuel with
  | zero =>
    intro g tl br hreg hfuel hpre
    obtain ⟨r1, r2, r3, r4, r5, r6, r7, r8⟩ := hreg
    exact absurd hfuel (by omega)
  | succ f ih =>
    intro g tl br hreg hfuel hpre
    obtain ⟨r1, r2, r3, r4, r5, r6, r7, r8⟩ := hreg
    simp only [divide]
    split
    · -- base case: a one-cell-wide corridor, left untouched
      rename_i hguard
      refine ⟨fun i j _ => rfl, fun p hp _ _ => hpre p hp, ?_, ?_, ?_⟩
      · intro p hp hp1 hp2
        exfalso
        obtain ⟨a, b, c, d⟩ := hp
        rcases hguard with h' | h' <;> omega
      · rcases hguard with h' | h'
        · exact corridor_count_h g h w tl br
            ⟨r1, r2, r3, r4, r5, r6, r7, r8⟩ h' hpre
        · exact corridor_count_v g h w tl br
            ⟨r1, r2, r3, r4, r5, r6, r7, r8⟩ h' hpre
      · intro p hp hop
        obtain ⟨a, b, c, d⟩ := hp
        rcases hguard with h' | h'
        · have hp1 : p.1 = tl.1 + 1 := by omega
          rw [show p = ((tl.1 + 1, p.2) : Pos) from Prod.ext hp1 rfl]
          apply rowReach g tl br (tl.1 + 1)
          · intro j hj1 hj2
            refine ⟨⟨by omega, by omega, by dsimp only; omega,
              by dsimp only; omega⟩, ?_⟩
            exact hpre (tl.1 + 1, j) ⟨by omega, by omega,
              by dsimp only; omega, by dsimp only; omega⟩
          · exact c
          · exact d
        · have hp2 : p.2 = tl.2 + 1 := by omega
          rw [show p = ((p.1, tl.2 + 1) : Pos) from Prod.ext rfl hp2]
          apply colReach g tl br (tl.2 + 1)
          · intro i hi1 hi2
            refine ⟨⟨by dsimp only; omega, by dsimp only; omega,
              by omega, by omega⟩, ?_⟩
            exact hpre (i, tl.2 + 1) ⟨by dsimp only; omega,
              by dsimp only; omega, by omega, by omega⟩
          · exact a
          · exact b
    · rename_i hguard
      rw [not_or] at hguard
      obtain ⟨hng1, hng2⟩ := hguard
      split
      · -- horizontal wall at even row wi with hole at odd column hi
        rename_i hwh
        set wi := evenPick (wp tl br) (tl.1 + 1) br.1 with hwidef
        set hi := oddPick (hp tl br) (tl.2 + 1) br.2 with hhidef
        obtain ⟨hwiE, hwiL, hwiU⟩ :=
          evenPick_spec (wp tl br) (tl.1 + 1) br.1 (by omega) (by omega)
        obtain ⟨hhiO, hhiL, hhiU⟩ :=
          oddPick_spec (hp tl br) (tl.2 + 1) br.2 (by omega) (by omega)
        rw [← hwidef] at hwiE hwiL hwiU
        rw [← hhidef] at hhiO hhiL hhiU
        set g1 := setWallRow g wi (tl.2 + 1) br.2 with hg1def
        set g2 := setWall g1 (wi, hi) false with hg2def
        set g3 := divide wp hp f g2 tl (wi, br.2) with hg3def
        set g4 := divide wp hp f g3 (wi, tl.2) br with hg4def
        have hregA : RegionOK h w tl (wi, br.2) := by
          refine ⟨r1, r2, ?_, ?_, ?_, ?_, ?_, ?_⟩ <;> dsimp only <;> omega
        have hregB : RegionOK h w (wi, tl.2) br := by
          refine ⟨?_, ?_, r3, r4, ?_, ?_, ?_, ?_⟩ <;> dsimp only <;> omega
        have hg2cell : ∀ i j, ¬(i = wi) → g2 i j = g i j := by
          intro i j hij
          rw [hg2def, setWall_ne _ _ _ _ _ (by
              intro hc
              exact hij hc.1),
            hg1def, setWallRow_ne _ _ _ _ _ _ (by
              intro hc
              exact hij hc.1)]
        have hpreA : ∀ p : Pos, InReg tl (wi, br.2) p →
            (g2 p.1 p.2).wall = false := by
          intro p hp
          obtain ⟨a, b, c, d⟩ := hp
          dsimp only at b d
          rw [hg2cell p.1 p.2 (by omega)]
          exact hpre p ⟨a, by omega, c, d⟩
        obtain ⟨fA, nA, eA, cA, rA⟩ :=
          ih g2 tl (wi, br.2) hregA (by dsimp only; omega) hpreA
        rw [← hg3def] at fA nA eA cA rA
        have hpreB : ∀ p : Pos, InReg (wi, tl.2) br p →
            (g3 p.1 p.2).wall = false := by
          intro p hp
          obtain ⟨a, b, c, d⟩ := hp
          dsimp only at a c
          rw [fA p.1 p.2 (by
              rintro ⟨a', b', c', d'⟩
              dsimp only at b'
              omega),
            hg2cell p.1 p.2 (by omega)]
          exact hpre p ⟨by omega, b, by omega, d⟩
        obtain ⟨fB, nB, eB, cB, rB⟩ :=
          ih g3 (wi, tl.2) br hregB (by dsimp only; omega) hpreB
        rw [← hg4def] at fB nB eB cB rB
        have hg4low : ∀ i j, i ≤ wi → g4 i j = g3 i j := by
          intro i j hij
          rw [hg4def]
          exact fB i j (by
            rintro ⟨a', b', c', d'⟩
            dsimp only at a'
            omega)
        have hg3band : ∀ j, g3 wi j = g2 wi j := by
          intro j
          rw [hg3def]
          exact fA wi j (by
            rintro ⟨a', b', c', d'⟩
            dsimp only at b'
            omega)
        have hg4band : ∀ j, g4 wi j = g2 wi j := by
          intro j
          rw [hg4low wi j le_rfl]
          exact hg3band j
        have hrowvals : ∀ j, tl.2 < j → j < br.2 →
            ((g2 wi j).wall = false ↔ j = hi) := by
          intro j hj1 hj2
          constructor
          · intro ho
            by_contra hne
            rw [hg2def, setWall_ne _ _ _ _ _ (by
                intro hc
                exact hne hc.2),
              hg1def] at ho
            have hself := setWallRow_self g wi (tl.2 + 1) br.2 j
              (by omega) hj2
            rw [hself] at ho
            exact absurd ho (by simp)
          · intro hj
            rw [hj, hg2def]
            exact wall_setWall_false_self g1 (wi, hi)
        have hrowvals4 : ∀ j, tl.2 < j → j < br.2 →
            ((g4 wi j).wall = false ↔ j = hi) := by
          intro j hj1 hj2
          rw [hg4band j]
          exact hrowvals j hj1 hj2
        have hAcongr : regOpenMidCount g4 h w tl (wi, br.2) =
            regOpenMidCount g3 h w tl (wi, br.2) := by
          apply filter_card_congr
          intro x _
          constructor
          · rintro ⟨hin, hm, ho⟩
            refine ⟨hin, hm, ?_⟩
            rw [← hg4low x.1 x.2 (by
              have := hin.2.1
              dsimp only at this
              omega)]
            exact ho
          · rintro ⟨hin, hm, ho⟩
            refine ⟨hin, hm, ?_⟩
            rw [hg4low x.1 x.2 (by
              have := hin.2.1
              dsimp only at this
              omega)]
            exact ho
        have hApath : ∀ q : Pos, InReg tl (wi, br.2) q →
            (g4 q.1 q.2).wall = false →
            RegReach g4 tl br (tl.1 + 1, tl.2 + 1) q := by
          intro q hq hoq
          have hqlt : q.1 < wi := by
            have := hq.2.1
            dsimp only at this
            omega
          have h1 : RegReach g3 tl (wi, br.2) (tl.1 + 1, tl.2 + 1) q :=
            rA q hq (by
              rw [← hg4low q.1 q.2 (by omega)]
              exact hoq)
          have h2 : RegReach g4 tl (wi, br.2) (tl.1 + 1, tl.2 + 1) q := by
            apply RegReach_congr g3 g4 tl (wi, br.2) _ _ _ h1
            intro p hp
            rw [hg4low p.1 p.2 (by
              have := hp.2.1
              dsimp only at this
              omega)]
          apply RegReach_mono_region g4 tl br tl (wi, br.2) _ _ _ h2
          rintro p ⟨a', b', c', d'⟩
          dsimp only at b' d'
          exact ⟨a', by omega, c', d'⟩
        have hq1in : InReg tl (wi, br.2) ((wi - 1, hi) : Pos) := by
          refine ⟨?_, ?_, ?_, ?_⟩ <;> dsimp only <;> omega
        have hq1open : (g4 (wi - 1) hi).wall = false := by
          rw [show (g4 (wi - 1) hi) = g3 (wi - 1) hi from
            hg4low (wi - 1) hi (by omega)]
          exact nA (wi - 1, hi) hq1in (by dsimp only; omega)
            (by dsimp only; omega)
        have hholeopen : (g4 wi hi).wall = false :=
          (hrowvals4 hi (by omega) (by omega)).2 rfl
        have hreach_q1 : RegReach g4 tl br (tl.1 + 1, tl.2 + 1)
            (wi - 1, hi) := hApath (wi - 1, hi) hq1in hq1open
        have hholein : InReg tl br ((wi, hi) : Pos) := by
          refine ⟨?_, ?_, ?_, ?_⟩ <;> dsimp only <;> omega
        have hq1inR : InReg tl br ((wi - 1, hi) : Pos) := by
          refine ⟨?_, ?_, ?_, ?_⟩ <;> dsimp only <;> omega
        have hreach_hole : RegReach g4 tl br (tl.1 + 1, tl.2 + 1)
            (wi, hi) := by
          refine Relation.ReflTransGen.tail hreach_q1
            ⟨hq1inR, hholein, hq1open, hholeopen, ?_⟩
          right
          exact ⟨rfl, Or.inl (by dsimp only; omega)⟩
        refine ⟨?_, ?_, ?_, ?_, ?_⟩
        · -- frame
          intro i j hij
          rw [fB i j (by
            rintro ⟨a', b', c', d'⟩
            dsimp only at a' c'
            exact hij ⟨by omega, b', by omega, d'⟩)]
          rw [fA i j (by
            rintro ⟨a', b', c', d'⟩
            dsimp only at b' d'
            exact hij ⟨a', by omega, c', by omega⟩)]
          rw [hg2def, setWall_ne _ _ _ _ _ (by
              intro hc
              dsimp only at hc
              exact hij ⟨by omega, by omega, by omega, by omega⟩),
            hg1def, setWallRow_ne _ _ _ _ _ _ (by
              intro hc
              exact hij ⟨by omega, by omega, by omega, by omega⟩)]
        · -- nodes
          intro p hp h1 h2
          obtain ⟨a, b, c, d⟩ := hp
          rcases Nat.lt_trichotomy p.1 wi with hlt | heq | hgt
          · rw [show (g4 p.1 p.2) = g3 p.1 p.2 from
              hg4low p.1 p.2 (by omega)]
            exact nA p ⟨a, by dsimp only; omega, c, by dsimp only; omega⟩
              h1 h2
          · exfalso
            omega
          · exact nB p ⟨by dsimp only; omega, b, by dsimp only; omega, d⟩
              h1 h2
        · -- evens
          intro p hp h1 h2
          obtain ⟨a, b, c, d⟩ := hp
          rcases Nat.lt_trichotomy p.1 wi with hlt | heq | hgt
          · rw [show (g4 p.1 p.2) = g3 p.1 p.2 from
              hg4low p.1 p.2 (by omega)]
            exact eA p ⟨a, by dsimp only; omega, c, by dsimp only; omega⟩
              h1 h2
          · rw [show (g4 p.1 p.2) = g2 p.1 p.2 from heq ▸ hg4band p.2]
            cases hv : (g2 p.1 p.2).wall
            · exfalso
              rw [heq] at hv
              have := (hrowvals p.2 c d).1 hv
              omega
            · rfl
          · exact eB p ⟨by dsimp only; omega, b, by dsimp only; omega, d⟩
              h1 h2
        · -- count
          rw [regOpenMid_split_h g4 h w tl br wi hi (by omega) (by omega)
            (by omega) (by omega) hwiE (by omega) (by omega) hhiO
            hrowvals4]
          rw [regNode_split_h h w tl br wi (by omega) (by omega) hwiE]
          rw [hAcongr]
          have hcB := cB
          have hcA := cA
          omega
        · -- conn
          intro p hp hop
          obtain ⟨a, b, c, d⟩ := hp
          rcases Nat.lt_trichotomy p.1 wi with hlt | heq | hgt
          · exact hApath p ⟨a, by dsimp only; omega, c,
              by dsimp only; omega⟩ hop
          · have hp2 : p.2 = hi := by
              have := (hrowvals4 p.2 c d).1 (by
                rw [← heq]
                exact hop)
              omega
            rw [show p = ((wi, hi) : Pos) from Prod.ext heq hp2]
            exact hreach_hole
          · have hq2in : InReg (wi, tl.2) br ((wi + 1, hi) : Pos) := by
              refine ⟨?_, ?_, ?_, ?_⟩ <;> dsimp only <;> omega
            have hq2open : (g4 (wi + 1) hi).wall = false :=
              nB (wi + 1, hi) hq2in (by dsimp only; omega)
                (by dsimp only; omega)
            have hq2inR : InReg tl br ((wi + 1, hi) : Pos) := by
              refine ⟨?_, ?_, ?_, ?_⟩ <;> dsimp only <;> omega
            have hreach_q2 : RegReach g4 tl br (tl.1 + 1, tl.2 + 1)
                (wi + 1, hi) := by
              refine Relation.ReflTransGen.tail hreach_hole
                ⟨hholein, hq2inR, hholeopen, hq2open, ?_⟩
              right
              exact ⟨rfl, Or.inl rfl⟩
            have hBsub : ∀ q : Pos, InReg (wi, tl.2) br q →
                InReg tl br q := by
              rintro q ⟨a', b', c', d'⟩
              dsimp only at a' c'
              exact ⟨by omega, b', by omega, d'⟩
            have hBpath1 : RegReach g4 tl br (wi + 1, tl.2 + 1)
                (wi + 1, hi) := by
              apply RegReach_mono_region g4 tl br (wi, tl.2) br hBsub
              exact rB (wi + 1, hi) hq2in hq2open
            have hBpath2 : RegReach g4 tl br (wi + 1, tl.2 + 1) p := by
              apply RegReach_mono_region g4 tl br (wi, tl.2) br hBsub
              exact rB p ⟨by dsimp only; omega, b, by dsimp only; omega, d⟩
                hop
            exact Relation.ReflTransGen.trans hreach_q2
              (Relation.ReflTransGen.trans
                (RegReach_symm _ _ _ _ _ hBpath1) hBpath2)
      · -- vertical wall at even column wi with hole at odd row hi
        rename_i hwh
        set wi := evenPick (wp tl br) (tl.2 + 1) br.2 with hwidef
        set hi := oddPick (hp tl br) (tl.1 + 1) br.1 with hhidef
        obtain ⟨hwiE, hwiL, hwiU⟩ :=
          evenPick_spec (wp tl br) (tl.2 + 1) br.2 (by omega) (by omega)
        obtain ⟨hhiO, hhiL, hhiU⟩ :=
          oddPick_spec (hp tl br) (tl.1 + 1) br.1 (by omega) (by omega)
        rw [← hwidef] at hwiE hwiL hwiU
        rw [← hhidef] at hhiO hhiL hhiU
        set g1 := setWallCol g wi (tl.1 + 1) br.1 with hg1def
        set g2 := setWall g1 (hi, wi) false with hg2def
        set g3 := divide wp hp f g2 tl (br.1, wi) with hg3def
        set g4 := divide wp hp f g3 (tl.1, wi) br with hg4def
        have hregA : RegionOK h w tl (br.1, wi) := by
          refine ⟨r1, r2, ?_, ?_, ?_, ?_, ?_, ?_⟩ <;> dsimp only <;> omega
        have hregB : RegionOK h w (tl.1, wi) br := by
          refine ⟨?_, ?_, r3, r4, ?_, ?_, ?_, ?_⟩ <;> dsimp only <;> omega
        have hg2cell : ∀ i j, ¬(j = wi) → g2 i j = g i j := by
          intro i j hij
          rw [hg2def, setWall_ne _ _ _ _ _ (by
              intro hc
              exact hij hc.2),
            hg1def, setWallCol_ne _ _ _ _ _ _ (by
              intro hc
              exact hij hc.2.2)]
        have hpreA : ∀ p : Pos, InReg tl (br.1, wi) p →
            (g2 p.1 p.2).wall = false := by
          intro p hp
          obtain ⟨a, b, c, d⟩ := hp
          dsimp only at b d
          rw [hg2cell p.1 p.2 (by omega)]
          exact hpre p ⟨a, b, c, by omega⟩
        obtain ⟨fA, nA, eA, cA, rA⟩ :=
          ih g2 tl (br.1, wi) hregA (by dsimp only; omega) hpreA
        rw [← hg3def] at fA nA eA cA rA
        have hpreB : ∀ p : Pos, InReg (tl.1, wi) br p →
            (g3 p.1 p.2).wall = false := by
          intro p hp
          obtain ⟨a, b, c, d⟩ := hp
          dsimp only at a c
          rw [fA p.1 p.2 (by
              rintro ⟨a', b', c', d'⟩
              dsimp only at d'
              omega),
            hg2cell p.1 p.2 (by omega)]
          exact hpre p ⟨a, b, by omega, d⟩
        obtain ⟨fB, nB, eB, cB, rB⟩ :=
          ih g3 (tl.1, wi) br hregB (by dsimp only; omega) hpreB
        rw [← hg4def] at fB nB eB cB rB
        have hg4low : ∀ i j, j ≤ wi → g4 i j = g3 i j := by
          intro i j hij
          rw [hg4def]
          exact fB i j (by
            rintro ⟨a', b', c', d'⟩
            dsimp only at c'
            omega)
        have hg3band : ∀ i, g3 i wi = g2 i wi := by
          intro i
          rw [hg3def]
          exact fA i wi (by
            rintro ⟨a', b', c', d'⟩
            dsimp only at d'
            omega)
        have hg4band : ∀ i, g4 i wi = g2 i wi := by
          intro i
          rw [hg4low i wi le_rfl]
          exact hg3band i
        have hcolvals : ∀ i, tl.1 < i → i < br.1 →
            ((g2 i wi).wall = false ↔ i = hi) := by
          intro i hi1 hi2
          constructor
          · intro ho
            by_contra hne
            rw [hg2def, setWall_ne _ _ _ _ _ (by
                intro hc
                exact hne hc.1),
              hg1def] at ho
            have hself := setWallCol_self g wi (tl.1 + 1) br.1 i
              (by omega) hi2
            rw [hself] at ho
            exact absurd ho (by simp)
          · intro hj
            rw [hj, hg2def]
            exact wall_setWall_false_self g1 (hi, wi)
        have hcolvals4 : ∀ i, tl.1 < i → i < br.1 →
            ((g4 i wi).wall = false ↔ i = hi) := by
          intro i hi1 hi2
          rw [hg4band i]
          exact hcolvals i hi1 hi2
        have hAcongr : regOpenMidCount g4 h w tl (br.1, wi) =
            regOpenMidCount g3 h w tl (br.1, wi) := by
          apply filter_card_congr
          intro x _
          constructor
          · rintro ⟨hin, hm, ho⟩
            refine ⟨hin, hm, ?_⟩
            rw [← hg4low x.1 x.2 (by
              have := hin.2.2.2
              dsimp only at this
              omega)]
            exact ho
          · rintro ⟨hin, hm, ho⟩
            refine ⟨hin, hm, ?_⟩
            rw [hg4low x.1 x.2 (by
              have := hin.2.2.2
              dsimp only at this
              omega)]
            exact ho
        have hApath : ∀ q : Pos, InReg tl (br.1, wi) q →
            (g4 q.1 q.2).wall = false →
            RegReach g4 tl br (tl.1 + 1, tl.2 + 1) q := by
          intro q hq hoq
          have hqlt : q.2 < wi := by
            have := hq.2.2.2
            dsimp only at this
            omega
          have h1 : RegReach g3 tl (br.1, wi) (tl.1 + 1, tl.2 + 1) q :=
            rA q hq (by
              rw [← hg4low q.1 q.2 (by omega)]
              exact hoq)
          have h2 : RegReach g4 tl (br.1, wi) (tl.1 + 1, tl.2 + 1) q := by
            apply RegReach_congr g3 g4 tl (br.1, wi) _ _ _ h1
            intro p hp
            rw [hg4low p.1 p.2 (by
              have := hp.2.2.2
              dsimp only at this
              omega)]
          apply RegReach_mono_region g4 tl br tl (br.1, wi) _ _ _ h2
          rintro p ⟨a', b', c', d'⟩
          dsimp only at b' d'
          exact ⟨a', b', c', by omega⟩
        have hq1in : InReg tl (br.1, wi) ((hi, wi - 1) : Pos) := by
          refine ⟨?_, ?_, ?_, ?_⟩ <;> dsimp only <;> omega
        have hq1open : (g4 hi (wi - 1)).wall = false := by
          rw [show (g4 hi (wi - 1)) = g3 hi (wi - 1) from
            hg4low hi (wi - 1) (by omega)]
          exact nA (hi, wi - 1) hq1in (by dsimp only; omega)
            (by dsimp only; omega)
        have hholeopen : (g4 hi wi).wall = false :=
          (hcolvals4 hi (by omega) (by omega)).2 rfl
        have hreach_q1 : RegReach g4 tl br (tl.1 + 1, tl.2 + 1)
            (hi, wi - 1) := hApath (hi, wi - 1) hq1in hq1open
        have hholein : InReg tl br ((hi, wi) : Pos) := by
          refine ⟨?_, ?_, ?_, ?_⟩ <;> dsimp only <;> omega
        have hq1inR : InReg tl br ((hi, wi - 1) : Pos) := by
          refine ⟨?_, ?_, ?_, ?_⟩ <;> dsimp only <;> omega
        have hreach_hole : RegReach g4 tl br (tl.1 + 1, tl.2 + 1)
            (hi, wi) := by
          refine Relation.ReflTransGen.tail hreach_q1
            ⟨hq1inR, hholein, hq1open, hholeopen, ?_⟩
          left
          exact ⟨rfl, Or.inl (by dsimp only; omega)⟩
        refine ⟨?_, ?_, ?_, ?_, ?_⟩
        · -- frame
          intro i j hij
          rw [fB i j (by
            rintro ⟨a', b', c', d'⟩
            dsimp only at a' c'
            exact hij ⟨a', by omega, by omega, d'⟩)]
          rw [fA i j (by
            rintro ⟨a', b', c', d'⟩
            dsimp only at b' d'
            exact hij ⟨by omega, by omega, c', by omega⟩)]
          rw [hg2def, setWall_ne _ _ _ _ _ (by
              intro hc
              dsimp only at hc
              exact hij ⟨by omega, by omega, by omega, by omega⟩),
            hg1def, setWallCol_ne _ _ _ _ _ _ (by
              intro hc
              exact hij ⟨by omega, by omega, by omega, by omega⟩)]
        · -- nodes
          intro p hp h1 h2
          obtain ⟨a, b, c, d⟩ := hp
          rcases Nat.lt_trichotomy p.2 wi with hlt | heq | hgt
          · rw [show (g4 p.1 p.2) = g3 p.1 p.2 from
              hg4low p.1 p.2 (by omega)]
            exact nA p ⟨a, b, c, by dsimp only; omega⟩ h1 h2
          · exfalso
            omega
          · exact nB p ⟨a, b, by dsimp only; omega, d⟩ h1 h2
        · -- evens
          intro p hp h1 h2
          obtain ⟨a, b, c, d⟩ := hp
          rcases Nat.lt_trichotomy p.2 wi with hlt | heq | hgt
          · rw [show (g4 p.1 p.2) = g3 p.1 p.2 from
              hg4low p.1 p.2 (by omega)]
            exact eA p ⟨a, b, c, by dsimp only; omega⟩ h1 h2
          · rw [show (g4 p.1 p.2) = g2 p.1 p.2 from heq ▸ hg4band p.1]
            cases hv : (g2 p.1 p.2).wall
            · exfalso
              rw [heq] at hv
              have := (hcolvals p.1 a b).1 hv
              omega
            · rfl
          · exact eB p ⟨a, b, by dsimp only; omega, d⟩ h1 h2
        · -- count
          rw [regOpenMid_split_v g4 h w tl br wi hi (by omega) (by omega)
            (by omega) (by omega) hwiE (by omega) (by omega) hhiO
            hcolvals4]
          rw [regNode_split_v h w tl br wi (by omega) (by omega) hwiE]
          rw [hAcongr]
          have hcB := cB
          have hcA := cA
          omega
        · -- conn
          intro p hp hop
          obtain ⟨a, b, c, d⟩ := hp
          rcases Nat.lt_trichotomy p.2 wi with hlt | heq | hgt
          · exact hApath p ⟨a, b, c, by dsimp only; omega⟩ hop
          · have hp1 : p.1 = hi := by
              have := (hcolvals4 p.1 a b).1 (by
                rw [← heq]
                exact hop)
              omega
            rw [show p = ((hi, wi) : Pos) from Prod.ext hp1 heq]
            exact hreach_hole
          · have hq2in : InReg (tl.1, wi) br ((hi, wi + 1) : Pos) := by
              refine ⟨?_, ?_, ?_, ?_⟩ <;> dsimp only <;> omega
            have hq2open : (g4 hi (wi + 1)).wall = false :=
              nB (hi, wi + 1) hq2in (by dsimp only; omega)
                (by dsimp only; omega)
            have hq2inR : InReg tl br ((hi, wi + 1) : Pos) := by
              refine ⟨?_, ?_, ?_, ?_⟩ <;> dsimp only <;> omega
            have hreach_q2 : RegReach g4 tl br (tl.1 + 1, tl.2 + 1)
                (hi, wi + 1) := by
              refine Relation.ReflTransGen.tail hreach_hole
                ⟨hholein, hq2inR, hholeopen, hq2open, ?_⟩
              left
              exact ⟨rfl, Or.inl rfl⟩
            have hBsub : ∀ q : Pos, InReg (tl.1, wi) br q →
                InReg tl br q := by
              rintro q ⟨a', b', c', d'⟩
              dsimp only at a' c'
              exact ⟨a', b', by omega, d'⟩
            have hBpath1 : RegReach g4 tl br (tl.1 + 1, wi + 1)
                (hi, wi + 1) := by
              apply RegReach_mono_region g4 tl br (tl.1, wi) br hBsub
              exact rB (hi, wi + 1) hq2in hq2open
            have hBpath2 : RegReach g4 tl br (tl.1 + 1, wi + 1) p := by
              apply RegReach_mono_region g4 tl br (tl.1, wi) br hBsub
              exact rB p ⟨a, b, by dsimp only; omega, d⟩ hop
            exact Relation.ReflTransGen.trans hreach_q2
              (Relation.ReflTransGen.trans
                (RegReach_symm _ _ _ _ _ hBpath1) hBpath2)

/-- `gen_from_divide` produces a perfect maze -/
theorem divide_perfect (wp hp : Pos → Pos → Nat) (h w : Nat)
    (hh3 : 3 ≤ h) (hw3 : 3 ≤ w) (hho : h % 2 = 1) (hwo : w % 2 = 1)
    (cells : Grid) (hcells : ∀ i j, cells i j = ⟨false, false⟩) :
    adjCount (gen_from_divide wp hp h w cells).cells h w + 1 =
      openCount (gen_from_divide wp hp h w cells).cells h w ∧
    ∀ p : Pos, OpenIn (gen_from_divide wp hp h w cells).cells h w p →
      ReachOpen (gen_from_divide wp hp h w cells).cells h w (1, 0) p := by
  set c1 := borderWalls h w cells with hc1def
  set c2 := setWall c1 (1, 0) false with hc2def
  set c3 := setWall c2 (h - 2, w - 1) false with hc3def
  set G := divide wp hp (h + w) c3 (0, 0) (h - 1, w - 1) with hGdef
  have hMc : (gen_from_divide wp hp h w cells).cells = G := rfl
  have hIR : ∀ p : Pos, InReg (0, 0) (h - 1, w - 1) p ↔ Interior h w p := by
    intro p
    exact Iff.rfl
  have hreg : RegionOK h w (0, 0) (h - 1, w - 1) := by
    refine ⟨?_, ?_, ?_, ?_, ?_, ?_, ?_, ?_⟩ <;> dsimp only <;> omega
  have hc3int : ∀ p : Pos, Interior h w p → c3 p.1 p.2 = cells p.1 p.2 := by
    intro p hp
    obtain ⟨a, b, c, d⟩ := hp
    rw [hc3def, setWall_ne _ _ _ _ _ (by
        intro hc
        omega),
      hc2def, setWall_ne _ _ _ _ _ (by
        intro hc
        omega),
      hc1def]
    unfold borderWalls
    rw [if_neg (by omega)]
  have hpre : ∀ p : Pos, InReg (0, 0) (h - 1, w - 1) p →
      (c3 p.1 p.2).wall = false := by
    intro p hp
    rw [hc3int p ((hIR p).1 hp), hcells]
  obtain ⟨fD, nD, eD, cD, rD⟩ :=
    divide_spec wp hp h w (h + w) c3 (0, 0) (h - 1, w - 1) hreg
      (by dsimp only; omega) hpre
  rw [← hGdef] at fD nD eD cD rD
  have hallnodes : ∀ q : Pos, NodeP h w q → (G q.1 q.2).wall = false := by
    intro q hq
    have hqI := NodeP_interior h w hho hwo q hq
    exact nD q ((hIR q).2 hqI) hq.1 hq.2.1
  have hev : ∀ p : Pos, EvenP h w p → (G p.1 p.2).wall = true := by
    intro p hp
    exact eD p ((hIR p).2 hp.1) hp.2.1 hp.2.2
  have hbd : ∀ p : Pos, p.1 < h → p.2 < w → ¬ Interior h w p →
      p ≠ (1, 0) → p ≠ (h - 2, w - 1) → (G p.1 p.2).wall = true := by
    intro p hp1 hp2 hpI hpe hpg
    rw [show (G p.1 p.2) = c3 p.1 p.2 from fD p.1 p.2 (by
      intro hc
      exact hpI ((hIR (p.1, p.2)).1 hc))]
    rw [hc3def, setWall_ne _ _ _ _ _ (by
        intro hc
        exact hpg (Prod.ext hc.1 hc.2)),
      hc2def, setWall_ne _ _ _ _ _ (by
        intro hc
        exact hpe (Prod.ext hc.1 hc.2)),
      hc1def]
    unfold borderWalls
    rw [if_pos (by
      unfold Interior at hpI
      omega)]
  have heO : (G 1 0).wall = false := by
    rw [show (G 1 0) = c3 1 0 from fD 1 0 (by
      rintro ⟨-, -, hc, -⟩
      dsimp only at hc
      omega)]
    rw [hc3def, setWall_ne _ _ _ _ _ (by intro hc; omega), hc2def]
    exact wall_setWall_false_self c1 (1, 0)
  have hgO : (G (h - 2) (w - 1)).wall = false := by
    rw [show (G (h - 2) (w - 1)) = c3 (h - 2) (w - 1) from fD _ _ (by
      rintro ⟨-, -, -, hc⟩
      dsimp only at hc
      omega)]
    rw [hc3def]
    exact wall_setWall_false_self c2 (h - 2, w - 1)
  have hmids : ∀ p : Pos, MidP h w p → (G p.1 p.2).wall = false →
      (G (midEnds p).1.1 (midEnds p).1.2).wall = false ∧
      (G (midEnds p).2.1 (midEnds p).2.2).wall = false := by
    intro p hp _
    obtain ⟨⟨a, b, c, d⟩, hmix⟩ := hp
    rcases Nat.mod_two_eq_zero_or_one p.1 with e1 | e1
    · rw [midEnds, if_neg (by omega)]
      dsimp only
      constructor
      · exact hallnodes (p.1 - 1, p.2) ⟨by dsimp only; omega,
          by dsimp only; omega, by dsimp only; omega, by dsimp only; omega⟩
      · exact hallnodes (p.1 + 1, p.2) ⟨by dsimp only; omega,
          by dsimp only; omega, by dsimp only; omega, by dsimp only; omega⟩
    · rw [midEnds, if_pos e1]
      dsimp only
      constructor
      · exact hallnodes (p.1, p.2 - 1) ⟨by dsimp only; omega,
          by dsimp only; omega, by dsimp only; omega, by dsimp only; omega⟩
      · exact hallnodes (p.1, p.2 + 1) ⟨by dsimp only; omega,
          by dsimp only; omega, by dsimp only; omega, by dsimp only; omega⟩
  have hONC : openNodeCount G h w = regNodeCount h w (0, 0) (h - 1, w - 1)
      := by
    apply filter_card_congr
    intro x hx
    rw [mem_rangeProd] at hx
    constructor
    · rintro ⟨hn, -⟩
      have hxI := NodeP_interior h w hho hwo x hn
      exact ⟨(hIR x).2 hxI, hn.1, hn.2.1⟩
    · rintro ⟨hin, h1, h2⟩
      have hxI := (hIR x).1 hin
      have hn : NodeP h w x := ⟨h1, h2, by
          have := hxI.2.1
          omega, by
          have := hxI.2.2.2
          omega⟩
      exact ⟨hn, hallnodes x hn⟩
  have hOMC : openMidCount G h w =
      regOpenMidCount G h w (0, 0) (h - 1, w - 1) := by
    apply filter_card_congr
    intro x _
    constructor
    · rintro ⟨hm, ho⟩
      exact ⟨(hIR x).2 hm.1, hm.2, ho⟩
    · rintro ⟨hin, hmix, ho⟩
      exact ⟨⟨(hIR x).1 hin, hmix⟩, ho⟩
  have hn11 : NodeP h w ((1, 1) : Pos) := ⟨by decide, by decide, by omega,
    by omega⟩
  have hnGN : NodeP h w ((h - 2, w - 2) : Pos) := by
    refine ⟨?_, ?_, ?_, ?_⟩ <;> dsimp only <;> omega
  have ind11 : (G 1 1).wall = false := hallnodes (1, 1) hn11
  have indGN : (G (h - 2) (w - 2)).wall = false := hallnodes (h - 2, w - 2)
    hnGN
  have hoc := openCount_struct G h w hh3 hw3 hho hwo hev hbd heO hgO
  have hac := adjCount_struct G h w hh3 hw3 hho hwo hev hbd heO hgO hmids
  rw [if_pos ind11, if_pos indGN] at hac
  have hreachG : ∀ p : Pos, OpenIn G h w p → ReachOpen G h w (1, 0) p := by
    have hsub : ∀ q : Pos, InReg (0, 0) (h - 1, w - 1) q →
        q.1 < h ∧ q.2 < w := by
      intro q hq
      obtain ⟨a, b, c, d⟩ := hq
      dsimp only at b d
      omega
    have hconn : ∀ p : Pos, Interior h w p → (G p.1 p.2).wall = false →
        ReachOpen G h w (1, 1) p := by
      intro p hpI ho
      have := rD p ((hIR p).2 hpI) ho
      exact RegReach_to_Reach G h w (0, 0) (h - 1, w - 1) hsub _ _ this
    have hstep1 : ReachOpen G h w (1, 0) (1, 1) :=
      Relation.ReflTransGen.single
        ⟨⟨by omega, by omega, heO⟩, ⟨by omega, by omega, ind11⟩, by decide⟩
    intro p hop
    by_cases hpe : p.1 = 1 ∧ p.2 = 0
    · rw [show p = ((1, 0) : Pos) from Prod.ext hpe.1 hpe.2]
      exact Relation.ReflTransGen.refl
    · by_cases hpg : p.1 = h - 2 ∧ p.2 = w - 1
      · have hGNI : Interior h w ((h - 2, w - 2) : Pos) := by
          refine ⟨?_, ?_, ?_, ?_⟩ <;> dsimp only <;> omega
        rw [show p = ((h - 2, w - 1) : Pos) from Prod.ext hpg.1 hpg.2]
        refine Relation.ReflTransGen.trans hstep1
          (Relation.ReflTransGen.trans (hconn (h - 2, w - 2) hGNI indGN)
            (Relation.ReflTransGen.single
              ⟨⟨by omega, by omega, indGN⟩,
                ⟨by omega, by omega, hgO⟩, ?_⟩))
        left
        exact ⟨rfl, Or.inl (by dsimp only; omega)⟩
      · have hpInt : Interior h w p := by
          by_contra hpI
          have ho := hop.2.2
          rw [hbd p hop.1 hop.2.1 hpI
            (fun hc => hpe (by rw [hc]; exact ⟨rfl, rfl⟩))
            (fun hc => hpg (by rw [hc]; exact ⟨rfl, rfl⟩))] at ho
          exact absurd ho (by simp)
        exact Relation.ReflTransGen.trans hstep1 (hconn p hpInt hop.2.2)
  rw [hMc]
  exact ⟨by omega, hreachG⟩

/-- C1: for every requested dimensions with both components at least 3 and
any of the three generation strategies (`RandomWalk`, `RecursiveDivision`,
`Prim`), the maze returned by `new_from` satisfies the perfect-maze
invariant: the number of cardinal adjacencies between open cells is one
less than the number of open cells, and every open cell is reachable from
the entry cell through open cells, so the open cells form a single
connected component with no cycle.  The randomness oracle is assumed to
return permutations of the offset list for the walk shuffle and an
in-grid odd/odd seed cell, exactly as the source's rng does. -/
theorem C1_generated_mazes_perfect (d : Pos) (alg : CreationAlgorithm)
    (r : GenOracle) (m : Maze)
    (hd1 : 3 ≤ d.1) (hd2 : 3 ≤ d.2)
    (hσ : ShuffleOracleOK r.shuffle) (hσf : ShuffleOracleFull r.shuffle)
    (hst : NodeP (d.1 + if d.1 % 2 = 0 then 1 else 0)
      (d.2 + if d.2 % 2 = 0 then 1 else 0) r.starter)
    (hm : new_from d alg r = some m) :
    adjCount m.cells m.dimensions.1 m.dimensions.2 + 1 =
      openCount m.cells m.dimensions.1 m.dimensions.2 ∧
    ∀ p : Pos, OpenIn m.cells m.dimensions.1 m.dimensions.2 p →
      ReachOpen m.cells m.dimensions.1 m.dimensions.2 m.entrypoint p := by
  obtain ⟨hh3, hho⟩ := normDim_facts d.1 hd1
  obtain ⟨hw3, hwo⟩ := normDim_facts d.2 hd2
  simp only [new_from] at hm
  rw [if_neg (by omega)] at hm
  cases alg with
  | RandomWalk =>
      injection hm with hm
      subst hm
      exact walk_perfect r.shuffle hσ hσf r.starter _ _ hh3 hw3 hho hwo hst
        _ (fun i j => rfl)
  | RecursiveDivision =>
      injection hm with hm
      subst hm
      exact divide_perfect r.wallPick r.holePick _ _ hh3 hw3 hho hwo
        _ (fun i j => rfl)
  | Prim =>
      injection hm with hm
      subst hm
      exact prim_perfect r.pickFrontier r.pickNeighbor r.starter _ _
        hh3 hw3 hho hwo hst _ (fun i j => rfl)

theorem C1_generated_mazes_perfect_witness :
    ShuffleOracleOK (fun _ _ => walkOffsets) ∧
    ShuffleOracleFull (fun _ _ => walkOffsets) ∧
    (adjCount (gen_from_walk (fun _ _ => walkOffsets) (1, 1) 3 3
          (fun _ _ => ⟨true, false⟩)).cells 3 3 + 1 =
        openCount (gen_from_walk (fun _ _ => walkOffsets) (1, 1) 3 3
          (fun _ _ => ⟨true, false⟩)).cells 3 3 ∧
      ∀ p : Pos, OpenIn (gen_from_walk (fun _ _ => walkOffsets) (1, 1) 3 3
          (fun _ _ => ⟨true, false⟩)).cells 3 3 p →
        ReachOpen (gen_from_walk (fun _ _ => walkOffsets) (1, 1) 3 3
          (fun _ _ => ⟨true, false⟩)).cells 3 3 (1, 0) p) :=
  ⟨fun _ _ _ ho => ho, fun _ _ _ ho => ho,
   C1_generated_mazes_perfect (3, 3) CreationAlgorithm.RandomWalk
     ⟨fun _ _ => walkOffsets, (1, 1), fun _ _ => 0, fun _ _ => 0,
      fun _ _ => 0, fun _ _ => 0⟩
     (gen_from_walk (fun _ _ => walkOffsets) (1, 1) 3 3
       (fun _ _ => ⟨true, false⟩))
     (by decide) (by decide) (fun _ _ _ ho => ho) (fun _ _ _ ho => ho)
     (by decide) rfl⟩

/-! ## Generic reachability infrastructure for the solver proofs -/

/-- reachability along adjacent cells inside an allowed set `A` -/
def ReachIn (A : Pos → Prop) : Pos → Pos → Prop :=
  Relation.ReflTransGen (fun a b => A a ∧ A b ∧ AdjacentP a b)

theorem ReachOpen_eq_ReachIn (g : Grid) (h w : Nat) :
    ReachOpen g h w = ReachIn (OpenIn g h w) := rfl

theorem ReachIn_mono (A B : Pos → Prop) (hAB : ∀ p, A p → B p) (a b : Pos)
    (hr : ReachIn A a b) : ReachIn B a b := by
  induction hr with
  | refl => exact Relation.ReflTransGen.refl
  | tail _ hst ih =>
      exact ih.tail ⟨hAB _ hst.1, hAB _ hst.2.1, hst.2.2⟩

theorem ReachIn_symm (A : Pos → Prop) (a b : Pos) (hr : ReachIn A a b) :
    ReachIn A b a := by
  induction hr with
  | refl => exact Relation.ReflTransGen.refl
  | tail _ hst ih =>
      exact Relation.ReflTransGen.trans
        (Relation.ReflTransGen.single ⟨hst.2.1, hst.1, AdjacentP_symm _ _ hst.2.2⟩)
        ih

theorem ReachIn_congr (A B : Pos → Prop) (hAB : ∀ p, A p ↔ B p) (a b : Pos)
    (hr : ReachIn A a b) : ReachIn B a b :=
  ReachIn_mono A B (fun p => (hAB p).1) a b hr

/-- a chain between two cells can be replaced by a duplicate-free chain
using only cells of the original one -/
theorem chain_dedup {α : Type} (r : α → α → Prop) :
    ∀ (n : Nat) (l : List α) (a b : α), l.length ≤ n → List.Chain r a l →
      (a :: l).getLast (List.cons_ne_nil _ _) = b →
      ∃ l', List.Chain r a l' ∧
        (a :: l').getLast (List.cons_ne_nil _ _) = b ∧
        (a :: l').Nodup ∧ l' ⊆ l := by
  intro n
  induction n with
  | zero =>
      intro l a b hlen hch hlast
      rw [List.length_eq_zero.1 (Nat.le_zero.1 hlen)] at hch hlast ⊢
      exact ⟨[], List.Chain.nil, hlast, List.nodup_singleton a,
        List.Subset.refl _⟩
  | succ n ih =>
      intro l a b hlen hch hlast
      by_cases ha : a ∈ l
      · obtain ⟨l₁, l₂, rfl⟩ := List.append_of_mem ha
        have hch₂ : List.Chain r a l₂ := (List.chain_split.1 hch).2
        have hlast₂ : (a :: l₂).getLast (List.cons_ne_nil _ _) = b := by
          have h1 : (a :: (l₁ ++ a :: l₂)).getLast? = (a :: l₂).getLast? := by
            rw [show a :: (l₁ ++ a :: l₂) = (a :: l₁) ++ (a :: l₂) from
              by simp]
            exact List.getLast?_append_of_ne_nil _ (List.cons_ne_nil _ _)
          rw [List.getLast?_eq_getLast _ (List.cons_ne_nil _ _),
            List.getLast?_eq_getLast _ (List.cons_ne_nil _ _)] at h1
          rw [← Option.some.inj h1]
          exact hlast
        obtain ⟨l', h1, h2, h3, h4⟩ := ih l₂ a b (by
          have := List.length_append l₁ (a :: l₂)
          simp only [List.length_cons] at this ⊢
          omega) hch₂ hlast₂
        exact ⟨l', h1, h2, h3, fun x hx =>
          List.mem_append_right l₁ (List.mem_cons_of_mem a (h4 hx))⟩
      · match l with
        | [] =>
            exact ⟨[], List.Chain.nil, hlast, List.nodup_singleton a,
              List.Subset.refl _⟩
        | c :: t =>
            have hrac : r a c := (List.chain_cons.1 hch).1
            have hcht : List.Chain r c t := (List.chain_cons.1 hch).2
            have hlast' : (c :: t).getLast (List.cons_ne_nil _ _) = b := by
              rwa [List.getLast_cons_cons] at hlast
            obtain ⟨t', h1, h2, h3, h4⟩ := ih t c b (by
              simp only [List.length_cons] at hlen
              omega) hcht hlast'
            refine ⟨c :: t', List.chain_cons.2 ⟨hrac, h1⟩, ?_, ?_, ?_⟩
            · rwa [List.getLast_cons_cons]
            · refine List.nodup_cons.2 ⟨?_, h3⟩
              intro hmem
              rcases List.mem_cons.1 hmem with h | h
              · exact ha (h ▸ List.mem_cons_self c t)
              · exact ha (List.mem_cons_of_mem c (h4 h))
            · exact List.cons_subset_cons c h4

/-- removing a cell all of whose allowed neighbours coincide preserves
reachability between other cells (paths through it can be spliced out) -/
theorem reach_avoid (A : Pos → Prop) (x : Pos)
    (hu : ∀ a b, A a → A b → AdjacentP x a → AdjacentP x b → a = b) :
    ∀ (n : Nat) (l : List Pos) (a b : Pos), l.length ≤ n → a ≠ x → b ≠ x →
      A a →
      List.Chain (fun u v => A u ∧ A v ∧ AdjacentP u v) a l →
      (a :: l).getLast (List.cons_ne_nil _ _) = b →
      ReachIn (fun p => A p ∧ p ≠ x) a b := by
  intro n
  induction n with
  | zero =>
      intro l a b hlen _ _ _ _ hlast
      rw [List.length_eq_zero.1 (Nat.le_zero.1 hlen)] at hlast
      rw [show b = a from hlast.symm]
      exact Relation.ReflTransGen.refl
  | succ n ih =>
      intro l a b hlen hax hbx hAa hch hlast
      match l with
      | [] =>
          rw [show b = a from hlast.symm]
          exact Relation.ReflTransGen.refl
      | c :: t =>
          have hst : A a ∧ A c ∧ AdjacentP a c := (List.chain_cons.1 hch).1
          have hcht : List.Chain _ c t := (List.chain_cons.1 hch).2
          have hlast' : (c :: t).getLast (List.cons_ne_nil _ _) = b := by
            rwa [List.getLast_cons_cons] at hlast
          by_cases hcx : c = x
          · subst hcx
            match t, hlast' with
            | [], hlast' => exact absurd (by simpa using hlast'.symm) hbx
            | d :: t', hlast' =>
                have hst2 : A c ∧ A d ∧ AdjacentP c d :=
                  (List.chain_cons.1 hcht).1
                have had : a = d :=
                  hu a d hAa hst2.2.1 (AdjacentP_symm _ _ hst.2.2) hst2.2.2
                have hchd : List.Chain _ d t' := (List.chain_cons.1 hcht).2
                have hlast'' : (d :: t').getLast (List.cons_ne_nil _ _) = b :=
                  by rwa [List.getLast_cons_cons] at hlast'
                rw [had]
                exact ih t' d b (by
                  simp only [List.length_cons] at hlen
                  omega) (had ▸ hax) hbx hst2.2.1 hchd hlast''
          · refine Relation.ReflTransGen.head ⟨⟨hAa, hax⟩, ⟨hst.2.1, hcx⟩,
              hst.2.2⟩ ?_
            exact ih t c b (by
              simp only [List.length_cons] at hlen
              omega) hcx hbx hst.2.1 hcht hlast'

/-- `reach_avoid` packaged on `ReachIn` -/
theorem ReachIn_avoid (A : Pos → Prop) (x : Pos)
    (hu : ∀ a b, A a → A b → AdjacentP x a → AdjacentP x b → a = b)
    (a b : Pos) (hax : a ≠ x) (hbx : b ≠ x) (hr : ReachIn A a b) :
    ReachIn (fun p => A p ∧ p ≠ x) a b := by
  obtain ⟨l, hch, hlast⟩ := List.exists_chain_of_relationReflTransGen hr
  match l, hch, hlast with
  | [], _, hlast =>
      rw [show b = a from (by simpa using hlast.symm)]
      exact Relation.ReflTransGen.refl
  | c :: t, hch, hlast =>
      exact reach_avoid A x hu (c :: t).length (c :: t) a b le_rfl hax hbx
        (List.chain_cons.1 hch).1.1 hch hlast

/-- length-indexed walks inside an allowed set -/
def WalkN (A : Pos → Prop) : Nat → Pos → Pos → Prop
  | 0, a, b => a = b
  | n + 1, a, b => ∃ c, WalkN A n a c ∧ (A c ∧ A b ∧ AdjacentP c b)

theorem reachIn_iff_walkN (A : Pos → Prop) (a b : Pos) :
    ReachIn A a b ↔ ∃ n, WalkN A n a b := by
  constructor
  · intro hr
    induction hr with
    | refl => exact ⟨0, rfl⟩
    | tail _ hst ih =>
        obtain ⟨n, hn⟩ := ih
        exact ⟨n + 1, _, hn, hst⟩
  · rintro ⟨n, hn⟩
    induction n generalizing b with
    | zero =>
        rw [show b = a from hn.symm]
        exact Relation.ReflTransGen.refl
    | succ n ih =>
        obtain ⟨c, hc, hst⟩ := hn
        exact (ih c hc).tail hst

/-! ## Edge and degree counting on cell sets -/

/-- canonical orientation of a cardinal adjacency: right or down neighbour -/
def Canon (a b : Pos) : Prop :=
  (a.1 = b.1 ∧ a.2 + 1 = b.2) ∨ (a.2 = b.2 ∧ a.1 + 1 = b.1)

instance (a b : Pos) : Decidable (Canon a b) := by
  unfold Canon; infer_instance

theorem adj_iff_canon (a b : Pos) :
    AdjacentP a b ↔ Canon a b ∨ Canon b a := by
  unfold AdjacentP Canon
  omega

theorem canon_asymm (a b : Pos) (h1 : Canon a b) (h2 : Canon b a) : False := by
  unfold Canon at *
  omega

theorem AdjacentP_irrefl (a : Pos) (h : AdjacentP a a) : False := by
  unfold AdjacentP at h
  omega

/-- number of adjacent pairs inside a cell set, each counted once -/
def edgesIn (T : Finset Pos) : Nat :=
  ((T ×ˢ T).filter (fun q => Canon q.1 q.2)).card

/-- number of neighbours of a cell inside a cell set -/
def degIn (T : Finset Pos) (p : Pos) : Nat :=
  (T.filter (fun q => AdjacentP p q)).card

theorem degIn_fiber (T : Finset Pos) (p : Pos) (hp : p ∈ T) :
    (((T ×ˢ T).filter (fun q => AdjacentP q.1 q.2)).filter
      (fun q => q.1 = p)).card = degIn T p := by
  rw [degIn]
  apply Finset.card_bij (fun q _ => q.2)
  · intro a ha
    simp only [Finset.mem_filter, Finset.mem_product] at ha
    simp only [Finset.mem_filter]
    exact ⟨ha.1.1.2, ha.2 ▸ ha.1.2⟩
  · intro a ha b hb hab
    simp only [Finset.mem_filter, Finset.mem_product] at ha hb
    exact Prod.ext (ha.2.trans hb.2.symm) hab
  · intro b hb
    simp only [Finset.mem_filter] at hb
    refine ⟨(p, b), ?_, rfl⟩
    rw [Finset.mem_filter, Finset.mem_filter, Finset.mem_product]
    exact ⟨⟨⟨hp, hb.1⟩, hb.2⟩, rfl⟩

theorem ordered_adj_card (T : Finset Pos) :
    ((T ×ˢ T).filter (fun q => AdjacentP q.1 q.2)).card =
      ∑ p ∈ T, degIn T p := by
  have hmem : ∀ x ∈ (T ×ˢ T).filter (fun q => AdjacentP q.1 q.2),
      Prod.fst x ∈ T := by
    intro x hx
    simp only [Finset.mem_filter, Finset.mem_product] at hx
    exact hx.1.1
  rw [Finset.card_eq_sum_card_fiberwise hmem]
  apply Finset.sum_congr rfl
  intro p hp
  exact degIn_fiber T p hp

theorem swap_canon_card (T : Finset Pos) :
    ((T ×ˢ T).filter (fun q => Canon q.2 q.1)).card = edgesIn T := by
  rw [edgesIn]
  apply Finset.card_bij (fun q _ => (q.2, q.1))
  · intro a ha
    simp only [Finset.mem_filter, Finset.mem_product] at ha ⊢
    exact ⟨⟨ha.1.2, ha.1.1⟩, ha.2⟩
  · intro a ha b hb hab
    simp only [Prod.mk.injEq] at hab
    exact Prod.ext hab.2 hab.1
  · intro b hb
    simp only [Finset.mem_filter, Finset.mem_product] at hb ⊢
    exact ⟨(b.2, b.1), ⟨⟨hb.1.2, hb.1.1⟩, hb.2⟩, rfl⟩

theorem handshake (T : Finset Pos) :
    ∑ p ∈ T, degIn T p = 2 * edgesIn T := by
  rw [← ordered_adj_card]
  have hsplit : (T ×ˢ T).filter (fun q => AdjacentP q.1 q.2) =
      (T ×ˢ T).filter (fun q => Canon q.1 q.2) ∪
      (T ×ˢ T).filter (fun q => Canon q.2 q.1) := by
    rw [← Finset.filter_or]
    apply Finset.filter_congr
    intro x _
    exact adj_iff_canon x.1 x.2
  rw [hsplit, Finset.card_union_of_disjoint, swap_canon_card, edgesIn]
  · omega
  · refine Finset.disjoint_left.2 (fun a ha hb => ?_)
    simp only [Finset.mem_filter] at ha hb
    exact canon_asymm a.1 a.2 ha.2 hb.2

theorem walkN_head (A : Pos → Prop) (a c : Pos)
    (hst : A a ∧ A c ∧ AdjacentP a c) :
    ∀ (n : Nat) (b : Pos), WalkN A n c b → WalkN A (n + 1) a b := by
  intro n
  induction n with
  | zero =>
      intro b hb
      exact ⟨a, rfl, hb ▸ hst⟩
  | succ n ih =>
      intro b hb
      obtain ⟨m, hm, hmb⟩ := hb
      exact ⟨m, ih m hm, hmb⟩

/-- every cell of `X` maps injectively to a distinct adjacent pair with one
endpoint in `X`, built by walking one step closer to `e` -/
theorem reach_inject (A : Pos → Prop) (e : Pos) (X : Finset Pos)
    (hX : ∀ x ∈ X, A x) (he : e ∉ X)
    (hreach : ∀ x ∈ X, ReachIn A e x) :
    ∃ f : Pos → Pos × Pos, Set.InjOn f X ∧
      ∀ x ∈ X, Canon (f x).1 (f x).2 ∧ A (f x).1 ∧ A (f x).2 ∧
        ((f x).1 = x ∨ (f x).2 = x) := by
  classical
  have hex : ∀ x ∈ X, ∃ n, WalkN A n e x :=
    fun x hx => (reachIn_iff_walkN A e x).1 (hreach x hx)
  let d : Pos → Nat := fun q =>
    if hq : ∃ n, WalkN A n e q then Nat.find hq else 0
  have hd0 : ∀ q (hq : ∃ n, WalkN A n e q), WalkN A (d q) e q := by
    intro q hq
    have hdq : d q = Nat.find hq := dif_pos hq
    rw [hdq]
    exact Nat.find_spec hq
  have hdmin : ∀ q (hq : ∃ n, WalkN A n e q) (m : Nat), WalkN A m e q →
      d q ≤ m := by
    intro q hq m hm
    have hdq : d q = Nat.find hq := dif_pos hq
    rw [hdq]
    exact Nat.find_min' hq hm
  have hstep : ∀ x ∈ X, ∃ c, A c ∧ AdjacentP c x ∧ d c + 1 = d x := by
    intro x hx
    have hq := hex x hx
    have hwx := hd0 x hq
    have hdx1 : d x ≠ 0 := by
      intro h0
      rw [h0] at hwx
      exact he (hwx ▸ hx)
    obtain ⟨m, hm⟩ : ∃ m, d x = m + 1 := ⟨d x - 1, by omega⟩
    rw [hm] at hwx
    obtain ⟨c, wc, st⟩ := hwx
    have hqc : ∃ n, WalkN A n e c := ⟨m, wc⟩
    have h1 : d c ≤ m := hdmin c hqc m wc
    have h2 : d x ≤ d c + 1 :=
      hdmin x hq (d c + 1) ⟨c, hd0 c hqc, st⟩
    exact ⟨c, st.1, st.2.2, by omega⟩
  let pred : Pos → Pos := fun x =>
    if hx : ∃ c, A c ∧ AdjacentP c x ∧ d c + 1 = d x then
      Classical.choose hx else x
  have hpred : ∀ x ∈ X, A (pred x) ∧ AdjacentP (pred x) x ∧
      d (pred x) + 1 = d x := by
    intro x hx
    have hex2 := hstep x hx
    have hpx : pred x = Classical.choose hex2 := dif_pos hex2
    rw [hpx]
    exact Classical.choose_spec hex2
  refine ⟨fun x => if Canon (pred x) x then (pred x, x) else (x, pred x),
    ?_, ?_⟩
  · intro x₁ h₁ x₂ h₂ heq
    have hp₁ := hpred x₁ h₁
    have hp₂ := hpred x₂ h₂
    dsimp only at heq
    by_cases c₁ : Canon (pred x₁) x₁ <;> by_cases c₂ : Canon (pred x₂) x₂
    · rw [if_pos c₁, if_pos c₂, Prod.mk.injEq] at heq
      exact heq.2
    · rw [if_pos c₁, if_neg c₂, Prod.mk.injEq] at heq
      obtain ⟨ha, hb⟩ := heq
      exfalso
      subst ha
      have e1 := hp₁.2.2
      have e2 := hp₂.2.2
      rw [← hb] at e2
      omega
    · rw [if_neg c₁, if_pos c₂, Prod.mk.injEq] at heq
      obtain ⟨ha, hb⟩ := heq
      exfalso
      subst hb
      have e1 := hp₁.2.2
      have e2 := hp₂.2.2
      rw [← ha] at e2
      omega
    · rw [if_neg c₁, if_neg c₂, Prod.mk.injEq] at heq
      exact heq.1
  · intro x hx
    have hp := hpred x hx
    dsimp only
    by_cases c : Canon (pred x) x
    · rw [if_pos c]
      exact ⟨c, hp.1, hX x hx, Or.inr rfl⟩
    · rw [if_neg c]
      have hcadj := (adj_iff_canon (pred x) x).1 hp.2.1
      rcases hcadj with hc | hc
      · exact absurd hc c
      · exact ⟨hc, hX x hx, hp.1, Or.inl rfl⟩

/-- a set in which every cell is reachable from a member `e` has at least
`card - 1` internal adjacencies -/
theorem span_lower (T : Finset Pos) (e : Pos) (he : e ∈ T)
    (hconn : ∀ q ∈ T, ReachIn (fun p => p ∈ T) e q) :
    T.card ≤ edgesIn T + 1 := by
  classical
  obtain ⟨f, hinj, hf⟩ := reach_inject (fun p => p ∈ T) e (T.erase e)
    (fun x hx => Finset.mem_of_mem_erase hx)
    (fun hmem => (Finset.mem_erase.1 hmem).1 rfl)
    (fun x hx => hconn x (Finset.mem_of_mem_erase hx))
  have hcard : (T.erase e).card ≤ edgesIn T := by
    rw [edgesIn]
    apply Finset.card_le_card_of_injOn f
    · intro x hx
      obtain ⟨hc, h1, h2, _⟩ := hf x hx
      simp only [Finset.mem_filter, Finset.mem_product]
      exact ⟨⟨h1, h2⟩, hc⟩
    · exact hinj
  rw [Finset.card_erase_of_mem he] at hcard
  have hpos : 1 ≤ T.card := Finset.card_pos.2 ⟨e, he⟩
  omega

/-- separating a subset `X` not containing `e` from the rest of a connected
set costs at least one adjacency per cell of `X` -/
theorem sep_lower (O X : Finset Pos) (e : Pos) (hXO : X ⊆ O) (he : e ∉ X)
    (hreach : ∀ x ∈ X, ReachIn (fun p => p ∈ O) e x) :
    X.card + edgesIn (O \ X) ≤ edgesIn O := by
  classical
  obtain ⟨f, hinj, hf⟩ := reach_inject (fun p => p ∈ O) e X
    (fun x hx => hXO hx) he hreach
  have himg : X.image f ∪ ((O \ X) ×ˢ (O \ X)).filter
      (fun q => Canon q.1 q.2) ⊆ (O ×ˢ O).filter (fun q => Canon q.1 q.2) := by
    intro a ha
    rcases Finset.mem_union.1 ha with ha | ha
    · obtain ⟨x, hx, rfl⟩ := Finset.mem_image.1 ha
      obtain ⟨hc, h1, h2, _⟩ := hf x hx
      simp only [Finset.mem_filter, Finset.mem_product]
      exact ⟨⟨h1, h2⟩, hc⟩
    · simp only [Finset.mem_filter, Finset.mem_product, Finset.mem_sdiff]
        at ha ⊢
      exact ⟨⟨ha.1.1.1, ha.1.2.1⟩, ha.2⟩
  have hdisj : Disjoint (X.image f)
      (((O \ X) ×ˢ (O \ X)).filter (fun q => Canon q.1 q.2)) := by
    refine Finset.disjoint_left.2 (fun a ha hb => ?_)
    obtain ⟨x, hx, rfl⟩ := Finset.mem_image.1 ha
    obtain ⟨_, _, _, hend⟩ := hf x hx
    simp only [Finset.mem_filter, Finset.mem_product, Finset.mem_sdiff] at hb
    rcases hend with hend | hend
    · exact hb.1.1.2 (by rw [hend]; exact hx)
    · exact hb.1.2.2 (by rw [hend]; exact hx)
  have hcu := Finset.card_le_card himg
  rw [Finset.card_union_of_disjoint hdisj, Finset.card_image_of_injOn hinj]
    at hcu
  rw [edgesIn, edgesIn]
  omega

/-- the open cells of a grid as a finite set -/
def openFinset (g : Grid) (h w : Nat) : Finset Pos :=
  (Finset.range h ×ˢ Finset.range w).filter (fun p => (g p.1 p.2).wall = false)

theorem openFinset_card (g : Grid) (h w : Nat) :
    (openFinset g h w).card = openCount g h w := rfl

theorem mem_openFinset (g : Grid) (h w : Nat) (p : Pos) :
    p ∈ openFinset g h w ↔ OpenIn g h w p := by
  unfold openFinset OpenIn
  simp only [Finset.mem_filter, Finset.mem_product, Finset.mem_range]
  tauto

theorem edgesIn_openFinset (g : Grid) (h w : Nat) :
    edgesIn (openFinset g h w) = adjCount g h w := by
  rw [edgesIn, adjCount]
  have hsplit : ((openFinset g h w ×ˢ openFinset g h w).filter
      (fun q => Canon q.1 q.2)) =
      ((openFinset g h w ×ˢ openFinset g h w).filter
        (fun q => q.1.1 = q.2.1 ∧ q.1.2 + 1 = q.2.2)) ∪
      ((openFinset g h w ×ˢ openFinset g h w).filter
        (fun q => q.1.2 = q.2.2 ∧ q.1.1 + 1 = q.2.1)) := by
    rw [← Finset.filter_or]
    apply Finset.filter_congr
    intro x _
    exact Iff.rfl
  rw [hsplit, Finset.card_union_of_disjoint]
  · have h1 : ((openFinset g h w ×ˢ openFinset g h w).filter
        (fun q => q.1.1 = q.2.1 ∧ q.1.2 + 1 = q.2.2)).card =
        ((Finset.range h ×ˢ Finset.range w).filter
          (fun p => p.2 + 1 < w ∧ (g p.1 p.2).wall = false ∧
            (g p.1 (p.2 + 1)).wall = false)).card := by
      apply Finset.card_bij (fun q _ => q.1)
      · intro a ha
        simp only [Finset.mem_filter, Finset.mem_product, Finset.mem_range,
          mem_openFinset, OpenIn] at ha ⊢
        obtain ⟨⟨h1, h2⟩, h3, h4⟩ := ha
        refine ⟨⟨h1.1, h1.2.1⟩, ?_, h1.2.2, ?_⟩
        · omega
        · rw [show a.1.1 = a.2.1 from h3, show a.1.2 + 1 = a.2.2 from h4]
          exact h2.2.2
      · intro a ha b hb hab
        simp only [Finset.mem_filter] at ha hb
        have hab1 : a.1.1 = b.1.1 := by rw [hab]
        have hab2 : a.1.2 = b.1.2 := by rw [hab]
        have h2 : a.2 = b.2 := by
          have e1 := ha.2
          have e2 := hb.2
          apply Prod.ext <;> omega
        exact Prod.ext hab h2
      · intro b hb
        simp only [Finset.mem_filter, Finset.mem_product, Finset.mem_range]
          at hb
        refine ⟨(b, (b.1, b.2 + 1)), ?_, rfl⟩
        simp only [Finset.mem_filter, Finset.mem_product, mem_openFinset,
          OpenIn]
        exact ⟨⟨⟨hb.1.1, hb.1.2, hb.2.2.1⟩, ⟨hb.1.1, hb.2.1, hb.2.2.2⟩⟩,
          trivial, trivial⟩
    have h2 : ((openFinset g h w ×ˢ openFinset g h w).filter
        (fun q => q.1.2 = q.2.2 ∧ q.1.1 + 1 = q.2.1)).card =
        ((Finset.range h ×ˢ Finset.range w).filter
          (fun p => p.1 + 1 < h ∧ (g p.1 p.2).wall = false ∧
            (g (p.1 + 1) p.2).wall = false)).card := by
      apply Finset.card_bij (fun q _ => q.1)
      · intro a ha
        simp only [Finset.mem_filter, Finset.mem_product, Finset.mem_range,
          mem_openFinset, OpenIn] at ha ⊢
        obtain ⟨⟨h1, h2⟩, h3, h4⟩ := ha
        refine ⟨⟨h1.1, h1.2.1⟩, ?_, h1.2.2, ?_⟩
        · omega
        · rw [show a.1.2 = a.2.2 from h3, show a.1.1 + 1 = a.2.1 from h4]
          exact h2.2.2
      · intro a ha b hb hab
        simp only [Finset.mem_filter] at ha hb
        have hab1 : a.1.1 = b.1.1 := by rw [hab]
        have hab2 : a.1.2 = b.1.2 := by rw [hab]
        have h2 : a.2 = b.2 := by
          have e1 := ha.2
          have e2 := hb.2
          apply Prod.ext <;> omega
        exact Prod.ext hab h2
      · intro b hb
        simp only [Finset.mem_filter, Finset.mem_product, Finset.mem_range]
          at hb
        refine ⟨(b, (b.1 + 1, b.2)), ?_, rfl⟩
        simp only [Finset.mem_filter, Finset.mem_product, mem_openFinset,
          OpenIn]
        exact ⟨⟨⟨hb.1.1, hb.1.2, hb.2.2.1⟩, ⟨hb.2.1, hb.1.2, hb.2.2.2⟩⟩,
          trivial, trivial⟩
    omega
  · refine Finset.disjoint_left.2 (fun a ha hb => ?_)
    simp only [Finset.mem_filter] at ha hb
    have e1 := ha.2
    have e2 := hb.2
    omega

theorem degIn_one_unique (T : Finset Pos) (p : Pos) (h1 : degIn T p = 1) :
    ∃ u, u ∈ T ∧ AdjacentP p u ∧ ∀ v ∈ T, AdjacentP p v → v = u := by
  rw [degIn] at h1
  obtain ⟨u, hu⟩ := Finset.card_eq_one.1 h1
  have hmem : u ∈ T.filter (fun q => AdjacentP p q) := by
    rw [hu]
    exact Finset.mem_singleton_self u
  rw [Finset.mem_filter] at hmem
  refine ⟨u, hmem.1, hmem.2, ?_⟩
  intro v hv hadj
  have : v ∈ T.filter (fun q => AdjacentP p q) :=
    Finset.mem_filter.2 ⟨hv, hadj⟩
  rw [hu] at this
  exact Finset.mem_singleton.1 this

theorem degIn_erase_adj (T : Finset Pos) (x q : Pos) (hx : x ∈ T)
    (hadj : AdjacentP q x) : degIn (T.erase x) q = degIn T q - 1 := by
  rw [degIn, degIn, Finset.filter_erase,
    Finset.card_erase_of_mem (Finset.mem_filter.2 ⟨hx, hadj⟩)]

theorem degIn_erase_not_adj (T : Finset Pos) (x q : Pos)
    (hadj : ¬ AdjacentP q x) : degIn (T.erase x) q = degIn T q := by
  rw [degIn, degIn, Finset.filter_erase, Finset.erase_eq_of_not_mem]
  intro hmem
  exact hadj (Finset.mem_filter.1 hmem).2

/-- in a connected set whose adjacency count is one less than its size,
two cells of degree at least 1 whose complement has degree at least 2
have degree exactly 1, and the rest exactly 2 -/
theorem degree_forcing (T : Finset Pos) (e gl : Pos) (he : e ∈ T)
    (hg : gl ∈ T) (heg : e ≠ gl) (hE : edgesIn T + 1 = T.card)
    (hdeg2 : ∀ q ∈ T, q ≠ e → q ≠ gl → 2 ≤ degIn T q)
    (hdege : 1 ≤ degIn T e) (hdegg : 1 ≤ degIn T gl) :
    degIn T e = 1 ∧ degIn T gl = 1 ∧
      ∀ q ∈ T, q ≠ e → q ≠ gl → degIn T q = 2 := by
  have hsum := handshake T
  have hgmem : gl ∈ T.erase e :=
    Finset.mem_erase.2 ⟨fun hc => heg hc.symm, hg⟩
  have hs1 : degIn T e + ∑ p ∈ T.erase e, degIn T p = ∑ p ∈ T, degIn T p :=
    Finset.add_sum_erase T _ he
  have hs2 : degIn T gl + ∑ p ∈ (T.erase e).erase gl, degIn T p =
      ∑ p ∈ T.erase e, degIn T p :=
    Finset.add_sum_erase _ _ hgmem
  have hc1 : (T.erase e).card = T.card - 1 := Finset.card_erase_of_mem he
  have hc2 : ((T.erase e).erase gl).card = T.card - 2 := by
    rw [Finset.card_erase_of_mem hgmem, hc1]
    omega
  have hT2 : 2 ≤ T.card := Finset.one_lt_card.2 ⟨e, he, gl, hg, heg⟩
  have hbound : ∀ x ∈ (T.erase e).erase gl, 2 ≤ degIn T x := by
    intro x hx
    have hx1 := Finset.mem_erase.1 hx
    have hx2 := Finset.mem_erase.1 hx1.2
    exact hdeg2 x hx2.2 hx2.1 hx1.1
  have hlow : ((T.erase e).erase gl).card * 2 ≤
      ∑ p ∈ (T.erase e).erase gl, degIn T p := by
    have := Finset.card_nsmul_le_sum ((T.erase e).erase gl) (degIn T) 2 hbound
    simpa [smul_eq_mul, Nat.mul_comm] using this
  have hends : degIn T e = 1 ∧ degIn T gl = 1 := by
    constructor <;> omega
  refine ⟨hends.1, hends.2, ?_⟩
  intro q hq hqe hqg
  by_contra hcontra
  have hq3 : 3 ≤ degIn T q := by
    have := hdeg2 q hq hqe hqg
    omega
  have hqmem : q ∈ (T.erase e).erase gl :=
    Finset.mem_erase.2 ⟨hqg, Finset.mem_erase.2 ⟨hqe, hq⟩⟩
  have hs3 : degIn T q + ∑ p ∈ ((T.erase e).erase gl).erase q, degIn T p =
      ∑ p ∈ (T.erase e).erase gl, degIn T p :=
    Finset.add_sum_erase _ _ hqmem
  have hc3 : (((T.erase e).erase gl).erase q).card = T.card - 3 := by
    rw [Finset.card_erase_of_mem hqmem, hc2]
    omega
  have hT3 : 3 ≤ T.card := by
    have h1 : 0 < (((T.erase e).erase gl).erase q).card + 1 := by omega
    have := Finset.card_pos.2 ⟨q, hqmem⟩
    omega
  have hbound3 : ∀ x ∈ ((T.erase e).erase gl).erase q, 2 ≤ degIn T x := by
    intro x hx
    have hx0 := Finset.mem_erase.1 hx
    exact hbound x hx0.2
  have hlow3 : (((T.erase e).erase gl).erase q).card * 2 ≤
      ∑ p ∈ (((T.erase e).erase gl).erase q), degIn T p := by
    have := Finset.card_nsmul_le_sum (((T.erase e).erase gl).erase q)
      (degIn T) 2 hbound3
    simpa [smul_eq_mul, Nat.mul_comm] using this
  omega
